import Mathlib

/-!
# LINMA2710: dense matrices and the reverse-mode computation graph

A shallow embedding of `P2/matrix.cpp` (the dense `Matrix`), of `P1/mlp_sgd.cpp`
(the `Node` graph over dense matrices, its operators, their backward closures and
`Node::backward`), of `P2/distributedmatrix.cpp` (the column-partitioned matrix),
of the closures of `P2/mlp_sgd_distributed.cpp` that it supports, and of
`P3/matrix_opencl.cpp` (the kernel cache and `binary_cross_entropy_backward`).

Conventions of the embedding.

* `double` is an arbitrary scalar type `α` carrying the arithmetic operations that
  the code uses; theorems state which algebraic laws they need (exact arithmetic).
* `int` dimensions and loop counters are natural numbers.
* `for (int i = 0; i < n; ++i)` is `forLoop n`.
* `std::shared_ptr<Matrix>` and `Node *` are indices into the two heaps of a
  `State`; copying a pointer copies the index, so aliasing is preserved.
* A `std::function<void()>` closure is a value of `BackwardOp` recording what the
  lambda captured; `BackwardOp.run` is the body of the lambda.
* A `DistributedMatrix` is the object of one process; a collective call is a
  function of the objects of all the ranks, listed by rank.
* OpenCL contexts, queues and buffers are handles (natural numbers); the state of
  the device is a `World`, and the calls of the OpenCL implementation that may
  raise are the fields of a `Driver`, a parameter of the functions that call it.
  A function that can raise after it has changed the state returns the exception,
  if any, together with the new state.
* An unchecked `data[k]` outside the vector is undefined behaviour in C++; the
  embedding reads `0` and ignores the write. The theorems about all inputs carry
  the shape hypotheses under which no such access happens; an evaluation at an
  input where the code makes one says so.
-/

set_option linter.unusedVariables false
set_option linter.unusedSectionVars false

namespace Linma

/-- Counted loop `for (int i = 0; i < n; ++i) body(i)` threading the state. -/
def forLoop {σ : Type} (n : Nat) (body : Nat → σ → σ) (s : σ) : σ :=
  (List.range n).foldl (fun acc i => body i acc) s

/-- Dense matrix of `P2/matrix.hpp`: `rows`, `cols` and the row-major `data`. -/
structure Matrix (α : Type) where
  rows : Nat
  cols : Nat
  data : List α
deriving DecidableEq

namespace Matrix

variable {α : Type}

/-- `Matrix::Matrix(int n_rows, int n_cols)`: zero-filled storage. -/
def new [Zero α] (n_rows n_cols : Nat) : Matrix α :=
  { rows := n_rows, cols := n_cols, data := List.replicate (n_rows * n_cols) 0 }

/-- `Matrix::get`: `data[i * cols + j]`. -/
def get [Zero α] (m : Matrix α) (i j : Nat) : α :=
  m.data.getD (i * m.cols + j) 0

/-- `Matrix::set`: `data[i * cols + j] = value`. -/
def set (m : Matrix α) (i j : Nat) (value : α) : Matrix α :=
  { m with data := m.data.set (i * m.cols + j) value }

/-- `Matrix::numRows`. -/
def numRows (m : Matrix α) : Nat := m.rows

/-- `Matrix::numCols`. -/
def numCols (m : Matrix α) : Nat := m.cols

/-- `Matrix::fill`: every stored element becomes `value`. -/
def fill (m : Matrix α) (value : α) : Matrix α :=
  forLoop (m.rows * m.cols) (fun i m => { m with data := m.data.set i value }) m

/-- `Matrix::operator+(const Matrix &)`. -/
def add [Zero α] [Add α] (self other : Matrix α) : Matrix α :=
  forLoop self.rows (fun i m =>
    forLoop self.cols (fun j m =>
      m.set i j (self.data.getD (i * self.cols + j) 0 + other.get i j)) m)
    (new self.rows self.cols)

/-- `Matrix::operator*(double)`. -/
def mulScalar [Zero α] [Mul α] (self : Matrix α) (scalar : α) : Matrix α :=
  forLoop self.rows (fun i m =>
    forLoop self.cols (fun j m =>
      m.set i j (self.data.getD (i * self.cols + j) 0 * scalar)) m)
    (new self.rows self.cols)

/-- `Matrix::operator-`: `*this + (other * -1)`. -/
def sub [Zero α] [One α] [Neg α] [Add α] [Mul α] (self other : Matrix α) : Matrix α :=
  self.add (other.mulScalar (-1))

/-- `Matrix::transpose`. -/
def transpose [Zero α] (self : Matrix α) : Matrix α :=
  forLoop self.rows (fun i m =>
    forLoop self.cols (fun j m =>
      m.set j i (self.data.getD (i * self.cols + j) 0)) m)
    (new self.cols self.rows)

/-- `Matrix::operator*(const Matrix &)`, the version that is compiled (the second
one): the right operand is transposed first and the inner loop accumulates
`sum += data[i * cols + k] * otherT.get(j, k)` from `sum = 0`. -/
def mul [Zero α] [Add α] [Mul α] (self other : Matrix α) : Matrix α :=
  let otherT := other.transpose
  forLoop self.rows (fun i m =>
    forLoop other.numCols (fun j m =>
      let sum := forLoop self.cols (fun k sum =>
        sum + self.data.getD (i * self.cols + k) 0 * otherT.get j k) 0
      m.set i j sum) m)
    (new self.rows other.numCols)

/-- `Matrix::apply`. -/
def apply [Zero α] (self : Matrix α) (func : α → α) : Matrix α :=
  forLoop self.rows (fun i m =>
    forLoop self.cols (fun j m =>
      m.set i j (func (self.data.getD (i * self.cols + j) 0))) m)
    (new self.rows self.cols)

/-- `Matrix::sub_mul`: `*this = *this + other * ((-1) * scalar)`. -/
def sub_mul [Zero α] [One α] [Neg α] [Add α] [Mul α]
    (self : Matrix α) (scalar : α) (other : Matrix α) : Matrix α :=
  self.add (other.mulScalar ((-1) * scalar))

end Matrix

/-- What a call can raise: `std::invalid_argument`, or the dereference of a
pointer that designates no live object (undefined behaviour in C++). -/
inductive Error where
  | invalid_argument
  | invalid_pointer
deriving DecidableEq

namespace P1

/-- Captures of the lambdas that `P1/mlp_sgd.cpp` stores in `Node::backward_op`.
Matrix captures are `shared_ptr<Matrix>` (indices into `State.mats`); the binary
cross-entropy lambda captures its two nodes by reference (indices into
`State.nodes`). -/
inductive BackwardOp (α : Type) where
  | mul (this_values this_grads other_values other_grads result_grads : Nat)
  | add (this_grads other_grads result_grads : Nat)
  | sub (this_grads other_grads result_grads : Nat)
  | apply (this_values this_grads result_grads : Nat) (func_derivative : α → α)
      (rows cols : Nat)
  | transpose (this_grads result_grads : Nat)
  | bce (predictions targets : Nat)

/-- `class Node` of `P1/mlp_sgd.cpp`. An empty `std::function` is `none`. -/
structure Node (α : Type) where
  rows : Nat
  cols : Nat
  values : Nat
  grads : Nat
  backward_op : Option (BackwardOp α)
  dependencies : List Nat

/-- Program state: the heap of matrices held through `shared_ptr`, the heap of
`Node` objects, and the global arena `all_nodes` of `globals.hpp`. -/
structure State (α : Type) where
  mats : List (Matrix α)
  nodes : List (Node α)
  all_nodes : List Nat

namespace State

variable {α : Type}

/-- The state before any object exists. -/
def empty : State α := { mats := [], nodes := [], all_nodes := [] }

/-- Dereference of a `shared_ptr<Matrix>`. -/
def getMat (s : State α) (p : Nat) : Matrix α :=
  s.mats.getD p { rows := 0, cols := 0, data := [] }

/-- Dereference of a `Node *`. -/
def getNode (s : State α) (p : Nat) : Node α :=
  s.nodes.getD p { rows := 0, cols := 0, values := 0, grads := 0,
                   backward_op := none, dependencies := [] }

/-- Assignment through a `shared_ptr<Matrix>`: `*p = m`. -/
def setMat (s : State α) (p : Nat) (m : Matrix α) : State α :=
  { s with mats := s.mats.set p m }

/-- The pointer designates a matrix of the heap. -/
def validMat (s : State α) (p : Nat) : Prop := p < s.mats.length

instance (s : State α) (p : Nat) : Decidable (s.validMat p) :=
  inferInstanceAs (Decidable (p < s.mats.length))

/-- Allocation `std::make_shared<Matrix>(m)`: the new pointer and the new heap. -/
def allocMat (s : State α) (m : Matrix α) : State α × Nat :=
  ({ s with mats := s.mats ++ [m] }, s.mats.length)

/-- Construction of a `Node` object: the new pointer and the new heap. -/
def allocNode (s : State α) (n : Node α) : State α × Nat :=
  ({ s with nodes := s.nodes ++ [n] }, s.nodes.length)

/-- Update of the fields of the node that `p` points to. -/
def modifyNode (s : State α) (p : Nat) (f : Node α → Node α) : State α :=
  { s with nodes := s.nodes.modify f p }

end State

/-- `push_node` of `globals.cpp`: `all_nodes.push_back(node)`. -/
def push_node {α : Type} (s : State α) (node : Nat) : State α :=
  { s with all_nodes := s.all_nodes ++ [node] }

/-- `clear_nodes` of `globals.cpp`: every arena node is deleted and the arena is
emptied. The deleted objects stay as unreachable heap cells. -/
def clear_nodes {α : Type} (s : State α) : State α :=
  { s with all_nodes := [] }

namespace Node

variable {α : Type}

/-- `Node::Node(int m, int n)`. -/
def new [Zero α] (s : State α) (m n : Nat) : State α × Nat :=
  let (s1, values) := s.allocMat (Matrix.new m n)
  let (s2, grads) := s1.allocMat (Matrix.new m n)
  s2.allocNode { rows := m, cols := n, values := values, grads := grads,
                 backward_op := none, dependencies := [] }

/-- `Node::Node(const Matrix &values)`. -/
def ofMatrix [Zero α] (s : State α) (values : Matrix α) : State α × Nat :=
  let (s1, v) := s.allocMat values
  let (s2, g) := s1.allocMat (Matrix.new values.numRows values.numCols)
  s2.allocNode { rows := values.numRows, cols := values.numCols, values := v, grads := g,
                 backward_op := none, dependencies := [] }

/-- `Node::Node(const Node &other)`: the copy shares `values` and `grads`. -/
def copy (s : State α) (other : Nat) : Except Error (State α × Nat) :=
  match s.nodes[other]? with
  | some o => .ok (s.allocNode o)
  | none => .error .invalid_pointer

/-- `Node::operator*(Node &other)`. -/
def mul [Zero α] [Add α] [Mul α] (s : State α) (this other : Nat) :
    Except Error (State α × Nat) :=
  match s.nodes[this]?, s.nodes[other]? with
  | some A, some B =>
    if A.cols ≠ B.rows then .error .invalid_argument
    else
      let (s1, result) := ofMatrix s ((s.getMat A.values).mul (s.getMat B.values))
      let s2 := push_node s1 result
      .ok (s2.modifyNode result (fun r =>
        { r with dependencies := r.dependencies ++ [this, other]
                 backward_op := some (.mul A.values A.grads B.values B.grads r.grads) }),
        result)
  | _, _ => .error .invalid_pointer

/-- `Node::operator+(Node &other)`. -/
def add [Zero α] [Add α] (s : State α) (this other : Nat) :
    Except Error (State α × Nat) :=
  match s.nodes[this]?, s.nodes[other]? with
  | some A, some B =>
    if A.rows ≠ B.rows ∨ A.cols ≠ B.cols then .error .invalid_argument
    else
      let (s1, result) := ofMatrix s ((s.getMat A.values).add (s.getMat B.values))
      let s2 := push_node s1 result
      .ok (s2.modifyNode result (fun r =>
        { r with dependencies := r.dependencies ++ [this, other]
                 backward_op := some (.add A.grads B.grads r.grads) }),
        result)
  | _, _ => .error .invalid_pointer

/-- `Node::operator-(Node &other)`. -/
def sub [Zero α] [One α] [Neg α] [Add α] [Mul α] (s : State α) (this other : Nat) :
    Except Error (State α × Nat) :=
  match s.nodes[this]?, s.nodes[other]? with
  | some A, some B =>
    if A.rows ≠ B.rows ∨ A.cols ≠ B.cols then .error .invalid_argument
    else
      let (s1, result) := ofMatrix s ((s.getMat A.values).sub (s.getMat B.values))
      let s2 := push_node s1 result
      .ok (s2.modifyNode result (fun r =>
        { r with dependencies := r.dependencies ++ [this, other]
                 backward_op := some (.sub A.grads B.grads r.grads) }),
        result)
  | _, _ => .error .invalid_pointer

/-- `Node::apply(func, func_derivative)`; `func_derivative = nullptr` is `none`,
and then the result keeps an empty `backward_op`. -/
def apply [Zero α] (s : State α) (this : Nat) (func : α → α)
    (func_derivative : Option (α → α)) : Except Error (State α × Nat) :=
  match s.nodes[this]? with
  | some A =>
    let (s1, result) := ofMatrix s ((s.getMat A.values).apply func)
    let s2 := push_node s1 result
    let s3 := s2.modifyNode result (fun r =>
      { r with dependencies := r.dependencies ++ [this] })
    match func_derivative with
    | some fd =>
      .ok (s3.modifyNode result (fun r =>
        { r with backward_op := some (.apply A.values A.grads r.grads fd A.rows A.cols) }),
        result)
    | none => .ok (s3, result)
  | none => .error .invalid_pointer

/-- `Node::transpose()`. -/
def transpose [Zero α] (s : State α) (this : Nat) : Except Error (State α × Nat) :=
  match s.nodes[this]? with
  | some A =>
    let (s1, result) := ofMatrix s (s.getMat A.values).transpose
    let s2 := push_node s1 result
    .ok (s2.modifyNode result (fun r =>
      { r with dependencies := r.dependencies ++ [this]
               backward_op := some (.transpose A.grads r.grads) }),
      result)
  | none => .error .invalid_pointer

/-- `Node::zero_grad`: `grads->fill(0.)`. -/
def zero_grad [Zero α] (s : State α) (this : Nat) : Except Error (State α) :=
  match s.nodes[this]? with
  | some A =>
    if s.validMat A.grads then .ok (s.setMat A.grads ((s.getMat A.grads).fill 0))
    else .error .invalid_pointer
  | none => .error .invalid_pointer

end Node

/-- The constant `1e-12` of `binary_cross_entropy`. -/
def eps {α : Type} [Ring α] [Div α] : α := 1 / 10 ^ 12

namespace BackwardOp

variable {α : Type} [Ring α] [Div α]

/-- Body of the lambda stored in `backward_op`, run in state `s`; `none` when a
captured pointer designates no object. -/
def run (s : State α) : BackwardOp α → Option (State α)
  | .mul this_values this_grads other_values other_grads result_grads =>
    if s.validMat this_values ∧ s.validMat this_grads ∧ s.validMat other_values ∧
        s.validMat other_grads ∧ s.validMat result_grads then
      -- *this_grads = *this_grads + (*result_grads) * other_values->transpose();
      let s1 := s.setMat this_grads
        ((s.getMat this_grads).add ((s.getMat result_grads).mul (s.getMat other_values).transpose))
      -- *other_grads = *other_grads + this_values->transpose() * (*result_grads);
      some (s1.setMat other_grads
        ((s1.getMat other_grads).add ((s1.getMat this_values).transpose.mul (s1.getMat result_grads))))
    else none
  | .add this_grads other_grads result_grads =>
    if s.validMat this_grads ∧ s.validMat other_grads ∧ s.validMat result_grads then
      let s1 := s.setMat this_grads ((s.getMat this_grads).add (s.getMat result_grads))
      some (s1.setMat other_grads ((s1.getMat other_grads).add (s1.getMat result_grads)))
    else none
  | .sub this_grads other_grads result_grads =>
    if s.validMat this_grads ∧ s.validMat other_grads ∧ s.validMat result_grads then
      let s1 := s.setMat this_grads ((s.getMat this_grads).add (s.getMat result_grads))
      some (s1.setMat other_grads ((s1.getMat other_grads).add (s1.getMat result_grads)))
    else none
  | .apply this_values this_grads result_grads func_derivative rows cols =>
    if s.validMat this_values ∧ s.validMat this_grads ∧ s.validMat result_grads then
      some (forLoop rows (fun i s =>
        forLoop cols (fun j s =>
          let curr_grad := (s.getMat this_grads).get i j +
            (s.getMat result_grads).get i j * func_derivative ((s.getMat this_values).get i j)
          s.setMat this_grads ((s.getMat this_grads).set i j curr_grad)) s) s)
    else none
  | .transpose this_grads result_grads =>
    if s.validMat this_grads ∧ s.validMat result_grads then
      -- *this_grads = (*this_grads).transpose();
      some (s.setMat this_grads (s.getMat this_grads).transpose)
    else none
  | .bce predictions targets =>
    match s.nodes[predictions]?, s.nodes[targets]? with
    | some P, some T =>
      if s.validMat P.values ∧ s.validMat T.values ∧ s.validMat P.grads then
        some (forLoop P.rows (fun i s =>
          forLoop P.cols (fun j s =>
            let pred := (s.getMat P.values).get i j
            let target := (s.getMat T.values).get i j
            let grad := ((-target) / (pred + eps) + (1 - target) / (1 - pred + eps)) /
              ((P.rows * P.cols : Nat) : α)
            s.setMat P.grads
              ((s.getMat P.grads).set i j ((s.getMat P.grads).get i j + grad))) s) s)
      else none
    | _, _ => none

end BackwardOp

/-- The accumulation loop of `binary_cross_entropy`: `total_loss` after the two
nested loops over the predictions `P` and the targets `T`. `log` stands for
`std::log`. -/
def bceTotalLoss {α : Type} [Ring α] [Div α] (log : α → α) (s : State α)
    (P T : Node α) : α :=
  forLoop P.rows (fun i total_loss =>
    forLoop P.cols (fun j total_loss =>
      let pred := (s.getMat P.values).get i j
      let target := (s.getMat T.values).get i j
      total_loss +
        ((-target) * log (pred + eps) - (1 - target) * log (1 - pred + eps))) total_loss) 0

/-- `binary_cross_entropy(Node &predictions, Node &targets)` of `P1/mlp_sgd.cpp`.
`log` stands for `std::log`. -/
def binary_cross_entropy {α : Type} [Ring α] [Div α] (log : α → α) (s : State α)
    (predictions targets : Nat) : Except Error (State α × Nat) :=
  match s.nodes[predictions]?, s.nodes[targets]? with
  | some P, some T =>
    if P.rows ≠ T.rows ∨ P.cols ≠ T.cols then .error .invalid_argument
    else
      let (s1, loss) := Node.new s 1 1
      let s2 := push_node s1 loss
      let s3 := s2.modifyNode loss (fun r =>
        { r with dependencies := r.dependencies ++ [predictions] })
      let total_loss : α := bceTotalLoss log s3 P T
      let lossValues := (s3.getNode loss).values
      let s4 := s3.setMat lossValues
        ((s3.getMat lossValues).set 0 0 (total_loss / ((P.rows * P.cols : Nat) : α)))
      .ok (s4.modifyNode loss (fun r =>
        { r with backward_op := some (.bce predictions targets) }), loss)
  | _, _ => .error .invalid_pointer

/-- `Node::backward()`: run the own closure if there is one, then call `backward`
on every dependency in order. The second component of the accumulator is a log
of the closure invocations (the pointer of the node whose `backward_op` ran), in
execution order. The recursion depth is bounded by `fuel`; `none` when the fuel
is exhausted or a pointer is invalid. -/
def Node.backward {α : Type} [Ring α] [Div α] :
    Nat → Nat → State α × List Nat → Option (State α × List Nat)
  | 0, _, _ => none
  | fuel + 1, this, (s, log) =>
    match s.nodes[this]? with
    | none => none
    | some n =>
      let afterOp : Option (State α × List Nat) :=
        match n.backward_op with
        | some op => (op.run s).map (fun s1 => (s1, log ++ [this]))
        | none => some (s, log)
      match afterOp with
      | none => none
      | some acc => n.dependencies.foldlM (fun acc dep => Node.backward fuel dep acc) acc

end P1

/-! ## The distributed backend (`P2`) -/

namespace P2

/-- `MPI_COMM_WORLD` as one process sees it: what `MPI_Comm_rank` and
`MPI_Comm_size` return. -/
structure Comm where
  rank : Int
  size : Int
deriving DecidableEq

/-- `class DistributedMatrix` of `P2/distributedmatrix.hpp`, on one process. Its
`int` fields, which the constructors compute with subtractions, are integers. -/
structure DistributedMatrix (α : Type) where
  globalRows : Int
  globalCols : Int
  localCols : Int
  startCol : Int
  numProcesses : Int
  rank : Int
  localData : Matrix α
deriving DecidableEq

namespace DistributedMatrix

variable {α : Type}

/-- `DistributedMatrix::DistributedMatrix(int globalR, int globalC, int localC,
int startC, const Matrix &localDat)`. -/
def ofLocal (comm : Comm) (globalR globalC localC startC : Int) (localDat : Matrix α) :
    DistributedMatrix α :=
  { globalRows := globalR, globalCols := globalC, localCols := localC, startCol := startC,
    numProcesses := comm.size, rank := comm.rank, localData := localDat }

/-- `DistributedMatrix::numRows`. -/
def numRows (d : DistributedMatrix α) : Int := d.globalRows

/-- `DistributedMatrix::numCols`: the code returns `localCols`. -/
def numCols (d : DistributedMatrix α) : Int := d.localCols

/-- `DistributedMatrix::get`: `localData.get(i, j)`. -/
def get [Zero α] (d : DistributedMatrix α) (i j : Nat) : α := d.localData.get i j

/-- `DistributedMatrix::set`: `localData.set(i, j, value)`. -/
def set (d : DistributedMatrix α) (i j : Nat) (value : α) : DistributedMatrix α :=
  { d with localData := d.localData.set i j value }

/-- `DistributedMatrix::apply`. -/
def apply [Zero α] (comm : Comm) (self : DistributedMatrix α) (func : α → α) :
    DistributedMatrix α :=
  let result : Matrix α :=
    forLoop self.globalRows.toNat (fun i result =>
      forLoop self.localCols.toNat (fun j result =>
        result.set i j (func (self.get i j))) result)
      (Matrix.new self.globalRows.toNat self.localCols.toNat)
  ofLocal comm self.globalRows self.globalCols self.localCols self.startCol result

/-- `DistributedMatrix::applyBinary`. -/
def applyBinary [Zero α] (comm : Comm) (a b : DistributedMatrix α) (func : α → α → α) :
    DistributedMatrix α :=
  let result : Matrix α :=
    forLoop a.globalRows.toNat (fun i result =>
      forLoop a.localCols.toNat (fun j result =>
        result.set i j (func (a.get i j) (b.get i j))) result)
      (Matrix.new a.globalRows.toNat a.localCols.toNat)
  ofLocal comm a.globalRows a.globalCols a.localCols a.startCol result

end DistributedMatrix

/-- An object behind an `AbstractMatrix *`: a `Matrix` or a `DistributedMatrix`. -/
inductive AbstractMatrix (α : Type) where
  | dense (m : Matrix α)
  | distributed (d : DistributedMatrix α)
deriving DecidableEq

/-- `dynamic_cast<DistributedMatrix *>`: `none` is the null pointer. -/
def AbstractMatrix.asDistributed {α : Type} : AbstractMatrix α → Option (DistributedMatrix α)
  | .distributed d => some d
  | .dense _ => none

/-- Captures of the lambdas of `P2/mlp_sgd_distributed.cpp` that are embedded:
`Node::apply` (pointers to the value and the two gradients, and the derivative)
and `binary_cross_entropy` (its two nodes, by reference). The lambda of
`operator*` calls `multiplyTransposed`, which has no complete body in the source. -/
inductive BackwardOp (α : Type) where
  | apply (values_ptr this_grads result_grads : Nat) (func_derivative : α → α)
  | bce (predictions targets : Nat)

/-- `class Node` of `P2/mlp_sgd_distributed.cpp`. -/
structure Node (α : Type) where
  rows : Int
  cols : Int
  values : Nat
  grads : Nat
  backward_op : Option (BackwardOp α)
  dependencies : List Nat

/-- Program state of one process: the heap of matrices behind `AbstractMatrix *`,
the heap of `Node` objects and the arena `all_nodes`. -/
structure State (α : Type) where
  mats : List (AbstractMatrix α)
  nodes : List (Node α)
  all_nodes : List Nat

/-- The lambda `bce_grad_func` of the closure of `binary_cross_entropy`. -/
def bce_grad_func {α : Type} [Ring α] [Div α] (pred target : α) : α :=
  (-target) / (pred + 1 / 10 ^ 12) + (1 - target) / (1 - pred + 1 / 10 ^ 12)

/-- Body of the lambda stored in `backward_op`; `none` when a pointer designates
no object or a `dynamic_cast` gives the null pointer. -/
def BackwardOp.run {α : Type} [Ring α] [Div α] (comm : Comm) (s : State α) :
    BackwardOp α → Option (State α)
  | .apply values_ptr this_grads result_grads func_derivative =>
    match (s.mats[values_ptr]?).bind AbstractMatrix.asDistributed,
          (s.mats[result_grads]?).bind AbstractMatrix.asDistributed,
          (s.mats[this_grads]?).bind AbstractMatrix.asDistributed with
    | some values_, some result_grads_, some this_grads_ =>
      let derivatives := values_.apply comm (fun x => func_derivative x)
      let gradient :=
        DistributedMatrix.applyBinary comm result_grads_ derivatives (fun a b => a * b)
      let sum := DistributedMatrix.applyBinary comm this_grads_ gradient (fun a b => a + b)
      some { s with mats := s.mats.set this_grads (.distributed sum) }
    | _, _, _ => none
  | .bce predictions targets =>
    match s.nodes[predictions]?, s.nodes[targets]? with
    | some P, some T =>
      match (s.mats[P.values]?).bind AbstractMatrix.asDistributed,
            (s.mats[T.values]?).bind AbstractMatrix.asDistributed,
            (s.mats[P.grads]?).bind AbstractMatrix.asDistributed with
      | some prediction_values, some target_values, some prediction_grads =>
        let gradient :=
          DistributedMatrix.applyBinary comm prediction_values target_values bce_grad_func
        let sum :=
          DistributedMatrix.applyBinary comm prediction_grads gradient (fun a b => a + b)
        some { s with mats := s.mats.set P.grads (.distributed sum) }
      | _, _, _ => none
    | _, _ => none

/-- One process (`P = 1`) holding the `1 × 2` predictions `[a, b]` (node `0`,
matrices `0` and `1`, zero gradient) and the `1 × 2` targets `[c, d]` (node `1`,
matrices `2` and `3`). -/
def bceState (a b c d : ℚ) : State ℚ :=
  { mats := [.distributed ⟨1, 2, 2, 0, 1, 0, ⟨1, 2, [a, b]⟩⟩,
             .distributed ⟨1, 2, 2, 0, 1, 0, ⟨1, 2, [0, 0]⟩⟩,
             .distributed ⟨1, 2, 2, 0, 1, 0, ⟨1, 2, [c, d]⟩⟩,
             .distributed ⟨1, 2, 2, 0, 1, 0, ⟨1, 2, [0, 0]⟩⟩]
    nodes := [{ rows := 1, cols := 2, values := 0, grads := 1, backward_op := none,
                dependencies := [] },
              { rows := 1, cols := 2, values := 2, grads := 3, backward_op := none,
                dependencies := [] }]
    all_nodes := [] }

end P2

/-! ## The distributed matrix: construction, indices and collectives -/

/-- `Matrix::operator*(const Matrix &)`, the first version, which the source keeps
as a comment (`PREMIERE VERSION`): the naive triple loop, whose inner loop
accumulates `sum += data[i * cols + k] * other.get(k, j)` from `sum = 0`. -/
def Matrix.mulNaive {α : Type} [Zero α] [Add α] [Mul α] (self other : Matrix α) :
    Matrix α :=
  forLoop self.rows (fun i m =>
    forLoop other.numCols (fun j m =>
      let sum := forLoop self.cols (fun k sum =>
        sum + self.data.getD (i * self.cols + k) 0 * other.get k j) 0
      m.set i j sum) m)
    (Matrix.new self.rows other.numCols)

namespace P2

namespace DistributedMatrix

variable {α : Type}

/-- `DistributedMatrix::DistributedMatrix(const Matrix &matrix, int numProc)`, run
by the process `comm.rank`. The `int` operators `/` and `%` truncate
(`Int.tdiv`, `Int.tmod`). The statement of the copy loop is written
`localData.get(i, j, matrix.get(i, startCol + j))` in the source; no `get` takes
three arguments, and it is read as the member with that argument list, `set`. -/
def ofMatrix [Zero α] (comm : Comm) (matrix : Matrix α) (numProc : Int) :
    DistributedMatrix α :=
  let globalRows : Int := matrix.numRows
  let globalCols : Int := matrix.numCols
  let rank := comm.rank
  let part : Int × Int :=
    if rank ≥ numProc - globalCols.tmod numProc then
      let localCols := globalCols.tdiv numProc + 1
      (localCols, globalCols - (numProc - rank - 1) * localCols - 1)
    else
      let localCols := globalCols.tdiv numProc
      (localCols, rank * localCols)
  let localCols := part.1
  let startCol := part.2
  let localData : Matrix α :=
    forLoop globalRows.toNat (fun i localData =>
      forLoop localCols.toNat (fun j localData =>
        localData.set i j (matrix.get i (startCol + j).toNat)) localData)
      (Matrix.new globalRows.toNat localCols.toNat)
  { globalRows := globalRows, globalCols := globalCols, localCols := localCols,
    startCol := startCol, numProcesses := numProc, rank := rank, localData := localData }

/-- `DistributedMatrix::globalColIndex`. -/
def globalColIndex (d : DistributedMatrix α) (localColIndex : Int) : Int :=
  d.startCol + localColIndex

/-- `DistributedMatrix::localColIndex`. -/
def localColIndex (d : DistributedMatrix α) (globalColIndex : Int) : Int :=
  if globalColIndex < d.startCol ∨ globalColIndex ≥ d.startCol + d.localCols then -1
  else globalColIndex - d.startCol

/-- `DistributedMatrix::ownerProcess`, the undeclared identifier `globalCol` of
the source being read as the field `globalCols`; `none` when a divisor is zero
(undefined behaviour in C++). -/
def ownerProcess (d : DistributedMatrix α) (globalColIndex : Int) : Option Int :=
  if d.globalCols.tdiv d.numProcesses = 0 ∨ d.globalCols.tdiv d.numProcesses + 1 = 0 then none
  else
    some (min (globalColIndex.tdiv (d.globalCols.tdiv d.numProcesses))
      (d.numProcesses - 1 -
        (d.globalCols - 1 - globalColIndex).tdiv (d.globalCols.tdiv d.numProcesses + 1)))

/-- `DistributedMatrix::getLocalData`. -/
def getLocalData (d : DistributedMatrix α) : Matrix α := d.localData

/-- The loops of `DistributedMatrix::sum` on one process: the partial sum
`localSum`. The source reads `matrix.get(i, j)` with no `matrix` in scope; the
loop bounds are those of `localData`, whose entries are read here. -/
def localSum [Zero α] [Add α] (d : DistributedMatrix α) : α :=
  forLoop d.localData.numRows (fun i localSum =>
    forLoop d.localData.numCols (fun j localSum =>
      localSum + d.localData.get i j) localSum) 0

end DistributedMatrix

/-- The reduction with `MPI_SUM` of one `double` per process: the sum of the
contributions, taken in rank order. -/
def mpiSum {α : Type} [Zero α] [Add α] (contributions : List α) : α :=
  contributions.foldl (fun acc x => acc + x) 0

/-- The reduction with `MPI_SUM` of one `double` per process, as the process `rank`
sees it; `contributions` lists the values sent, by rank. With `root = none` it is
`MPI_Allreduce(sendbuf, recvbuf, 1, MPI_DOUBLE, MPI_SUM, comm)`: every process
receives the sum in `recvbuf`. With `root = some r` it is
`MPI_Reduce(sendbuf, recvbuf, 1, MPI_DOUBLE, MPI_SUM, r, comm)`: the root receives
the sum, and on the other processes `recvbuf` is left as it is. -/
def mpiReduceSum {α : Type} [Zero α] [Add α] (contributions : List α) (root : Option Int)
    (rank : Int) (recvbuf : α) : α :=
  match root with
  | none => mpiSum contributions
  | some r => if rank = r then mpiSum contributions else recvbuf

/-- `MPI_Gather(sendbuf, count, MPI_DOUBLE, recvbuf, count, MPI_DOUBLE, root, comm)`
as the process `rank` sees it, `sendbufs` listing the send buffers by rank: on the
root, block `k` of `count` elements of `recvbuf` receives the first `count`
elements sent by rank `k`; on the other processes `recvbuf` is left as it is. -/
def mpiGather {α : Type} [Zero α] (sendbufs : List (List α)) (count : Nat) (root rank : Int)
    (recvbuf : List α) : List α :=
  if rank = root then
    forLoop sendbufs.length (fun k buf =>
      forLoop count (fun t buf =>
        buf.set (k * count + t) ((sendbufs.getD k []).getD t 0)) buf) recvbuf
  else recvbuf

namespace DistributedMatrix

variable {α : Type}

/-- `DistributedMatrix::sum`, called by every process, as the process holding `self`
sees it; `world` lists the objects by rank. The source calls
`MPI_Reduce(&localSum, &globalSum, 1, MPI_DOUBLE, MPI_SUM, MPI_COMM_WORLD)`: the name
is that of the rooted reduction, which takes a root before the communicator, and the
six arguments are those of `MPI_Allreduce`. The parameter `root` holds what the call
leaves open: `none` for the all-reduce that the arguments spell, `some r` for the
reduction to the root `r` (the other rooted calls of the repository, in `gather` and
in the examples, pass `0`). `globalSum` starts at `0.0`, which is what a process
that receives nothing returns. -/
def sum [Zero α] [Add α] (world : List (DistributedMatrix α)) (root : Option Int)
    (self : DistributedMatrix α) : α :=
  let globalSum : α := 0
  mpiReduceSum (world.map localSum) root self.rank globalSum

/-- `DistributedMatrix::gather`, called by every process, as the process holding
`self` sees it; `world` lists the objects by rank. The source writes
`localData.data()` and `result.data()` for the storage of the two matrices. -/
def gather [Zero α] (world : List (DistributedMatrix α)) (self : DistributedMatrix α) :
    Matrix α :=
  let result : Matrix α := Matrix.new self.globalRows.toNat self.globalCols.toNat
  { result with
    data := mpiGather (world.map (fun d => d.localData.data))
      (self.localData.numRows * self.localData.numCols) 0 self.rank result.data }

end DistributedMatrix

/-- `multiply(const Matrix &left, const DistributedMatrix &right)`. -/
def multiply {α : Type} [Zero α] [Add α] [Mul α] (comm : Comm) (left : Matrix α)
    (right : DistributedMatrix α) : DistributedMatrix α :=
  let globalRows : Int := left.numRows
  let globalCols : Int := right.numCols
  let localCols : Int := right.localCols
  let startCol : Int := right.startCol
  let result : Matrix α := left.mul right.getLocalData
  DistributedMatrix.ofLocal comm globalRows globalCols localCols startCol result

/-- The objects that the processes `0, ..., numProc - 1` of a group build by
`DistributedMatrix(matrix, numProc)`, listed by rank. -/
def distribute {α : Type} [Zero α] (matrix : Matrix α) (numProc : Nat) :
    List (DistributedMatrix α) :=
  (List.range numProc).map
    (fun k : Nat => DistributedMatrix.ofMatrix ⟨k, numProc⟩ matrix numProc)

/-- The `3 × 5` matrix of `testSum`: `M[i][j] = i * 5 + j + 1`. -/
def testSumMatrix : Matrix ℤ :=
  ⟨3, 5, [1, 2, 3, 4, 5, 6, 7, 8, 9, 10, 11, 12, 13, 14, 15]⟩

/-- The `2 × 4` matrix `M[i][j] = i * 10 + j`. -/
def twoByFour : Matrix ℤ := ⟨2, 4, [0, 1, 2, 3, 10, 11, 12, 13]⟩

/-- `DistributedMatrix::multiplyTransposed`, as the source has it: the body is the
one statement `double* data = new double[globalRows * other.globalRows];`, after
which control reaches the end of the function. No entry is computed, no reduction
is called and no `Matrix` is returned (undefined behaviour in C++): the call
yields no value, `none`. -/
def DistributedMatrix.multiplyTransposed {α : Type} [Zero α]
    (self other : DistributedMatrix α) : Option (Matrix α) :=
  let data : List α := List.replicate (self.globalRows * other.globalRows).toNat 0
  none

/-- The matrix of `testConstructorAndBasics`: `3 × 4`, `M[i][j] = i * 10 + j`. -/
def testBasicsMatrix : Matrix ℤ :=
  forLoop 3 (fun i testMatrix =>
    forLoop 4 (fun j testMatrix => testMatrix.set i j (i * 10 + j)) testMatrix)
    (Matrix.new 3 4)

/-- The matrix of `testColumnDistribution` for `numProcs` processes: `3` rows,
`cols = numProcs * 2 + 1` columns, `M[i][j] = i * 100 + j`. -/
def testColumnsMatrix (numProcs : Nat) : Matrix ℤ :=
  let cols := numProcs * 2 + 1
  forLoop 3 (fun i testMatrix =>
    forLoop cols (fun j testMatrix => testMatrix.set i j (i * 100 + j)) testMatrix)
    (Matrix.new 3 cols)

/-- The value `expectedLocalCols` that `testColumnDistribution` computes on the
process `rank` and asserts to be the column count of the local data. -/
def expectedLocalCols (cols numProcs rank : Int) : Int :=
  let baseCols := cols.tdiv numProcs
  let remainder := cols.tmod numProcs
  baseCols + (if rank < remainder then 1 else 0)

/-- The matrix `matrix1Full` of `testMultiplyTransposed`: `3 × 5`,
`M[i][j] = i * 5 + j + 1`. -/
def matrix1Full : Matrix ℤ :=
  forLoop 3 (fun i matrix1Full =>
    forLoop 5 (fun j matrix1Full => matrix1Full.set i j (i * 5 + j + 1)) matrix1Full)
    (Matrix.new 3 5)

/-- The matrix `matrix2Full` of `testMultiplyTransposed`: `4 × 5`,
`M[i][j] = i * 5 + j + 2`. -/
def matrix2Full : Matrix ℤ :=
  forLoop 4 (fun i matrix2Full =>
    forLoop 5 (fun j matrix2Full => matrix2Full.set i j (i * 5 + j + 2)) matrix2Full)
    (Matrix.new 4 5)

/-- `Node::Node(const DistributedMatrix &dMatrix)` of `P2/mlp_sgd_distributed.cpp`,
run by the process `comm.rank`: the value is a copy of `dMatrix`, and the gradient
is `DistributedMatrix(tempGrads, numProcs)` for the zero matrix `tempGrads` of
`dMatrix.numRows()` rows and `dMatrix.numCols()` columns. -/
def Node.ofDistributed {α : Type} [Zero α] (comm : Comm) (s : State α)
    (dMatrix : DistributedMatrix α) : State α × Nat :=
  let values := s.mats.length
  let s1 : State α := { s with mats := s.mats ++ [.distributed dMatrix] }
  let numProcs := comm.size
  let tempGrads : Matrix α :=
    (Matrix.new dMatrix.numRows.toNat dMatrix.numCols.toNat).fill 0
  let grads := s1.mats.length
  let s2 : State α :=
    { s1 with mats := s1.mats ++ [.distributed (DistributedMatrix.ofMatrix comm tempGrads numProcs)] }
  ({ s2 with nodes := s2.nodes ++ [{ rows := dMatrix.numRows, cols := dMatrix.numCols,
                                     values := values, grads := grads, backward_op := none,
                                     dependencies := [] }] },
    s2.nodes.length)

end P2

namespace P1

/-- The program state after a call of an operator: the state that the call
returns or, when it raises, the state in which it raises. The operators raise
before their first allocation or assignment. -/
def stateAfter {α : Type} (s : State α) : Except Error (State α × Nat) → State α
  | .ok (s1, _) => s1
  | .error _ => s

/-- The call `a->sub_mul(scalar, *c)` on two matrices of the heap, as `MLP::train`
makes it with the values and the gradients of a parameter: `Matrix::sub_mul`
assigns its result to `*this`, the matrix that `a` points to. -/
def State.sub_mul {α : Type} [Zero α] [One α] [Neg α] [Add α] [Mul α]
    (s : State α) (a : Nat) (scalar : α) (c : Nat) : State α :=
  s.setMat a ((s.getMat a).sub_mul scalar (s.getMat c))

/-- `sigmoid` of `P1/mlp_sgd.cpp`: `1.0 / (1.0 + exp(-x))`; `exp` stands for the
library function. -/
def sigmoid {α : Type} [Ring α] [Div α] (exp : α → α) (x : α) : α :=
  1 / (1 + exp (-x))

/-- `sigmoid_derivative` of `P1/mlp_sgd.cpp`. -/
def sigmoid_derivative {α : Type} [Ring α] [Div α] (exp : α → α) (x : α) : α :=
  let s := sigmoid exp x
  s * (1 - s)

/-- `class MLP` of `P1/mlp_sgd.cpp`: its four `Node` members are nodes of the heap. -/
structure MLP (α : Type) where
  W1 : Nat
  b1 : Nat
  W2 : Nat
  b2 : Nat
  learning_rate : α

/-- `MLP::initialize(Node &matrix)`: every entry of the value is set to a draw of
the normal distribution; `sample i j` is the draw for the entry `(i, j)`. -/
def MLP.initialize {α : Type} [Zero α] (s : State α) (matrix : Nat)
    (sample : Nat → Nat → α) : State α :=
  let M := s.getNode matrix
  forLoop M.rows (fun i s =>
    forLoop M.cols (fun j s =>
      s.setMat M.values ((s.getMat M.values).set i j (sample i j))) s) s

/-- The constructor `MLP::MLP(input_size, hidden_size, output_size, lr)`; `sample1`
and `sample2` are the draws that `initialize` makes for `W1` and `W2`. -/
def MLP.new {α : Type} [Zero α] (s : State α) (input_size hidden_size output_size : Nat)
    (lr : α) (sample1 sample2 : Nat → Nat → α) : State α × MLP α :=
  let (s, W1) := Node.new s hidden_size input_size
  let (s, b1) := Node.new s hidden_size 1
  let (s, W2) := Node.new s output_size hidden_size
  let (s, b2) := Node.new s output_size 1
  let s := MLP.initialize s W1 sample1
  let s := MLP.initialize s W2 sample2
  (s, { W1 := W1, b1 := b1, W2 := W2, b2 := b2, learning_rate := lr })

/-- `MLP::forward(Node &input)`. -/
def MLP.forward {α : Type} [Ring α] [Div α] (exp : α → α) (self : MLP α) (s : State α)
    (input : Nat) : Except Error (State α × Nat) :=
  match Node.mul s self.W1 input with
  | .error e => .error e
  | .ok (s, t1) =>
  match Node.add s t1 self.b1 with
  | .error e => .error e
  | .ok (s, z1) =>
  match Node.apply s z1 (sigmoid exp) (some (sigmoid_derivative exp)) with
  | .error e => .error e
  | .ok (s, a1) =>
  match Node.mul s self.W2 a1 with
  | .error e => .error e
  | .ok (s, t2) =>
  match Node.add s t2 self.b2 with
  | .error e => .error e
  | .ok (s, z2) => Node.apply s z2 (sigmoid exp) (some (sigmoid_derivative exp))

end P1

/-! ## The OpenCL backend (`P3`) -/

namespace P3

/-- Exceptions that `P3/matrix_opencl.cpp` raises or lets through:
`std::invalid_argument`, `std::runtime_error`, `cl::Error` and its subclass
`cl::BuildError`; `null_pointer` stands for the dereference of the null
`kernels_` (undefined behaviour in C++). -/
inductive Error where
  | invalid_argument
  | runtime_error
  | cl_error
  | build_error
  | null_pointer
deriving DecidableEq

/-- The nine kernels of `matrix_opencl.cpp`: the constant `kernel_source_<k>` holds
the source of the kernel named `<k>`. -/
inductive KernelId where
  | fill
  | add
  | sub_mul
  | transpose
  | matrix_mul
  | sigmoid
  | sigmoid_backward
  | bce_elementwise
  | bce_backward
deriving DecidableEq

/-- A built `cl::Program`: the context (a handle) and the source it was created
from. -/
structure Program where
  context : Nat
  source : KernelId
deriving DecidableEq

/-- A non-null `cl::Kernel`: its program and the name of the kernel function. -/
structure Kernel where
  program : Program
  name : KernelId
deriving DecidableEq

/-- `struct KernelCache`. A default-constructed `cl::Kernel` (null handle) is
`none`. -/
structure KernelCache where
  kernel_fill : Option Kernel
  kernel_add : Option Kernel
  kernel_sub_mul : Option Kernel
  kernel_transpose : Option Kernel
  kernel_matrix_mul : Option Kernel
  kernel_sigmoid : Option Kernel
  kernel_sigmoid_backward : Option Kernel
  kernel_bce_elementwise : Option Kernel
  kernel_bce_backward : Option Kernel
  initialized : Bool
deriving DecidableEq

/-- `std::make_shared<KernelCache>()`: null kernels, `initialized = false`. -/
def KernelCache.new : KernelCache :=
  { kernel_fill := none, kernel_add := none, kernel_sub_mul := none,
    kernel_transpose := none, kernel_matrix_mul := none, kernel_sigmoid := none,
    kernel_sigmoid_backward := none, kernel_bce_elementwise := none,
    kernel_bce_backward := none, initialized := false }

/-- The OpenCL implementation as the program observes it, that is, which of its
calls raise: `build context devices source` for `cl::Program program(context,
sourceCode); program.build(devices)`, `createKernel program name` for
`cl::Kernel(program, name)`, and `dispatch queue kernel size` for the `setArg`
calls followed by `enqueueNDRangeKernel`. `none` is a call that returns. -/
structure Driver where
  build : Nat → List Nat → KernelId → Option Error
  createKernel : Program → KernelId → Option Error
  dispatch : Nat → Kernel → Nat → Option Error

/-- `class MatrixCL`: contexts, queues and buffers are handles. -/
structure MatrixCL where
  rows_ : Int
  cols_ : Int
  context_ : Nat
  queue_ : Nat
  buffer_ : Nat
deriving DecidableEq

/-- What the program and the device hold: the static `MatrixCL::kernels_` (`none`
is the null pointer), the programs built so far (context and source of each call
of `program.build`, in order), the contents of the device buffers, and the
commands enqueued so far (queue, kernel and global work size). -/
structure World (α : Type) where
  kernels_ : Option KernelCache
  builds : List (Nat × KernelId)
  buffers : List (List α)
  enqueued : List (Nat × Kernel × Nat)

/-- `loadAndBuildProgram`: both handlers report and rethrow. -/
def loadAndBuildProgram (cl : Driver) (context : Nat) (devices : List Nat)
    (sourceCode : KernelId) (builds : List (Nat × KernelId)) :
    Except Error Program × List (Nat × KernelId) :=
  let program : Program := { context := context, source := sourceCode }
  match cl.build context devices sourceCode with
  | some err => (.error err, builds ++ [(context, sourceCode)])
  | none => (.ok program, builds ++ [(context, sourceCode)])

/-- The constructor `cl::Kernel(program, name)`. -/
def Kernel.create (cl : Driver) (program : Program) (name : KernelId) :
    Except Error Kernel :=
  match cl.createKernel program name with
  | some err => .error err
  | none => .ok { program := program, name := name }

/-- `KernelCache::compileKernels`: the exception raised if any, the cache and the
programs built. The handler rethrows; the kernels assigned before the exception
stay assigned. -/
def KernelCache.compileKernels (cl : Driver) (context : Nat) (devices : List Nat)
    (self : KernelCache) (builds : List (Nat × KernelId)) :
    Except Error Unit × KernelCache × List (Nat × KernelId) :=
  if self.initialized then (.ok (), self, builds)
  else
    match loadAndBuildProgram cl context devices .fill builds with
    | (.error e, builds) => (.error e, self, builds)
    | (.ok prog_fill, builds) =>
    match Kernel.create cl prog_fill .fill with
    | .error e => (.error e, self, builds)
    | .ok kernel =>
    let self := { self with kernel_fill := some kernel }
    match loadAndBuildProgram cl context devices .add builds with
    | (.error e, builds) => (.error e, self, builds)
    | (.ok prog_add, builds) =>
    match Kernel.create cl prog_add .add with
    | .error e => (.error e, self, builds)
    | .ok kernel =>
    let self := { self with kernel_add := some kernel }
    match loadAndBuildProgram cl context devices .sub_mul builds with
    | (.error e, builds) => (.error e, self, builds)
    | (.ok prog_sub_mul, builds) =>
    match Kernel.create cl prog_sub_mul .sub_mul with
    | .error e => (.error e, self, builds)
    | .ok kernel =>
    let self := { self with kernel_sub_mul := some kernel }
    match loadAndBuildProgram cl context devices .transpose builds with
    | (.error e, builds) => (.error e, self, builds)
    | (.ok prog_transpose, builds) =>
    match Kernel.create cl prog_transpose .transpose with
    | .error e => (.error e, self, builds)
    | .ok kernel =>
    let self := { self with kernel_transpose := some kernel }
    match loadAndBuildProgram cl context devices .matrix_mul builds with
    | (.error e, builds) => (.error e, self, builds)
    | (.ok prog_matrix_mul, builds) =>
    match Kernel.create cl prog_matrix_mul .matrix_mul with
    | .error e => (.error e, self, builds)
    | .ok kernel =>
    let self := { self with kernel_matrix_mul := some kernel }
    match loadAndBuildProgram cl context devices .sigmoid builds with
    | (.error e, builds) => (.error e, self, builds)
    | (.ok prog_sigmoid, builds) =>
    match Kernel.create cl prog_sigmoid .sigmoid with
    | .error e => (.error e, self, builds)
    | .ok kernel =>
    let self := { self with kernel_sigmoid := some kernel }
    match loadAndBuildProgram cl context devices .sigmoid_backward builds with
    | (.error e, builds) => (.error e, self, builds)
    | (.ok prog_sigmoid_bw, builds) =>
    match Kernel.create cl prog_sigmoid_bw .sigmoid_backward with
    | .error e => (.error e, self, builds)
    | .ok kernel =>
    let self := { self with kernel_sigmoid_backward := some kernel }
    match loadAndBuildProgram cl context devices .bce_elementwise builds with
    | (.error e, builds) => (.error e, self, builds)
    | (.ok prog_bce_ew, builds) =>
    match Kernel.create cl prog_bce_ew .bce_elementwise with
    | .error e => (.error e, self, builds)
    | .ok kernel =>
    let self := { self with kernel_bce_elementwise := some kernel }
    match loadAndBuildProgram cl context devices .bce_backward builds with
    | (.error e, builds) => (.error e, self, builds)
    | (.ok prog_bce_bw, builds) =>
    match Kernel.create cl prog_bce_bw .bce_backward with
    | .error e => (.error e, self, builds)
    | .ok kernel =>
    let self := { self with kernel_bce_backward := some kernel }
    let self := { self with initialized := true }
    (.ok (), self, builds)

namespace MatrixCL

/-- `MatrixCL::initializeKernels` (static): the exception raised if any and the
new state. Both handlers rethrow. -/
def initializeKernels {α : Type} (cl : Driver) (context : Nat) (devices : List Nat)
    (w : World α) : Except Error Unit × World α :=
  if (match w.kernels_ with
      | none => true
      | some kernels => !kernels.initialized) then
    match KernelCache.compileKernels cl context devices KernelCache.new w.builds with
    | (r, kernels, builds) => (r, { w with kernels_ := some kernels, builds := builds })
  else (.ok (), w)

/-- Modelled from the spec: `MatrixCL::numRows` is declared among the getters of
`matrix_opencl.hpp` and has no body in the sources; it returns `rows_`. -/
def numRows (m : MatrixCL) : Int := m.rows_

/-- Modelled from the spec: `MatrixCL::numCols` is declared among the getters of
`matrix_opencl.hpp` and has no body in the sources; it returns `cols_`. -/
def numCols (m : MatrixCL) : Int := m.cols_

/-- Modelled from the spec: `MatrixCL::getContext` is declared among the getters
of `matrix_opencl.hpp` and has no body in the sources; it returns `context_`. -/
def getContext (m : MatrixCL) : Nat := m.context_

/-- Modelled from the spec: `MatrixCL::getQueue` is declared among the getters of
`matrix_opencl.hpp` and has no body in the sources; it returns `queue_`. -/
def getQueue (m : MatrixCL) : Nat := m.queue_

/-- Modelled from the spec: `MatrixCL::getBuffer` is declared among the getters of
`matrix_opencl.hpp` and has no body in the sources; it returns `buffer_`. -/
def getBuffer (m : MatrixCL) : Nat := m.buffer_

end MatrixCL

/-- `static_cast<size_t>` of an `int`, `size_t` having 64 bits. -/
def toSizeT (x : Int) : Nat := (x % 2 ^ 64).toNat

/-- The work item `idx` of the kernel `bce_backward`
(`kernel_source_bce_backward`), on the memory `buffers`; its three pointer
arguments are buffer handles. An element outside a buffer reads as `0` and a write
outside it is dropped (undefined behaviour on the device). -/
def bce_backward {α : Type} [Ring α] [Div α] [Max α] (grad_acc predictions targets : Nat)
    (rows cols : Int) (epsilon inv_num_elements : α) (idx : Nat)
    (buffers : List (List α)) : List (List α) :=
  let total_elements := rows * cols
  if (idx : Int) < total_elements then
    let pred := (buffers.getD predictions []).getD idx 0
    let targ := (buffers.getD targets []).getD idx 0
    let denominator1 := max (pred + epsilon) epsilon
    let denominator2 := max (1 - pred + epsilon) epsilon
    let bce_grad := -(targ / denominator1 - (1 - targ) / denominator2)
    buffers.set grad_acc ((buffers.getD grad_acc []).set idx
      ((buffers.getD grad_acc []).getD idx 0 + inv_num_elements * bce_grad))
  else buffers

/-- The command that `queue.enqueueNDRangeKernel(kernel, NullRange,
NDRange(global_work_size), NullRange)` enqueues, with the seven arguments that
`binary_cross_entropy_backward` has set, run to completion: the work items
`0, ..., global_work_size - 1`, in index order (a work item of `bce_backward`
reads and writes the element `idx` only). Of the nine sources only
`kernel_source_bce_backward` has a body; a kernel of another source leaves the
memory as it is. -/
def runKernel {α : Type} [Ring α] [Div α] [Max α] (kernel : Kernel)
    (grad_acc predictions targets : Nat) (rows cols : Int)
    (epsilon inv_num_elements : α) (global_work_size : Nat)
    (buffers : List (List α)) : List (List α) :=
  if kernel.program.source = .bce_backward ∧ kernel.name = .bce_backward then
    forLoop global_work_size (fun idx buffers =>
      bce_backward grad_acc predictions targets rows cols epsilon inv_num_elements idx
        buffers) buffers
  else buffers

/-- `MatrixCL::binary_cross_entropy_backward`: the exception raised if any and the
new state. `1e-8f` is `1 / 10 ^ 8`. A `cl::Error` of a `setArg` or of the enqueue,
among them the one that a null kernel gives, is caught and raised again as
`std::runtime_error`. -/
def MatrixCL.binary_cross_entropy_backward {α : Type} [Ring α] [Div α] [Max α]
    (cl : Driver) (self predictions targets : MatrixCL) (w : World α) :
    Except Error Unit × World α :=
  if self.rows_ ≠ predictions.numRows ∨ self.cols_ ≠ predictions.numCols ∨
      self.rows_ ≠ targets.numRows ∨ self.cols_ ≠ targets.numCols then
    (.error .invalid_argument, w)
  else if self.context_ ≠ predictions.getContext ∨ self.queue_ ≠ predictions.getQueue ∨
      self.context_ ≠ targets.getContext ∨ self.queue_ ≠ targets.getQueue then
    (.error .runtime_error, w)
  else
    let num_elements : Nat := (toSizeT self.rows_ * toSizeT self.cols_) % 2 ^ 64
    if num_elements = 0 then (.ok (), w)
    else
      let epsilon : α := 1 / 10 ^ 8
      let inv_num_elements : α := 1 / (num_elements : α)
      match w.kernels_ with
      | none => (.error .null_pointer, w)
      | some kernels =>
        match kernels.kernel_bce_backward with
        | none => (.error .runtime_error, w)
        | some kernel =>
          let global_work_size := num_elements
          match cl.dispatch self.queue_ kernel global_work_size with
          | some _ => (.error .runtime_error, w)
          | none =>
            (.ok (),
              { w with
                buffers := runKernel kernel self.buffer_ predictions.getBuffer
                  targets.getBuffer self.rows_ self.cols_ epsilon inv_num_elements
                  global_work_size w.buffers
                enqueued := w.enqueued ++ [(self.queue_, kernel, global_work_size)] })

/-- An OpenCL implementation none of whose calls raises. -/
def Driver.accepting : Driver :=
  { build := fun _ _ _ => none, createKernel := fun _ _ => none,
    dispatch := fun _ _ _ => none }

/-- The state at program start: `kernels_` is null, nothing built or enqueued, no
buffer. -/
def World.initial {α : Type} : World α :=
  { kernels_ := none, builds := [], buffers := [], enqueued := [] }

/-- The state of the test of `binary_cross_entropy_backward` in `P3/main.cpp`: the
kernels are compiled, buffer `0` is the `1 × 4` accumulator filled with `0`,
buffer `1` holds the predictions `0.1, 0.8, 0.3, 0.9` and buffer `2` the targets
`0, 1, 0, 1`. -/
def bceTestWorld : World ℚ :=
  (MatrixCL.initializeKernels Driver.accepting 0 [0]
    ({ kernels_ := none, builds := [],
       buffers := [[0, 0, 0, 0], [1 / 10, 8 / 10, 3 / 10, 9 / 10], [0, 1, 0, 1]],
       enqueued := [] } : World ℚ)).2

end P3

/-! ## Vocabulary of the statements -/

namespace Matrix

variable {α : Type}

/-- The storage has exactly `rows * cols` elements. -/
def WF (m : Matrix α) : Prop := m.data.length = m.rows * m.cols

instance (m : Matrix α) : Decidable m.WF :=
  inferInstanceAs (Decidable (m.data.length = m.rows * m.cols))

/-- The matrix is `r × c` and its storage has `r * c` elements. -/
def Shaped (m : Matrix α) (r c : Nat) : Prop :=
  m.rows = r ∧ m.cols = c ∧ m.data.length = r * c

instance (m : Matrix α) (r c : Nat) : Decidable (m.Shaped r c) :=
  inferInstanceAs (Decidable (m.rows = r ∧ m.cols = c ∧ m.data.length = r * c))

/-- The nested loops of the matrix operations: `h i j` is applied to the entry
`(a i j, b i j)` for every `i < r`, `j < c`. -/
def updLoop [Zero α] (r c : Nat) (a b : Nat → Nat → Nat) (h : Nat → Nat → α → α)
    (m : Matrix α) : Matrix α :=
  forLoop r (fun i m => forLoop c (fun j m =>
    m.set (a i j) (b i j) (h i j (m.get (a i j) (b i j)))) m) m

end Matrix

namespace P1

/-- Pointer that the next `Node(const Matrix &)` or `Node(int, int)` constructor
gives to the `values` of the node it builds. -/
def State.freshValues {α : Type} (s : State α) : Nat := s.mats.length

/-- Pointer that the next `Node` constructor gives to the `grads` of its node. -/
def State.freshGrads {α : Type} (s : State α) : Nat := s.mats.length + 1

/-- Pointer of the next `Node` object. -/
def State.freshNode {α : Type} (s : State α) : Nat := s.nodes.length

/-- The state after an operator has recorded its result node: value `V`, a zero
gradient, the dependencies `deps` and the closure `op`, registered in the arena. -/
def State.recorded {α : Type} [Zero α] (s : State α) (V : Matrix α) (deps : List Nat)
    (op : Option (BackwardOp α)) : State α :=
  { mats := s.mats ++ [V, Matrix.new V.rows V.cols]
    nodes := s.nodes ++ [{ rows := V.rows, cols := V.cols, values := s.freshValues,
                           grads := s.freshGrads, backward_op := op, dependencies := deps }]
    all_nodes := s.all_nodes ++ [s.freshNode] }

/-- The scalar that `binary_cross_entropy` stores in the loss node: the entry
`(0, 0)` of the value of the node that it returns (`0` when it raises). -/
def lossValue {α : Type} [Ring α] [Div α] (log : α → α) (s : State α)
    (predictions targets : Nat) : α :=
  match binary_cross_entropy log s predictions targets with
  | .ok (s1, loss) => (s1.getMat (s1.getNode loss).values).get 0 0
  | .error _ => 0

end P1

/-- The scalar `Σ_ij G[i,j] * X[i,j]` over the shape of `G`: the loss whose
gradient with respect to `X` is `G`. -/
def Matrix.weightedSum {α : Type} [NonUnitalNonAssocSemiring α] (G X : Matrix α) : α :=
  ∑ i ∈ Finset.range G.rows, ∑ j ∈ Finset.range G.cols, G.get i j * X.get i j

/-- The scalar `L(A, B) = Σ_ij G[i,j] * (A · B)[i,j]` of the finite-difference test
for entry functions `G` (`m × n`), `A` (`m × k`) and `B` (`k × n`), the entry
`(i, j)` of the product `A · B` being `Σ_l A[i,l] * B[l,j]`. -/
def productLoss {α : Type} [NonUnitalNonAssocSemiring α] (m k n : Nat)
    (G A B : Nat → Nat → α) : α :=
  ∑ i ∈ Finset.range m, ∑ j ∈ Finset.range n,
    G i j * ∑ l ∈ Finset.range k, A i l * B l j

/-- The entries of `A + h E_ij`, where `E_ij` is the unit matrix at `(i, j)`. -/
def unitBump {α : Type} [Add α] (A : Nat → Nat → α) (i j : Nat) (h : α) : Nat → Nat → α :=
  fun p q => if p = i ∧ q = j then A p q + h else A p q

/-! ## Vocabulary of the traversal -/

namespace P1

namespace State

variable {α : Type} [Ring α] [Div α]

/-- End of the dependency path that starts at node `r` and follows, at each node,
the dependency edge whose position in `dependencies` is the next element of the
list; `none` when a position or a pointer does not exist. Two edges to the same
node (as in `b + b`) are two positions, hence two paths. -/
def walkEnd (s : State α) : Nat → List Nat → Option Nat
  | r, [] => some r
  | r, i :: w =>
    match s.nodes[r]? with
    | some N =>
      match N.dependencies[i]? with
      | some d => walkEnd s d w
      | none => none
    | none => none

/-- The dependency paths of length below `fuel` from `r` to a node that has a
backward closure, the path itself before the paths through its dependencies. -/
def walks (s : State α) : Nat → Nat → List (List Nat)
  | 0, _ => []
  | fuel + 1, r =>
    match s.nodes[r]? with
    | none => []
    | some N =>
      (if N.backward_op.isSome then [[]] else []) ++
        (List.range N.dependencies.length).flatMap (fun i =>
          (walks s fuel (N.dependencies.getD i 0)).map (fun w => i :: w))

/-- The nodes whose closure a depth-first, dependency-order traversal from `r`
meets, with repetitions, down to depth `fuel`. -/
def trace (s : State α) : Nat → Nat → List Nat
  | 0, _ => []
  | fuel + 1, r =>
    match s.nodes[r]? with
    | none => []
    | some N =>
      (if N.backward_op.isSome then [r] else []) ++ N.dependencies.flatMap (trace s fuel)

/-- The graph of `s` as the operators build it: every dependency of a node is a
node created before it, and every stored closure runs (its captured pointers
designate objects of the heap). -/
def GraphWF (s : State α) : Prop :=
  ∀ n, n < s.nodes.length →
    (∀ d ∈ (s.getNode n).dependencies, d < n) ∧
    ((s.getNode n).backward_op.all (fun op => (op.run s).isSome)) = true

instance (s : State α) : Decidable s.GraphWF := by
  unfold GraphWF
  infer_instance

/-- The states `s` and `t` have the same nodes and as many matrices. -/
def Sim (s t : State α) : Prop := t.nodes = s.nodes ∧ t.mats.length = s.mats.length

/-- The matrices that the closure `op`, run in the state `s`, assigns: the
gradients of the operands. -/
def written (s : State α) : BackwardOp α → List Nat
  | .mul _ this_grads _ other_grads _ => [this_grads, other_grads]
  | .add this_grads other_grads _ => [this_grads, other_grads]
  | .sub this_grads other_grads _ => [this_grads, other_grads]
  | .apply _ this_grads _ _ _ _ => [this_grads]
  | .transpose this_grads _ => [this_grads]
  | .bce predictions _ => [(s.getNode predictions).grads]

/-- The node `n` is reachable from `r`: a dependency path from `r` ends at `n`. -/
def Reaches (s : State α) (r n : Nat) : Prop := ∃ w, s.walkEnd r w = some n

/-- The nodes reachable from `r` form a tree: no node is a dependency of two
reachable nodes, nor twice a dependency of one. An edge is a position in the
`dependencies` of a node. -/
def TreeFrom (s : State α) (r : Nat) : Prop :=
  ∀ c1 c2 i1 i2 n : Nat, s.Reaches r c1 → s.Reaches r c2 →
    (s.getNode c1).dependencies[i1]? = some n →
    (s.getNode c2).dependencies[i2]? = some n → c1 = c2 ∧ i1 = i2

/-- No node of the heap is a dependency of two nodes, nor twice a dependency of
one: the dependency vectors of all the nodes, put end to end, have no repetition. -/
def Forest (s : State α) : Prop :=
  ((List.range s.nodes.length).flatMap (fun c => (s.getNode c).dependencies)).Nodup

instance (s : State α) : Decidable s.Forest := by
  unfold Forest
  infer_instance

/-- The invocation of the closure of `n`, after the invocations `pre`, is that of
the root `r`, or `n` is a dependency of a node `c` reachable from `r` whose
closure, if it has one, was invoked in `pre`. -/
def PrecededFrom (s : State α) (r n : Nat) (pre : List Nat) : Prop :=
  n = r ∨ ∃ c C, s.Reaches r c ∧ s.nodes[c]? = some C ∧ n ∈ C.dependencies ∧
    (C.backward_op.isSome = true → c ∈ pre)

/-- The invocation of the closure of `n`, after the invocations `pre`, is made along
the dependency path `w` from the root `r`: the path ends at `n`, and every node
that the path passes before `n` (the consumer whose `backward()` makes the call, and
the callers above it up to `r`) has had its closure, if it has one, invoked in
`pre`. -/
def CalledAlong (s : State α) (r n : Nat) (pre w : List Nat) : Prop :=
  s.walkEnd r w = some n ∧
  ∀ (w1 w2 : List Nat) (c : Nat) (C : Node α), w = w1 ++ w2 → w2 ≠ [] →
    s.walkEnd r w1 = some c → s.nodes[c]? = some C → C.backward_op.isSome = true → c ∈ pre
end State

end P1

/-! ## Concrete states used by the witnesses -/

namespace P1

/-- The graph `c = b + b` with `b = a.apply(x ↦ x², x ↦ 2x)` over the `1 × 1` leaf
`a = [3]`: pointers `a = 0`, `b = 1`, `c = 2`. -/
def sharedGraph : Except Error (State ℤ × Nat) :=
  match Node.apply (Node.ofMatrix State.empty ⟨1, 1, [3]⟩).1 0 (fun x => x * x)
      (some (fun x => 2 * x)) with
  | .ok (s1, b) => Node.add s1 b b
  | .error e => .error e

/-- The state of `sharedGraph`. -/
def sharedState : State ℤ :=
  match sharedGraph with
  | .ok (s, _) => s
  | .error _ => State.empty

/-- The graph `z = x + y` with `x = a.apply(f, f')` and `y = x.apply(f, f')`, for
`f x = x²`, over the `1 × 1` leaf `a = [3]`: pointers `a = 0`, `x = 1`, `y = 2`,
`z = 3`. The node `x` has the two consumers `y` and `z`. -/
def diamondGraph : Except Error (State ℤ × Nat) :=
  match Node.apply (Node.ofMatrix State.empty ⟨1, 1, [3]⟩).1 0 (fun x => x * x)
      (some (fun x => 2 * x)) with
  | .ok (s1, x) =>
    match Node.apply s1 x (fun x => x * x) (some (fun x => 2 * x)) with
    | .ok (s2, y) => Node.add s2 x y
    | .error e => .error e
  | .error e => .error e

/-- The state of `diamondGraph`. -/
def diamondState : State ℤ :=
  match diamondGraph with
  | .ok (s, _) => s
  | .error _ => State.empty

/-- One step of `MLP::train` up to the loss, for the network `MLP(2, 2, 1, lr)` whose
weights are zero (`initialize` drawing `0` for every entry), the `2 × 1` input
`(0, 0)` and the `1 × 1` target `t`: `output = forward(input)` and
`error = binary_cross_entropy(*output, target)`. The nodes are `W1 = 0`, `b1 = 1`,
`W2 = 2`, `b2 = 3`, `input = 4`, `target = 5`, then `W1 * input = 6`, `z1 = 7`,
`a1 = 8`, `W2 * a1 = 9`, `z2 = 10`, `output = 11` and `error = 12`; the value and
the gradient of the node `k` are the matrices `2 k` and `2 k + 1`. -/
def zeroNetLoss {α : Type} [Ring α] [Div α] (exp log : α → α) (t : α) :
    Except Error (State α × Nat) :=
  let (s, mlp) := MLP.new State.empty 2 2 1 0 (fun _ _ => 0) (fun _ _ => 0)
  let (s, input) := Node.ofMatrix s ⟨2, 1, [0, 0]⟩
  let (s, target) := Node.ofMatrix s ⟨1, 1, [t]⟩
  match MLP.forward exp mlp s input with
  | .error e => .error e
  | .ok (s, output) => binary_cross_entropy log s output target

/-- The leaves of `zeroNetLoss`: the state after the constructor of the network,
of the input and of the target. -/
def zeroNetLeaves {α : Type} [Zero α] (t : α) : State α :=
  { mats := [Matrix.new 2 2, Matrix.new 2 2, Matrix.new 2 1, Matrix.new 2 1,
             Matrix.new 1 2, Matrix.new 1 2, Matrix.new 1 1, Matrix.new 1 1,
             Matrix.new 2 1, Matrix.new 2 1, ⟨1, 1, [t]⟩, Matrix.new 1 1]
    nodes := [⟨2, 2, 0, 1, none, []⟩, ⟨2, 1, 2, 3, none, []⟩, ⟨1, 2, 4, 5, none, []⟩,
              ⟨1, 1, 6, 7, none, []⟩, ⟨2, 1, 8, 9, none, []⟩, ⟨1, 1, 10, 11, none, []⟩]
    all_nodes := [] }

/-- The state that `zeroNetLoss` builds, as a function of the values
`V6, ..., V12` of the seven nodes that the operators create. -/
def zeroNetShape {α : Type} [Ring α] [Div α] (exp : α → α) (t : α)
    (V6 V7 V8 V9 V10 V11 V12 : Matrix α) : State α :=
  { mats := (zeroNetLeaves t).mats ++
      [V6, Matrix.new 2 1, V7, Matrix.new 2 1, V8, Matrix.new 2 1, V9, Matrix.new 1 1,
       V10, Matrix.new 1 1, V11, Matrix.new 1 1, V12, Matrix.new 1 1]
    nodes := (zeroNetLeaves t).nodes ++
      [⟨2, 1, 12, 13, some (.mul 0 1 8 9 13), [0, 4]⟩,
       ⟨2, 1, 14, 15, some (.add 13 3 15), [6, 1]⟩,
       ⟨2, 1, 16, 17, some (.apply 14 15 17 (sigmoid_derivative exp) 2 1), [7]⟩,
       ⟨1, 1, 18, 19, some (.mul 4 5 16 17 19), [2, 8]⟩,
       ⟨1, 1, 20, 21, some (.add 19 7 21), [9, 3]⟩,
       ⟨1, 1, 22, 23, some (.apply 20 21 23 (sigmoid_derivative exp) 1 1), [10]⟩,
       ⟨1, 1, 24, 25, some (.bce 11 5), [11]⟩]
    all_nodes := [6, 7, 8, 9, 10, 11, 12] }

/-- The state of `zeroNetLoss` over the integers, with `exp` and `log` replaced by
constant functions: the graph of `MLP::forward` followed by
`binary_cross_entropy`. -/
def zeroNetState : State ℤ :=
  match zeroNetLoss (fun _ => 1) (fun _ => 0) 1 with
  | .ok (s, _) => s
  | .error _ => State.empty

/-- One leaf node (pointer `0`) holding `M`; its gradient is the matrix `1`. -/
def oneLeaf (M : Matrix ℤ) : State ℤ := (Node.ofMatrix State.empty M).1

/-- Two leaf nodes (pointers `0` and `1`) holding `MA` and `MB`; their values are
the matrices `0` and `2`, their gradients the matrices `1` and `3`. -/
def twoLeaves (MA MB : Matrix ℤ) : State ℤ := (Node.ofMatrix (oneLeaf MA) MB).1

/-- The leaf that `oneLeaf` and `twoLeaves` build first. -/
def leafA (r c : Nat) : Node ℤ :=
  { rows := r, cols := c, values := 0, grads := 1, backward_op := none, dependencies := [] }

/-- The second leaf of `twoLeaves`. -/
def leafB (r c : Nat) : Node ℤ :=
  { rows := r, cols := c, values := 2, grads := 3, backward_op := none, dependencies := [] }

end P1

/-! ## Loops and list updates -/

section Loops

variable {α σ τ ι κ : Type}

theorem forLoop_zero (body : Nat → σ → σ) (s : σ) : forLoop 0 body s = s := rfl

theorem forLoop_succ (n : Nat) (body : Nat → σ → σ) (s : σ) :
    forLoop (n + 1) body s = body n (forLoop n body s) := by
  simp [forLoop, List.range_succ, List.foldl_append]

/-- A loop whose body commutes with an embedding of states can be run before the
embedding. -/
theorem forLoop_embed (e : σ → τ) (n : Nat) (b1 : Nat → σ → σ) (b2 : Nat → τ → τ)
    (h : ∀ i x, b2 i (e x) = e (b1 i x)) (x : σ) :
    forLoop n b2 (e x) = e (forLoop n b1 x) := by
  induction n with
  | zero => rfl
  | succ n ih => rw [forLoop_succ, forLoop_succ, ih, h]

theorem forLoop_congr (n : Nat) (b1 b2 : Nat → σ → σ)
    (h : ∀ i, i < n → ∀ x, b1 i x = b2 i x) (x : σ) :
    forLoop n b1 x = forLoop n b2 x := by
  induction n with
  | zero => rfl
  | succ n ih =>
    rw [forLoop_succ, forLoop_succ, ih (fun i hi => h i (Nat.lt_succ_of_lt hi)),
      h n (Nat.lt_succ_self n)]

/-- Two nested counted loops are one fold over the pairs in row-major order. -/
theorem forLoop_nested (r c : Nat) (body : Nat → Nat → σ → σ) (s : σ) :
    forLoop r (fun i s => forLoop c (fun j s => body i j s) s) s =
      (List.range r ×ˢ List.range c).foldl (fun s x => body x.1 x.2 s) s := by
  unfold forLoop
  generalize List.range r = l1
  induction l1 generalizing s with
  | nil => rfl
  | cons a l ih =>
    rw [List.foldl_cons, ih]
    rw [List.product_cons, List.foldl_append, List.foldl_map]

theorem foldl_update_length [Zero α] (p : ι → Nat) (h : ι → α → α) (ps : List ι)
    (d : List α) :
    (ps.foldl (fun acc x => acc.set (p x) (h x (acc.getD (p x) 0))) d).length = d.length := by
  induction ps generalizing d with
  | nil => rfl
  | cons x xs ih => rw [List.foldl_cons, ih, List.length_set]

theorem foldl_update_getD_of_not_mem [Zero α] (p : ι → Nat) (h : ι → α → α) (ps : List ι)
    (d : List α) (k : Nat) (hk : ∀ x ∈ ps, p x ≠ k) :
    (ps.foldl (fun acc x => acc.set (p x) (h x (acc.getD (p x) 0))) d).getD k 0 =
      d.getD k 0 := by
  induction ps generalizing d with
  | nil => rfl
  | cons x xs ih =>
    rw [List.foldl_cons, ih _ (fun y hy => hk y (List.mem_cons_of_mem _ hy))]
    simp only [List.getD_eq_getElem?_getD, List.getElem?_set_ne (hk x (List.mem_cons_self _ _))]

theorem foldl_update_getD_of_mem [Zero α] (p : ι → Nat) (h : ι → α → α) (ps : List ι)
    (d : List α) (hnd : (ps.map p).Nodup) (x : ι) (hx : x ∈ ps) (hlt : p x < d.length) :
    (ps.foldl (fun acc x => acc.set (p x) (h x (acc.getD (p x) 0))) d).getD (p x) 0 =
      h x (d.getD (p x) 0) := by
  induction ps generalizing d with
  | nil => cases hx
  | cons y ys ih =>
    rw [List.map_cons, List.nodup_cons] at hnd
    rw [List.foldl_cons]
    by_cases hxy : p x = p y
    · rw [hxy, foldl_update_getD_of_not_mem]
      · rw [List.getD_eq_getElem?_getD, List.getElem?_set_self (hxy ▸ hlt)]
        rcases List.mem_cons.1 hx with rfl | hmem
        · rfl
        · exact absurd (hxy ▸ List.mem_map_of_mem p hmem) hnd.1
      · intro z hz hzy
        exact hnd.1 (hzy ▸ List.mem_map_of_mem p hz)
    · have hmem : x ∈ ys := by
        rcases List.mem_cons.1 hx with rfl | hmem
        · exact absurd rfl hxy
        · exact hmem
      rw [ih _ hnd.2 hmem (by rw [List.length_set]; exact hlt)]
      simp only [List.getD_eq_getElem?_getD, List.getElem?_set_ne (Ne.symm hxy)]

end Loops

/-! ## Entries of the dense matrix operations -/

theorem index_lt {r c i j : Nat} (hi : i < r) (hj : j < c) : i * c + j < r * c := by
  have h1 : (i + 1) * c ≤ r * c := Nat.mul_le_mul_right c hi
  rw [Nat.succ_mul] at h1
  omega

theorem index_inj {c i j i' j' : Nat} (hj : j < c) (hj' : j' < c)
    (h : i * c + j = i' * c + j') : i = i' ∧ j = j' := by
  rcases Nat.lt_trichotomy i i' with hlt | heq | hgt
  · have h1 : (i + 1) * c ≤ i' * c := Nat.mul_le_mul_right c hlt
    rw [Nat.succ_mul] at h1
    omega
  · subst heq
    exact ⟨rfl, by omega⟩
  · have h1 : (i' + 1) * c ≤ i * c := Nat.mul_le_mul_right c hgt
    rw [Nat.succ_mul] at h1
    omega

namespace Matrix

variable {α : Type} [Zero α]

theorem new_WF (r c : Nat) : (new r c : Matrix α).WF := by
  simp [WF, new]

theorem get_new (r c i j : Nat) : (new r c : Matrix α).get i j = 0 := by
  simp only [get, new, List.getD_eq_getElem?_getD, List.getElem?_replicate]
  split <;> rfl

/-- A loop of `set` calls on a matrix is the same fold on its storage. -/
theorem foldl_set_eq (a b : Nat → Nat → Nat) (h : Nat → Nat → α → α)
    (l : List (Nat × Nat)) (m : Matrix α) :
    l.foldl (fun m x => m.set (a x.1 x.2) (b x.1 x.2)
        (h x.1 x.2 (m.get (a x.1 x.2) (b x.1 x.2)))) m =
      { m with data := l.foldl (fun acc x =>
          acc.set (a x.1 x.2 * m.cols + b x.1 x.2)
            (h x.1 x.2 (acc.getD (a x.1 x.2 * m.cols + b x.1 x.2) 0))) m.data } := by
  induction l generalizing m with
  | nil => rfl
  | cons x xs ih => rw [List.foldl_cons, ih]; rfl

theorem updLoop_eq (r c : Nat) (a b : Nat → Nat → Nat) (h : Nat → Nat → α → α)
    (m : Matrix α) :
    updLoop r c a b h m =
      { m with data := (List.range r ×ˢ List.range c).foldl (fun acc x =>
          acc.set (a x.1 x.2 * m.cols + b x.1 x.2)
            (h x.1 x.2 (acc.getD (a x.1 x.2 * m.cols + b x.1 x.2) 0))) m.data } := by
  unfold updLoop
  rw [forLoop_nested r c (fun i j m =>
    m.set (a i j) (b i j) (h i j (m.get (a i j) (b i j)))) m]
  exact foldl_set_eq a b h _ m

theorem updLoop_rows (r c : Nat) (a b : Nat → Nat → Nat) (h : Nat → Nat → α → α)
    (m : Matrix α) : (updLoop r c a b h m).rows = m.rows := by
  rw [updLoop_eq]

theorem updLoop_cols (r c : Nat) (a b : Nat → Nat → Nat) (h : Nat → Nat → α → α)
    (m : Matrix α) : (updLoop r c a b h m).cols = m.cols := by
  rw [updLoop_eq]

theorem updLoop_length (r c : Nat) (a b : Nat → Nat → Nat) (h : Nat → Nat → α → α)
    (m : Matrix α) : (updLoop r c a b h m).data.length = m.data.length := by
  rw [updLoop_eq]
  exact foldl_update_length (fun x : Nat × Nat => a x.1 x.2 * m.cols + b x.1 x.2)
    (fun x => h x.1 x.2) _ m.data

theorem updLoop_WF (r c : Nat) (a b : Nat → Nat → Nat) (h : Nat → Nat → α → α)
    (m : Matrix α) (hm : m.WF) : (updLoop r c a b h m).WF := by
  unfold WF at *
  rw [updLoop_length, updLoop_rows, updLoop_cols, hm]

/-- Entry written by the nested loops, when distinct iterations write distinct
storage cells and the cell is inside the storage. -/
theorem updLoop_get (r c : Nat) (a b : Nat → Nat → Nat) (h : Nat → Nat → α → α)
    (m : Matrix α)
    (hinj : ∀ i j i' j', i < r → j < c → i' < r → j' < c →
      a i j * m.cols + b i j = a i' j' * m.cols + b i' j' → i = i' ∧ j = j')
    (i j : Nat) (hi : i < r) (hj : j < c) (hlt : a i j * m.cols + b i j < m.data.length) :
    (updLoop r c a b h m).get (a i j) (b i j) = h i j (m.get (a i j) (b i j)) := by
  rw [updLoop_eq]
  unfold get
  have hnd : ((List.range r ×ˢ List.range c).map
      (fun x : Nat × Nat => a x.1 x.2 * m.cols + b x.1 x.2)).Nodup := by
    apply List.Nodup.map_on
    · rintro ⟨x1, x2⟩ hx ⟨y1, y2⟩ hy hxy
      rw [List.mem_product, List.mem_range, List.mem_range] at hx hy
      obtain ⟨h1, h2⟩ := hinj x1 x2 y1 y2 hx.1 hx.2 hy.1 hy.2 hxy
      rw [h1, h2]
    · exact List.Nodup.product (List.nodup_range r) (List.nodup_range c)
  exact foldl_update_getD_of_mem (fun x : Nat × Nat => a x.1 x.2 * m.cols + b x.1 x.2)
    (fun x => h x.1 x.2) _ m.data hnd (i, j)
    (by rw [List.mem_product, List.mem_range, List.mem_range]; exact ⟨hi, hj⟩) hlt

/-- Entries of a matrix written row by row over its whole shape. -/
theorem updLoop_get_self (h : Nat → Nat → α → α) (m : Matrix α) (hm : m.WF)
    (i j : Nat) (hi : i < m.rows) (hj : j < m.cols) :
    (updLoop m.rows m.cols (fun i _ => i) (fun _ j => j) h m).get i j =
      h i j (m.get i j) := by
  apply updLoop_get m.rows m.cols (fun i _ => i) (fun _ j => j) h m _ i j hi hj
  · rw [hm]; exact index_lt hi hj
  · intro i j i' j' _ hj _ hj' heq
    exact index_inj hj hj' heq

theorem transpose_rows (m : Matrix α) : m.transpose.rows = m.cols :=
  updLoop_rows m.rows m.cols (fun _ j => j) (fun i _ => i)
    (fun i j _ => m.data.getD (i * m.cols + j) 0) (new m.cols m.rows)

theorem transpose_cols (m : Matrix α) : m.transpose.cols = m.rows :=
  updLoop_cols m.rows m.cols (fun _ j => j) (fun i _ => i)
    (fun i j _ => m.data.getD (i * m.cols + j) 0) (new m.cols m.rows)

theorem transpose_WF (m : Matrix α) : m.transpose.WF :=
  updLoop_WF m.rows m.cols (fun _ j => j) (fun i _ => i)
    (fun i j _ => m.data.getD (i * m.cols + j) 0) (new m.cols m.rows) (new_WF _ _)

theorem transpose_get (m : Matrix α) (i j : Nat) (hi : i < m.rows) (hj : j < m.cols) :
    m.transpose.get j i = m.get i j := by
  apply updLoop_get m.rows m.cols (fun _ j => j) (fun i _ => i)
    (fun i j _ => m.data.getD (i * m.cols + j) 0) (new m.cols m.rows) _ i j hi hj
  · show j * m.rows + i < (List.replicate (m.cols * m.rows) (0 : α)).length
    rw [List.length_replicate]
    exact index_lt hj hi
  · intro i j i' j' hi _ hi' _ heq
    have := index_inj (c := m.rows) hi hi' heq
    exact ⟨this.2, this.1⟩

/-- A fresh `r × c` matrix filled entry by entry with `g i j`. -/
theorem tabulate_get (r c : Nat) (g : Nat → Nat → α) (i j : Nat) (hi : i < r) (hj : j < c) :
    (updLoop r c (fun i _ => i) (fun _ j => j) (fun i j _ => g i j) (new r c)).get i j =
      g i j :=
  updLoop_get_self (fun i j _ => g i j) (new r c) (new_WF r c) i j hi hj

theorem apply_rows (m : Matrix α) (f : α → α) : (m.apply f).rows = m.rows :=
  updLoop_rows m.rows m.cols (fun i _ => i) (fun _ j => j)
    (fun i j _ => f (m.data.getD (i * m.cols + j) 0)) (new m.rows m.cols)

theorem apply_cols (m : Matrix α) (f : α → α) : (m.apply f).cols = m.cols :=
  updLoop_cols m.rows m.cols (fun i _ => i) (fun _ j => j)
    (fun i j _ => f (m.data.getD (i * m.cols + j) 0)) (new m.rows m.cols)

theorem apply_WF (m : Matrix α) (f : α → α) : (m.apply f).WF :=
  updLoop_WF m.rows m.cols (fun i _ => i) (fun _ j => j)
    (fun i j _ => f (m.data.getD (i * m.cols + j) 0)) (new m.rows m.cols) (new_WF _ _)

theorem apply_get (m : Matrix α) (f : α → α) (i j : Nat) (hi : i < m.rows) (hj : j < m.cols) :
    (m.apply f).get i j = f (m.get i j) :=
  tabulate_get m.rows m.cols (fun i j => f (m.data.getD (i * m.cols + j) 0)) i j hi hj

end Matrix

namespace Matrix

variable {α : Type} [NonUnitalNonAssocSemiring α]

theorem add_rows (A B : Matrix α) : (A.add B).rows = A.rows :=
  updLoop_rows A.rows A.cols (fun i _ => i) (fun _ j => j)
    (fun i j _ => A.data.getD (i * A.cols + j) 0 + B.get i j) (new A.rows A.cols)

theorem add_cols (A B : Matrix α) : (A.add B).cols = A.cols :=
  updLoop_cols A.rows A.cols (fun i _ => i) (fun _ j => j)
    (fun i j _ => A.data.getD (i * A.cols + j) 0 + B.get i j) (new A.rows A.cols)

theorem add_WF (A B : Matrix α) : (A.add B).WF :=
  updLoop_WF A.rows A.cols (fun i _ => i) (fun _ j => j)
    (fun i j _ => A.data.getD (i * A.cols + j) 0 + B.get i j) (new A.rows A.cols)
    (new_WF _ _)

theorem add_get (A B : Matrix α) (i j : Nat) (hi : i < A.rows) (hj : j < A.cols) :
    (A.add B).get i j = A.get i j + B.get i j :=
  tabulate_get A.rows A.cols (fun i j => A.data.getD (i * A.cols + j) 0 + B.get i j)
    i j hi hj

theorem mulScalar_rows (A : Matrix α) (x : α) : (A.mulScalar x).rows = A.rows :=
  updLoop_rows A.rows A.cols (fun i _ => i) (fun _ j => j)
    (fun i j _ => A.data.getD (i * A.cols + j) 0 * x) (new A.rows A.cols)

theorem mulScalar_cols (A : Matrix α) (x : α) : (A.mulScalar x).cols = A.cols :=
  updLoop_cols A.rows A.cols (fun i _ => i) (fun _ j => j)
    (fun i j _ => A.data.getD (i * A.cols + j) 0 * x) (new A.rows A.cols)

theorem mulScalar_WF (A : Matrix α) (x : α) : (A.mulScalar x).WF :=
  updLoop_WF A.rows A.cols (fun i _ => i) (fun _ j => j)
    (fun i j _ => A.data.getD (i * A.cols + j) 0 * x) (new A.rows A.cols) (new_WF _ _)

theorem mulScalar_get (A : Matrix α) (x : α) (i j : Nat) (hi : i < A.rows)
    (hj : j < A.cols) : (A.mulScalar x).get i j = A.get i j * x :=
  tabulate_get A.rows A.cols (fun i j => A.data.getD (i * A.cols + j) 0 * x) i j hi hj

/-- The accumulation `sum = 0; sum += f k` for `k = 0, 1, ...` is the finite sum. -/
theorem forLoop_sum (n : Nat) (f : Nat → α) :
    forLoop n (fun k sum => sum + f k) 0 = ∑ k ∈ Finset.range n, f k := by
  induction n with
  | zero => rfl
  | succ n ih => rw [forLoop_succ, ih, Finset.sum_range_succ]

theorem mul_rows (A B : Matrix α) : (A.mul B).rows = A.rows :=
  updLoop_rows A.rows B.cols (fun i _ => i) (fun _ j => j)
    (fun i j _ => forLoop A.cols (fun k sum =>
      sum + A.data.getD (i * A.cols + k) 0 * B.transpose.get j k) 0) (new A.rows B.cols)

theorem mul_cols (A B : Matrix α) : (A.mul B).cols = B.cols :=
  updLoop_cols A.rows B.cols (fun i _ => i) (fun _ j => j)
    (fun i j _ => forLoop A.cols (fun k sum =>
      sum + A.data.getD (i * A.cols + k) 0 * B.transpose.get j k) 0) (new A.rows B.cols)

theorem mul_WF (A B : Matrix α) : (A.mul B).WF :=
  updLoop_WF A.rows B.cols (fun i _ => i) (fun _ j => j)
    (fun i j _ => forLoop A.cols (fun k sum =>
      sum + A.data.getD (i * A.cols + k) 0 * B.transpose.get j k) 0) (new A.rows B.cols)
    (new_WF _ _)

/-- Entry of the product, the inner dimensions agreeing. -/
theorem mul_get (A B : Matrix α) (hAB : A.cols = B.rows) (i j : Nat) (hi : i < A.rows)
    (hj : j < B.cols) :
    (A.mul B).get i j = ∑ k ∈ Finset.range A.cols, A.get i k * B.get k j := by
  have h1 : (A.mul B).get i j = forLoop A.cols (fun k sum =>
      sum + A.data.getD (i * A.cols + k) 0 * B.transpose.get j k) 0 :=
    tabulate_get A.rows B.cols (fun i j => forLoop A.cols (fun k sum =>
      sum + A.data.getD (i * A.cols + k) 0 * B.transpose.get j k) 0) i j hi hj
  rw [h1, forLoop_sum]
  apply Finset.sum_congr rfl
  intro k hk
  rw [Finset.mem_range, hAB] at hk
  rw [transpose_get B k j hk hj]
  rfl

end Matrix

/-! ## Finite differences of the product -/

namespace Matrix

theorem set_rows {α : Type} (M : Matrix α) (p q : Nat) (v : α) :
    (M.set p q v).rows = M.rows := rfl

theorem set_cols {α : Type} (M : Matrix α) (p q : Nat) (v : α) :
    (M.set p q v).cols = M.cols := rfl

theorem get_set {α : Type} [Zero α] (M : Matrix α) (hM : M.WF) (p q i l : Nat) (v : α)
    (hp : p < M.rows) (hq : q < M.cols) (hl : l < M.cols) :
    (M.set p q v).get i l = if i = p ∧ l = q then v else M.get i l := by
  have hlt : p * M.cols + q < M.data.length := hM ▸ index_lt hp hq
  unfold get set
  simp only [List.getD_eq_getElem?_getD, List.getElem?_set]
  by_cases h : p * M.cols + q = i * M.cols + l
  · have := index_inj hq hl h
    simp [h, this.1, this.2, hlt, ← h]
  · have hne : ¬ (i = p ∧ l = q) := fun hh => h (by rw [hh.1, hh.2])
    simp [h, hne]

variable {α : Type} [CommRing α]

/-- Perturbing the entry `(p, q)` of the left factor by `h` changes
`Σ_ij G[i,j] * (A * B)[i,j]` by `h * Σ_l G[p,l] * B[q,l]`. -/
theorem weightedSum_mul_set_left (G A B : Matrix α) (m k n : Nat)
    (hG : G.Shaped m n) (hA : A.Shaped m k) (hB : B.Shaped k n) (p q : Nat)
    (hp : p < m) (hq : q < k) (h : α) :
    G.weightedSum ((A.set p q (A.get p q + h)).mul B) - G.weightedSum (A.mul B) =
      h * ∑ l ∈ Finset.range n, G.get p l * B.get q l := by
  have hAwf : A.WF := by unfold WF; rw [hA.2.2, hA.1, hA.2.1]
  have hentry : ∀ i j, i < m → j < n →
      ((A.set p q (A.get p q + h)).mul B).get i j =
        (A.mul B).get i j + (if i = p then h * B.get q j else 0) := by
    intro i j hi hj
    rw [mul_get _ _ (by rw [set_cols, hA.2.1, hB.1]) i j (by rw [set_rows, hA.1]; exact hi)
        (hB.2.1.symm ▸ hj),
      mul_get _ _ (by rw [hA.2.1, hB.1]) i j (hA.1.symm ▸ hi) (hB.2.1.symm ▸ hj),
      set_cols, hA.2.1]
    have hterm : ∀ l ∈ Finset.range k,
        (A.set p q (A.get p q + h)).get i l * B.get l j =
          A.get i l * B.get l j + (if l = q then (if i = p then h * B.get q j else 0) else 0) := by
      intro l hl
      rw [Finset.mem_range] at hl
      rw [get_set A hAwf p q i l _ (hA.1.symm ▸ hp) (hA.2.1.symm ▸ hq) (hA.2.1.symm ▸ hl)]
      by_cases hlq : l = q
      · by_cases hip : i = p
        · subst hlq; subst hip; simp [add_mul]
        · simp [hlq, hip]
      · simp [hlq]
    rw [Finset.sum_congr rfl hterm, Finset.sum_add_distrib, Finset.sum_ite_eq']
    simp [Finset.mem_range, hq]
  unfold weightedSum
  rw [hG.1, hG.2.1]
  have hsum : ∀ i ∈ Finset.range m, ∑ j ∈ Finset.range n,
      G.get i j * ((A.set p q (A.get p q + h)).mul B).get i j =
        ∑ j ∈ Finset.range n, G.get i j * (A.mul B).get i j +
          (if i = p then h * ∑ l ∈ Finset.range n, G.get p l * B.get q l else 0) := by
    intro i hi
    rw [Finset.mem_range] at hi
    have : ∀ j ∈ Finset.range n, G.get i j * ((A.set p q (A.get p q + h)).mul B).get i j =
        G.get i j * (A.mul B).get i j + (if i = p then h * (G.get p j * B.get q j) else 0) := by
      intro j hj
      rw [Finset.mem_range] at hj
      rw [hentry i j hi hj, mul_add]
      by_cases hip : i = p
      · subst hip; simp; ring
      · simp [hip]
    rw [Finset.sum_congr rfl this, Finset.sum_add_distrib]
    by_cases hip : i = p
    · simp [hip, Finset.mul_sum]
    · simp [hip]
  rw [Finset.sum_congr rfl hsum, Finset.sum_add_distrib, Finset.sum_ite_eq']
  simp [Finset.mem_range, hp]

/-- Perturbing the entry `(p, q)` of the right factor by `h` changes
`Σ_ij G[i,j] * (A * B)[i,j]` by `h * Σ_l A[l,p] * G[l,q]`. -/
theorem weightedSum_mul_set_right (G A B : Matrix α) (m k n : Nat)
    (hG : G.Shaped m n) (hA : A.Shaped m k) (hB : B.Shaped k n) (p q : Nat)
    (hp : p < k) (hq : q < n) (h : α) :
    G.weightedSum (A.mul (B.set p q (B.get p q + h))) - G.weightedSum (A.mul B) =
      h * ∑ l ∈ Finset.range m, A.get l p * G.get l q := by
  have hBwf : B.WF := by unfold WF; rw [hB.2.2, hB.1, hB.2.1]
  have hentry : ∀ i j, i < m → j < n →
      (A.mul (B.set p q (B.get p q + h))).get i j =
        (A.mul B).get i j + (if j = q then A.get i p * h else 0) := by
    intro i j hi hj
    rw [mul_get _ _ (by rw [set_rows, hA.2.1, hB.1]) i j (hA.1.symm ▸ hi)
        (by rw [set_cols, hB.2.1]; exact hj),
      mul_get _ _ (by rw [hA.2.1, hB.1]) i j (hA.1.symm ▸ hi) (hB.2.1.symm ▸ hj),
      hA.2.1]
    have hterm : ∀ l ∈ Finset.range k,
        A.get i l * (B.set p q (B.get p q + h)).get l j =
          A.get i l * B.get l j + (if l = p then (if j = q then A.get i p * h else 0) else 0) := by
      intro l _
      rw [get_set B hBwf p q l j _ (hB.1.symm ▸ hp) (hB.2.1.symm ▸ hq) (hB.2.1.symm ▸ hj)]
      by_cases hlp : l = p
      · by_cases hjq : j = q
        · subst hlp; subst hjq; simp [mul_add]
        · simp [hlp, hjq]
      · simp [hlp]
    rw [Finset.sum_congr rfl hterm, Finset.sum_add_distrib, Finset.sum_ite_eq']
    simp [Finset.mem_range, hp]
  unfold weightedSum
  rw [hG.1, hG.2.1]
  have hsum : ∀ i ∈ Finset.range m, ∑ j ∈ Finset.range n,
      G.get i j * (A.mul (B.set p q (B.get p q + h))).get i j =
        ∑ j ∈ Finset.range n, G.get i j * (A.mul B).get i j +
          h * (A.get i p * G.get i q) := by
    intro i hi
    rw [Finset.mem_range] at hi
    have : ∀ j ∈ Finset.range n, G.get i j * (A.mul (B.set p q (B.get p q + h))).get i j =
        G.get i j * (A.mul B).get i j + (if j = q then h * (A.get i p * G.get i q) else 0) := by
      intro j hj
      rw [Finset.mem_range] at hj
      rw [hentry i j hi hj, mul_add]
      by_cases hjq : j = q
      · subst hjq; simp; ring
      · simp [hjq]
    rw [Finset.sum_congr rfl this, Finset.sum_add_distrib, Finset.sum_ite_eq']
    simp [Finset.mem_range, hq]
  rw [Finset.sum_congr rfl hsum, Finset.sum_add_distrib, ← Finset.mul_sum]
  ring

/-- `set` keeps the shape and the size of the storage. -/
theorem set_Shaped (A : Matrix α) (m k p q : Nat) (v : α) (hA : A.Shaped m k) :
    (A.set p q v).Shaped m k := by
  refine ⟨hA.1, hA.2.1, ?_⟩
  unfold set
  simp only [List.length_set]
  exact hA.2.2

/-- On matrices of matching shapes, `L(A, B)` is the weighted sum of the entries of
the product that `Matrix::operator*` computes. -/
theorem productLoss_eq_weightedSum (G A B : Matrix α) (m k n : Nat)
    (hG : G.Shaped m n) (hA : A.Shaped m k) (hB : B.Shaped k n) :
    productLoss m k n G.get A.get B.get = G.weightedSum (A.mul B) := by
  unfold productLoss weightedSum
  rw [hG.1, hG.2.1]
  apply Finset.sum_congr rfl
  intro i hi
  apply Finset.sum_congr rfl
  intro j hj
  rw [Finset.mem_range] at hi hj
  rw [mul_get A B (by rw [hA.2.1, hB.1]) i j (hA.1.symm ▸ hi) (hB.2.1.symm ▸ hj), hA.2.1]

/-- `L(A + h E_pq, B)` through `set` and `Matrix::operator*`. -/
theorem productLoss_bump_left (G A B : Matrix α) (m k n : Nat)
    (hG : G.Shaped m n) (hA : A.Shaped m k) (hB : B.Shaped k n) (p q : Nat)
    (hp : p < m) (hq : q < k) (h : α) :
    productLoss m k n G.get (unitBump A.get p q h) B.get =
      G.weightedSum ((A.set p q (A.get p q + h)).mul B) := by
  have hAwf : A.WF := by unfold WF; rw [hA.2.2, hA.1, hA.2.1]
  rw [← productLoss_eq_weightedSum G _ B m k n hG (set_Shaped A m k p q _ hA) hB]
  unfold productLoss
  apply Finset.sum_congr rfl
  intro i hi
  apply Finset.sum_congr rfl
  intro j hj
  congr 1
  apply Finset.sum_congr rfl
  intro l hl
  rw [Finset.mem_range] at hl
  rw [get_set A hAwf p q i l _ (hA.1.symm ▸ hp) (hA.2.1.symm ▸ hq) (hA.2.1.symm ▸ hl)]
  unfold unitBump
  by_cases hc : i = p ∧ l = q
  · rw [if_pos hc, if_pos hc, hc.1, hc.2]
  · rw [if_neg hc, if_neg hc]

/-- `L(A, B + h E_pq)` through `set` and `Matrix::operator*`. -/
theorem productLoss_bump_right (G A B : Matrix α) (m k n : Nat)
    (hG : G.Shaped m n) (hA : A.Shaped m k) (hB : B.Shaped k n) (p q : Nat)
    (hp : p < k) (hq : q < n) (h : α) :
    productLoss m k n G.get A.get (unitBump B.get p q h) =
      G.weightedSum (A.mul (B.set p q (B.get p q + h))) := by
  have hBwf : B.WF := by unfold WF; rw [hB.2.2, hB.1, hB.2.1]
  rw [← productLoss_eq_weightedSum G A _ m k n hG hA (set_Shaped B k n p q _ hB)]
  unfold productLoss
  apply Finset.sum_congr rfl
  intro i hi
  apply Finset.sum_congr rfl
  intro j hj
  rw [Finset.mem_range] at hj
  congr 1
  apply Finset.sum_congr rfl
  intro l hl
  rw [get_set B hBwf p q l j _ (hB.1.symm ▸ hp) (hB.2.1.symm ▸ hq) (hB.2.1.symm ▸ hj)]
  unfold unitBump
  by_cases hc : l = p ∧ j = q
  · rw [if_pos hc, if_pos hc, hc.1, hc.2]
  · rw [if_neg hc, if_neg hc]

end Matrix

/-! ## The two versions of the product -/

namespace Matrix

variable {α : Type} [Zero α] [Add α] [Mul α]

/-- Claim C12. For `A` of shape `m × k` and `B` of shape `k × n`, the compiled
`Matrix::operator*`, which multiplies by the materialised transpose of `B`, returns
exactly the matrix of the naive triple loop (the first version of the source):
it is `m × n` and its entry `(i, j)` is the accumulation
`((0 + A[i,0] * B[0,j]) + A[i,1] * B[1,j]) + ...` in the order `k = 0, 1, ...`.
No law of arithmetic is used, so the two versions agree operation by operation. -/
theorem mul_eq_mulNaive (A B : Matrix α) (m k n : Nat) (hA : A.Shaped m k)
    (hB : B.Shaped k n) :
    A.mul B = A.mulNaive B ∧ (A.mul B).Shaped m n ∧
      ∀ i j, i < m → j < n →
        (A.mul B).get i j =
          (List.range k).foldl (fun sum l => sum + A.get i l * B.get l j) 0 := by
  have heq : A.mul B = A.mulNaive B := by
    unfold mul mulNaive
    apply forLoop_congr
    intro i _ x
    apply forLoop_congr
    intro j hj y
    dsimp only
    congr 1
    apply forLoop_congr
    intro l hl acc
    rw [transpose_get B l j (by rw [hB.1, ← hA.2.1]; exact hl) hj]
  have hrows : (A.mul B).rows = A.rows :=
    updLoop_rows A.rows B.cols (fun i _ => i) (fun _ j => j)
      (fun i j _ => forLoop A.cols (fun l sum =>
        sum + A.data.getD (i * A.cols + l) 0 * B.transpose.get j l) 0) (new A.rows B.cols)
  have hcols : (A.mul B).cols = B.cols :=
    updLoop_cols A.rows B.cols (fun i _ => i) (fun _ j => j)
      (fun i j _ => forLoop A.cols (fun l sum =>
        sum + A.data.getD (i * A.cols + l) 0 * B.transpose.get j l) 0) (new A.rows B.cols)
  refine ⟨heq, ?_, ?_⟩
  · have hlen := updLoop_length A.rows B.cols (fun i _ => i) (fun _ j => j)
      (fun i j _ => forLoop A.cols (fun l sum =>
        sum + A.data.getD (i * A.cols + l) 0 * B.transpose.get j l) 0) (new A.rows B.cols)
    refine ⟨hrows.trans hA.1, hcols.trans hB.2.1, ?_⟩
    have hlen2 : (A.mul B).data.length = A.rows * B.cols := by
      rw [show (new A.rows B.cols : Matrix α).data.length = A.rows * B.cols from
        List.length_replicate _ _] at hlen
      exact hlen
    rw [hlen2, hA.1, hB.2.1]
  · intro i j hi hj
    rw [heq]
    have h1 : (A.mulNaive B).get i j = forLoop A.cols (fun l sum =>
        sum + A.data.getD (i * A.cols + l) 0 * B.get l j) 0 :=
      tabulate_get A.rows B.cols (fun i j => forLoop A.cols (fun l sum =>
        sum + A.data.getD (i * A.cols + l) 0 * B.get l j) 0) i j (hA.1.symm ▸ hi)
        (hB.2.1.symm ▸ hj)
    rw [h1, ← hA.2.1]
    rfl

theorem mul_eq_mulNaive_witness :
    (Matrix.mul ⟨2, 2, [1, 2, 3, 4]⟩ ⟨2, 2, [5, 6, 7, 8]⟩ : Matrix ℤ) =
      Matrix.mulNaive ⟨2, 2, [1, 2, 3, 4]⟩ ⟨2, 2, [5, 6, 7, 8]⟩ :=
  (mul_eq_mulNaive ⟨2, 2, [1, 2, 3, 4]⟩ ⟨2, 2, [5, 6, 7, 8]⟩ 2 2 2 (by decide)
    (by decide)).1

end Matrix

/-! ## The heap -/

theorem modify_append_last {β : Type} (f : β → β) (l : List β) (x : β) :
    (l ++ [x]).modify f l.length = l ++ [f x] := by
  induction l with
  | nil => rfl
  | cons y ys ih => simpa [List.modify] using ih

namespace P1

namespace State

variable {α : Type}

theorem getMat_setMat_self (s : State α) (p : Nat) (m : Matrix α) (hp : s.validMat p) :
    (s.setMat p m).getMat p = m := by
  unfold validMat at hp
  simp [getMat, setMat, List.getD_eq_getElem?_getD, List.getElem?_set_self hp]

theorem getMat_setMat_ne (s : State α) (p q : Nat) (m : Matrix α) (hpq : p ≠ q) :
    (s.setMat p m).getMat q = s.getMat q := by
  simp [getMat, setMat, List.getD_eq_getElem?_getD, List.getElem?_set_ne hpq]

theorem setMat_setMat (s : State α) (p : Nat) (m1 m2 : Matrix α) :
    (s.setMat p m1).setMat p m2 = s.setMat p m2 := by
  simp [setMat, List.set_set]

theorem setMat_getMat (s : State α) (p : Nat) (hp : s.validMat p) :
    s.setMat p (s.getMat p) = s := by
  unfold validMat at hp
  cases s with
  | mk mats nodes arena =>
    simp only [setMat, getMat, State.mk.injEq, and_true]
    apply List.ext_getElem?
    intro k
    by_cases hk : p = k
    · subst hk
      rw [List.getElem?_set_self hp, List.getD_eq_getElem _ _ hp]
      exact (List.getElem?_eq_getElem hp).symm
    · rw [List.getElem?_set_ne hk]

theorem validMat_setMat (s : State α) (p q : Nat) (m : Matrix α) :
    (s.setMat p m).validMat q ↔ s.validMat q := by
  simp [validMat, setMat]

theorem nodes_setMat (s : State α) (p : Nat) (m : Matrix α) :
    (s.setMat p m).nodes = s.nodes := rfl

theorem all_nodes_setMat (s : State α) (p : Nat) (m : Matrix α) :
    (s.setMat p m).all_nodes = s.all_nodes := rfl

end State

namespace State

variable {α : Type} [Zero α]

theorem recorded_nodes_fresh (s : State α) (V : Matrix α) (deps : List Nat)
    (op : Option (BackwardOp α)) :
    (s.recorded V deps op).nodes[s.freshNode]? =
      some { rows := V.rows, cols := V.cols, values := s.freshValues,
             grads := s.freshGrads, backward_op := op, dependencies := deps } := by
  simp [recorded, freshNode]

theorem recorded_nodes_old (s : State α) (V : Matrix α) (deps : List Nat)
    (op : Option (BackwardOp α)) (p : Nat) (hp : p < s.nodes.length) :
    (s.recorded V deps op).nodes[p]? = s.nodes[p]? := by
  simp [recorded, List.getElem?_append_left hp]

theorem recorded_getMat_values (s : State α) (V : Matrix α) (deps : List Nat)
    (op : Option (BackwardOp α)) :
    (s.recorded V deps op).getMat s.freshValues = V := by
  unfold getMat recorded freshValues
  rw [List.getD_eq_getElem?_getD, List.getElem?_append_right (Nat.le_refl _)]
  simp

theorem recorded_getMat_grads (s : State α) (V : Matrix α) (deps : List Nat)
    (op : Option (BackwardOp α)) :
    (s.recorded V deps op).getMat s.freshGrads = Matrix.new V.rows V.cols := by
  unfold getMat recorded freshGrads
  rw [List.getD_eq_getElem?_getD, List.getElem?_append_right (Nat.le_succ _)]
  simp

theorem recorded_getMat_old (s : State α) (V : Matrix α) (deps : List Nat)
    (op : Option (BackwardOp α)) (p : Nat) (hp : s.validMat p) :
    (s.recorded V deps op).getMat p = s.getMat p := by
  unfold validMat at hp
  simp [recorded, getMat, List.getD_eq_getElem?_getD, List.getElem?_append_left hp]

end State

namespace Node

variable {α : Type}

theorem ofMatrix_eq [Zero α] (s : State α) (V : Matrix α) :
    ofMatrix s V =
      ({ mats := s.mats ++ [V, Matrix.new V.rows V.cols]
         nodes := s.nodes ++ [{ rows := V.rows, cols := V.cols, values := s.freshValues,
                                grads := s.freshGrads, backward_op := none,
                                dependencies := [] }]
         all_nodes := s.all_nodes }, s.freshNode) := by
  simp [ofMatrix, State.allocMat, State.allocNode, State.freshValues, State.freshGrads,
    State.freshNode, Matrix.numRows, Matrix.numCols]

theorem mul_eq [Zero α] [Add α] [Mul α] (s : State α) (a b : Nat) (A B : Node α)
    (ha : s.nodes[a]? = some A) (hb : s.nodes[b]? = some B) (hdim : A.cols = B.rows) :
    mul s a b = .ok (s.recorded ((s.getMat A.values).mul (s.getMat B.values)) [a, b]
      (some (.mul A.values A.grads B.values B.grads s.freshGrads)), s.freshNode) := by
  simp only [mul, ha, hb, hdim, ne_eq, not_true_eq_false, if_false, ofMatrix_eq]
  simp [State.modifyNode, push_node, State.recorded, State.freshNode, modify_append_last]

theorem add_eq [Zero α] [Add α] (s : State α) (a b : Nat) (A B : Node α)
    (ha : s.nodes[a]? = some A) (hb : s.nodes[b]? = some B) (hr : A.rows = B.rows)
    (hc : A.cols = B.cols) :
    add s a b = .ok (s.recorded ((s.getMat A.values).add (s.getMat B.values)) [a, b]
      (some (.add A.grads B.grads s.freshGrads)), s.freshNode) := by
  simp only [add, ha, hb, hr, hc, ne_eq, not_true_eq_false, or_self, if_false, ofMatrix_eq]
  simp [State.modifyNode, push_node, State.recorded, State.freshNode, modify_append_last]

theorem sub_eq [Zero α] [One α] [Neg α] [Add α] [Mul α] (s : State α) (a b : Nat)
    (A B : Node α) (ha : s.nodes[a]? = some A) (hb : s.nodes[b]? = some B)
    (hr : A.rows = B.rows) (hc : A.cols = B.cols) :
    sub s a b = .ok (s.recorded ((s.getMat A.values).sub (s.getMat B.values)) [a, b]
      (some (.sub A.grads B.grads s.freshGrads)), s.freshNode) := by
  simp only [sub, ha, hb, hr, hc, ne_eq, not_true_eq_false, or_self, if_false, ofMatrix_eq]
  simp [State.modifyNode, push_node, State.recorded, State.freshNode, modify_append_last]

theorem apply_eq_some [Zero α] (s : State α) (a : Nat) (A : Node α) (f fd : α → α)
    (ha : s.nodes[a]? = some A) :
    apply s a f (some fd) = .ok (s.recorded ((s.getMat A.values).apply f) [a]
      (some (.apply A.values A.grads s.freshGrads fd A.rows A.cols)), s.freshNode) := by
  simp only [apply, ha, ofMatrix_eq]
  simp [State.modifyNode, push_node, State.recorded, State.freshNode, modify_append_last]

theorem apply_eq_none [Zero α] (s : State α) (a : Nat) (A : Node α) (f : α → α)
    (ha : s.nodes[a]? = some A) :
    apply s a f none = .ok (s.recorded ((s.getMat A.values).apply f) [a] none,
      s.freshNode) := by
  simp only [apply, ha, ofMatrix_eq]
  simp [State.modifyNode, push_node, State.recorded, State.freshNode, modify_append_last]

theorem transpose_eq [Zero α] (s : State α) (a : Nat) (A : Node α)
    (ha : s.nodes[a]? = some A) :
    transpose s a = .ok (s.recorded (s.getMat A.values).transpose [a]
      (some (.transpose A.grads s.freshGrads)), s.freshNode) := by
  simp only [transpose, ha, ofMatrix_eq]
  simp [State.modifyNode, push_node, State.recorded, State.freshNode, modify_append_last]

end Node

end P1

namespace Matrix

variable {α : Type} [NonUnitalNonAssocSemiring α]

theorem add_Shaped (A B : Matrix α) (r c : Nat) (hA : A.rows = r ∧ A.cols = c) :
    (A.add B).Shaped r c := by
  have h := add_WF A B
  unfold WF at h
  rw [add_rows, add_cols] at h
  exact ⟨hA.1 ▸ add_rows A B, hA.2 ▸ add_cols A B, hA.1 ▸ hA.2 ▸ h⟩

theorem mul_Shaped (A B : Matrix α) (r c : Nat) (hA : A.rows = r) (hB : B.cols = c) :
    (A.mul B).Shaped r c := by
  have h := mul_WF A B
  unfold WF at h
  rw [mul_rows, mul_cols] at h
  exact ⟨hA ▸ mul_rows A B, hB ▸ mul_cols A B, hA ▸ hB ▸ h⟩

end Matrix

namespace P1

section Closures

variable {α : Type} [Ring α] [Div α]

theorem run_add (t : State α) (tg og rg : Nat) (h1 : t.validMat tg) (h2 : t.validMat og)
    (h3 : t.validMat rg) :
    (BackwardOp.add tg og rg).run t =
      some ((t.setMat tg ((t.getMat tg).add (t.getMat rg))).setMat og
        (((t.setMat tg ((t.getMat tg).add (t.getMat rg))).getMat og).add
          ((t.setMat tg ((t.getMat tg).add (t.getMat rg))).getMat rg))) := by
  simp [BackwardOp.run, h1, h2, h3]

/-- Claim C8. For nodes `A` and `B` of equal shape `r × c`, `A + B` succeeds and
returns a fresh node depending on `[A, B]` whose value is the entrywise sum; and
its backward closure, run in any state `t` in which the gradients of `A`, `B` and
of the result (`dC`) are `r × c`, adds `dC` to the gradient of `A` and to the
gradient of `B`: when the two gradients are the same matrix (`A` and `B` are the
same node) that matrix grows by `2 * dC`. -/
theorem add_value_and_backward (s : State α) (a b : Nat) (A B : Node α) (r c : Nat)
    (ha : s.nodes[a]? = some A) (hb : s.nodes[b]? = some B)
    (hA : A.rows = r ∧ A.cols = c) (hB : B.rows = r ∧ B.cols = c)
    (hVA : (s.getMat A.values).Shaped r c) (hVB : (s.getMat B.values).Shaped r c)
    (hga : s.validMat A.grads) (hgb : s.validMat B.grads)
    (t : State α)
    (hva : t.validMat A.grads) (hvb : t.validMat B.grads) (hvc : t.validMat s.freshGrads)
    (hta : (t.getMat A.grads).Shaped r c) (htb : (t.getMat B.grads).Shaped r c)
    (htc : (t.getMat s.freshGrads).Shaped r c) :
    ∃ s1 C op t',
      Node.add s a b = .ok (s1, s.freshNode) ∧ s1.nodes[s.freshNode]? = some C ∧
      C.rows = r ∧ C.cols = c ∧ C.dependencies = [a, b] ∧ C.grads = s.freshGrads ∧
      (s1.getMat C.values).Shaped r c ∧
      (∀ i j, i < r → j < c → (s1.getMat C.values).get i j =
        (s.getMat A.values).get i j + (s.getMat B.values).get i j) ∧
      C.backward_op = some op ∧ op.run t = some t' ∧
      (t'.getMat A.grads).Shaped r c ∧ (t'.getMat B.grads).Shaped r c ∧
      (∀ i j, i < r → j < c →
        (A.grads ≠ B.grads →
          (t'.getMat A.grads).get i j =
            (t.getMat A.grads).get i j + (t.getMat s.freshGrads).get i j ∧
          (t'.getMat B.grads).get i j =
            (t.getMat B.grads).get i j + (t.getMat s.freshGrads).get i j) ∧
        (A.grads = B.grads →
          (t'.getMat A.grads).get i j =
            (t.getMat A.grads).get i j + 2 * (t.getMat s.freshGrads).get i j)) := by
  have hac : A.grads ≠ s.freshGrads := by
    unfold State.validMat at hga; unfold State.freshGrads; omega
  have hbc : B.grads ≠ s.freshGrads := by
    unfold State.validMat at hgb; unfold State.freshGrads; omega
  refine ⟨_, _, _, _, Node.add_eq s a b A B ha hb (hA.1.trans hB.1.symm)
    (hA.2.trans hB.2.symm), State.recorded_nodes_fresh _ _ _ _, ?_, ?_, rfl, rfl, ?_, ?_,
    rfl, run_add t _ _ _ hva hvb hvc, ?_, ?_, ?_⟩
  · exact (Matrix.add_rows _ _).trans hVA.1
  · exact (Matrix.add_cols _ _).trans hVA.2.1
  · rw [State.recorded_getMat_values]
    exact Matrix.add_Shaped _ _ r c ⟨hVA.1, hVA.2.1⟩
  · intro i j hi hj
    rw [State.recorded_getMat_values]
    exact Matrix.add_get _ _ i j (hVA.1 ▸ hi) (hVA.2.1 ▸ hj)
  · by_cases hab : A.grads = B.grads
    · rw [hab, State.getMat_setMat_self _ _ _ ((State.validMat_setMat _ _ _ _).2 hvb)]
      exact Matrix.add_Shaped _ _ r c
        ⟨(State.getMat_setMat_self t _ _ hvb).symm ▸ (Matrix.add_rows _ _).trans htb.1,
         (State.getMat_setMat_self t _ _ hvb).symm ▸ (Matrix.add_cols _ _).trans htb.2.1⟩
    · rw [State.getMat_setMat_ne _ _ _ _ (Ne.symm hab), State.getMat_setMat_self _ _ _ hva]
      exact Matrix.add_Shaped _ _ r c ⟨hta.1, hta.2.1⟩
  · rw [State.getMat_setMat_self _ _ _ ((State.validMat_setMat _ _ _ _).2 hvb)]
    apply Matrix.add_Shaped _ _ r c
    by_cases hab : A.grads = B.grads
    · rw [hab, State.getMat_setMat_self t _ _ hvb]
      exact ⟨(Matrix.add_rows _ _).trans htb.1, (Matrix.add_cols _ _).trans htb.2.1⟩
    · rw [State.getMat_setMat_ne _ _ _ _ hab]
      exact ⟨htb.1, htb.2.1⟩
  · intro i j hi hj
    constructor
    · intro hab
      constructor
      · rw [State.getMat_setMat_ne _ _ _ _ (Ne.symm hab),
          State.getMat_setMat_self _ _ _ hva]
        exact Matrix.add_get _ _ i j (hta.1.symm ▸ hi) (hta.2.1.symm ▸ hj)
      · rw [State.getMat_setMat_self _ _ _ ((State.validMat_setMat _ _ _ _).2 hvb),
          State.getMat_setMat_ne _ _ _ _ hab, State.getMat_setMat_ne _ _ _ _ hac]
        exact Matrix.add_get _ _ i j (htb.1.symm ▸ hi) (htb.2.1.symm ▸ hj)
    · intro hab
      rw [hab] at hac
      rw [hab, State.getMat_setMat_self _ _ _ ((State.validMat_setMat _ _ _ _).2 hvb),
        State.getMat_setMat_self _ _ _ hvb, State.getMat_setMat_ne _ _ _ _ hbc]
      rw [Matrix.add_get _ _ i j (by rw [Matrix.add_rows, htb.1]; exact hi)
        (by rw [Matrix.add_cols, htb.2.1]; exact hj),
        Matrix.add_get _ _ i j (htb.1.symm ▸ hi) (htb.2.1.symm ▸ hj)]
      rw [two_mul, add_assoc]

theorem run_mul (t : State α) (tv tg ov og rg : Nat) (h1 : t.validMat tv)
    (h2 : t.validMat tg) (h3 : t.validMat ov) (h4 : t.validMat og) (h5 : t.validMat rg) :
    (BackwardOp.mul tv tg ov og rg).run t =
      some ((t.setMat tg ((t.getMat tg).add
          ((t.getMat rg).mul (t.getMat ov).transpose))).setMat og
        (((t.setMat tg ((t.getMat tg).add
            ((t.getMat rg).mul (t.getMat ov).transpose))).getMat og).add
          (((t.setMat tg ((t.getMat tg).add
              ((t.getMat rg).mul (t.getMat ov).transpose))).getMat tv).transpose.mul
            ((t.setMat tg ((t.getMat tg).add
              ((t.getMat rg).mul (t.getMat ov).transpose))).getMat rg)))) := by
  simp [BackwardOp.run, h1, h2, h3, h4, h5]

/-- Entry of `G + D * Vᵗ` as computed by `Matrix::operator+`, `operator*` and
`transpose`, for `G` of shape `m × k`, `D` of shape `m × n`, `V` of shape `k × n`. -/
theorem add_mul_transpose_get (G D V : Matrix α) (m k n : Nat)
    (hG : G.rows = m ∧ G.cols = k) (hD : D.rows = m ∧ D.cols = n)
    (hV : V.rows = k ∧ V.cols = n) (i j : Nat) (hi : i < m) (hj : j < k) :
    (G.add (D.mul V.transpose)).get i j =
      G.get i j + ∑ l ∈ Finset.range n, D.get i l * V.get j l := by
  rw [Matrix.add_get _ _ i j (hG.1.symm ▸ hi) (hG.2.symm ▸ hj),
    Matrix.mul_get _ _ (by rw [Matrix.transpose_rows, hD.2, hV.2]) i j (hD.1.symm ▸ hi)
      (by rw [Matrix.transpose_cols, hV.1]; exact hj), hD.2]
  congr 1
  apply Finset.sum_congr rfl
  intro l hl
  rw [Finset.mem_range] at hl
  rw [Matrix.transpose_get V j l (hV.1.symm ▸ hj) (hV.2.symm ▸ hl)]

/-- Entry of `G + Vᵗ * D` as computed by the same operators, for `G` of shape
`k × n`, `V` of shape `m × k`, `D` of shape `m × n`. -/
theorem add_transpose_mul_get (G V D : Matrix α) (m k n : Nat)
    (hG : G.rows = k ∧ G.cols = n) (hV : V.rows = m ∧ V.cols = k)
    (hD : D.rows = m ∧ D.cols = n) (i j : Nat) (hi : i < k) (hj : j < n) :
    (G.add (V.transpose.mul D)).get i j =
      G.get i j + ∑ l ∈ Finset.range m, V.get l i * D.get l j := by
  rw [Matrix.add_get _ _ i j (hG.1.symm ▸ hi) (hG.2.symm ▸ hj),
    Matrix.mul_get _ _ (by rw [Matrix.transpose_cols, hV.1, hD.1]) i j
      (by rw [Matrix.transpose_rows, hV.2]; exact hi) (hD.2.symm ▸ hj),
    Matrix.transpose_cols, hV.1]
  congr 1
  apply Finset.sum_congr rfl
  intro l hl
  rw [Finset.mem_range] at hl
  rw [Matrix.transpose_get V l i (hV.1.symm ▸ hl) (hV.2.symm ▸ hi)]

/-- Claim C3. For nodes `A` (`m × k`) and `B` (`k × n`), `A * B` succeeds and returns
a fresh node depending on `[A, B]` whose value is the `m × n` matrix with entries
`Σ_l A[i,l] * B[l,j]`; and its backward closure, run in any state `t` in which the
operands keep their shapes and the gradient `dC` of the result is `m × n`, replaces
`A.grad` by `A.grad + dC * Bᵗ` and `B.grad` by `B.grad + Aᵗ * dC`, entry by entry.
When the two gradients are the same matrix (`A` and `B` are the same node) that
matrix receives both contributions. -/
theorem mul_value_and_backward (s : State α) (a b : Nat) (A B : Node α) (m k n : Nat)
    (ha : s.nodes[a]? = some A) (hb : s.nodes[b]? = some B)
    (hA : A.rows = m ∧ A.cols = k) (hB : B.rows = k ∧ B.cols = n)
    (hVA : (s.getMat A.values).Shaped m k) (hVB : (s.getMat B.values).Shaped k n)
    (hga : s.validMat A.grads) (hgb : s.validMat B.grads) (hne : A.values ≠ A.grads)
    (t : State α)
    (hv1 : t.validMat A.values) (hv2 : t.validMat A.grads) (hv3 : t.validMat B.values)
    (hv4 : t.validMat B.grads) (hv5 : t.validMat s.freshGrads)
    (htA : (t.getMat A.values).Shaped m k) (htB : (t.getMat B.values).Shaped k n)
    (hta : (t.getMat A.grads).Shaped m k) (htb : (t.getMat B.grads).Shaped k n)
    (htc : (t.getMat s.freshGrads).Shaped m n) :
    ∃ s1 C op t',
      Node.mul s a b = .ok (s1, s.freshNode) ∧ s1.nodes[s.freshNode]? = some C ∧
      C.rows = m ∧ C.cols = n ∧ C.dependencies = [a, b] ∧ C.grads = s.freshGrads ∧
      (s1.getMat C.values).Shaped m n ∧
      (∀ i j, i < m → j < n → (s1.getMat C.values).get i j =
        ∑ l ∈ Finset.range k, (s.getMat A.values).get i l * (s.getMat B.values).get l j) ∧
      C.backward_op = some op ∧ op.run t = some t' ∧
      (A.grads ≠ B.grads →
        (∀ i j, i < m → j < k → (t'.getMat A.grads).get i j =
          (t.getMat A.grads).get i j +
            ∑ l ∈ Finset.range n,
              (t.getMat s.freshGrads).get i l * (t.getMat B.values).get j l) ∧
        (∀ i j, i < k → j < n → (t'.getMat B.grads).get i j =
          (t.getMat B.grads).get i j +
            ∑ l ∈ Finset.range m,
              (t.getMat A.values).get l i * (t.getMat s.freshGrads).get l j)) ∧
      (A.grads = B.grads →
        ∀ i j, i < m → j < k → (t'.getMat A.grads).get i j =
          (t.getMat A.grads).get i j +
            ∑ l ∈ Finset.range n,
              (t.getMat s.freshGrads).get i l * (t.getMat B.values).get j l +
            ∑ l ∈ Finset.range m,
              (t.getMat A.values).get l i * (t.getMat s.freshGrads).get l j) := by
  have hac : A.grads ≠ s.freshGrads := by
    unfold State.validMat at hga; unfold State.freshGrads; omega
  have hbc : B.grads ≠ s.freshGrads := by
    unfold State.validMat at hgb; unfold State.freshGrads; omega
  refine ⟨_, _, _, _, Node.mul_eq s a b A B ha hb (hA.2.trans hB.1.symm),
    State.recorded_nodes_fresh _ _ _ _, ?_, ?_, rfl, rfl, ?_, ?_,
    rfl, run_mul t _ _ _ _ _ hv1 hv2 hv3 hv4 hv5, ?_, ?_⟩
  · exact (Matrix.mul_rows _ _).trans hVA.1
  · exact (Matrix.mul_cols _ _).trans hVB.2.1
  · rw [State.recorded_getMat_values]
    exact Matrix.mul_Shaped _ _ m n hVA.1 hVB.2.1
  · intro i j hi hj
    rw [State.recorded_getMat_values,
      Matrix.mul_get _ _ (hVA.2.1.trans hVB.1.symm) i j (hVA.1.symm ▸ hi)
        (hVB.2.1.symm ▸ hj), hVA.2.1]
  · intro hab
    constructor
    · intro i j hi hj
      rw [State.getMat_setMat_ne _ _ _ _ (Ne.symm hab), State.getMat_setMat_self _ _ _ hv2]
      exact add_mul_transpose_get _ _ _ m k n ⟨hta.1, hta.2.1⟩ ⟨htc.1, htc.2.1⟩
        ⟨htB.1, htB.2.1⟩ i j hi hj
    · intro i j hi hj
      rw [State.getMat_setMat_self _ _ _ ((State.validMat_setMat _ _ _ _).2 hv4),
        State.getMat_setMat_ne _ _ _ _ hab, State.getMat_setMat_ne _ _ _ _ hac,
        State.getMat_setMat_ne _ _ _ _ (Ne.symm hne)]
      exact add_transpose_mul_get _ _ _ m k n ⟨htb.1, htb.2.1⟩ ⟨htA.1, htA.2.1⟩
        ⟨htc.1, htc.2.1⟩ i j hi hj
  · intro hab i j hi hj
    have hmk : m = k := by rw [← hta.1, ← htb.1, hab]
    have hkn : k = n := by rw [← hta.2.1, ← htb.2.1, hab]
    rw [State.getMat_setMat_ne _ _ _ _ (Ne.symm hne),
      State.getMat_setMat_ne _ _ _ _ hac]
    rw [hab, State.getMat_setMat_self _ _ _ ((State.validMat_setMat _ _ _ _).2 hv4),
      State.getMat_setMat_self _ _ _ hv4]
    rw [add_transpose_mul_get _ _ _ m k n
        ⟨(Matrix.add_rows _ _).trans htb.1, (Matrix.add_cols _ _).trans htb.2.1⟩
        ⟨htA.1, htA.2.1⟩ ⟨htc.1, htc.2.1⟩ i j (hmk ▸ hi) (hkn ▸ hj)]
    rw [add_mul_transpose_get _ _ _ m k n ⟨hab ▸ hta.1, hab ▸ hta.2.1⟩ ⟨htc.1, htc.2.1⟩
        ⟨htB.1, htB.2.1⟩ i j hi hj]

/-- A nested loop that rewrites one heap matrix in place, entry by entry, from
values that depend on the heap only through the entry being rewritten, is the
nested loop on that matrix. -/
theorem inplace_loop (t : State α) (g : Nat) (hg : t.validMat g) (r c : Nat)
    (val : Nat → Nat → State α → α) (h : Nat → Nat → α → α)
    (hval : ∀ i j G, val i j (t.setMat g G) = h i j (G.get i j)) :
    forLoop r (fun i s => forLoop c (fun j s =>
        s.setMat g ((s.getMat g).set i j (val i j s))) s) t =
      t.setMat g (Matrix.updLoop r c (fun i _ => i) (fun _ j => j) h (t.getMat g)) := by
  have hinner : ∀ i G, forLoop c (fun j s =>
        s.setMat g ((s.getMat g).set i j (val i j s))) (t.setMat g G) =
      t.setMat g (forLoop c (fun j G => G.set i j (h i j (G.get i j))) G) := by
    intro i G
    apply forLoop_embed (fun G => t.setMat g G)
    intro j G
    rw [State.getMat_setMat_self _ _ _ hg, State.setMat_setMat, hval]
  have houter := forLoop_embed (fun G => t.setMat g G) r
    (fun i G => forLoop c (fun j G => G.set i j (h i j (G.get i j))) G)
    (fun i s => forLoop c (fun j s => s.setMat g ((s.getMat g).set i j (val i j s))) s)
    hinner (t.getMat g)
  rw [State.setMat_getMat _ _ hg] at houter
  exact houter

theorem run_apply (t : State α) (tv tg rg : Nat) (fd : α → α) (r c : Nat)
    (h1 : t.validMat tv) (h2 : t.validMat tg) (h3 : t.validMat rg) (hgv : tg ≠ tv)
    (hgr : tg ≠ rg) :
    (BackwardOp.apply tv tg rg fd r c).run t =
      some (t.setMat tg (Matrix.updLoop r c (fun i _ => i) (fun _ j => j)
        (fun i j x => x + (t.getMat rg).get i j * fd ((t.getMat tv).get i j))
        (t.getMat tg))) := by
  simp only [BackwardOp.run, h1, h2, h3, and_self, if_true]
  rw [inplace_loop t tg h2 r c
    (fun i j s => (s.getMat tg).get i j + (s.getMat rg).get i j * fd ((s.getMat tv).get i j))
    (fun i j x => x + (t.getMat rg).get i j * fd ((t.getMat tv).get i j))]
  intro i j G
  simp only [State.getMat_setMat_self _ _ _ h2, State.getMat_setMat_ne _ _ _ _ hgv,
    State.getMat_setMat_ne _ _ _ _ hgr]

theorem run_bce (t : State α) (p q : Nat) (P T : Node α) (hp : t.nodes[p]? = some P)
    (hq : t.nodes[q]? = some T) (h1 : t.validMat P.values) (h2 : t.validMat T.values)
    (h3 : t.validMat P.grads) (hgv : P.grads ≠ P.values) (hgt : P.grads ≠ T.values) :
    (BackwardOp.bce p q).run t =
      some (t.setMat P.grads (Matrix.updLoop P.rows P.cols (fun i _ => i) (fun _ j => j)
        (fun i j x => x +
          ((-(t.getMat T.values).get i j) / ((t.getMat P.values).get i j + eps) +
            (1 - (t.getMat T.values).get i j) / (1 - (t.getMat P.values).get i j + eps)) /
            ((P.rows * P.cols : Nat) : α))
        (t.getMat P.grads))) := by
  simp only [BackwardOp.run, hp, hq, h1, h2, h3, and_self, if_true]
  rw [inplace_loop t P.grads h3 P.rows P.cols
    (fun i j s => (s.getMat P.grads).get i j +
      ((-(s.getMat T.values).get i j) / ((s.getMat P.values).get i j + eps) +
        (1 - (s.getMat T.values).get i j) / (1 - (s.getMat P.values).get i j + eps)) /
        ((P.rows * P.cols : Nat) : α))
    (fun i j x => x +
      ((-(t.getMat T.values).get i j) / ((t.getMat P.values).get i j + eps) +
        (1 - (t.getMat T.values).get i j) / (1 - (t.getMat P.values).get i j + eps)) /
        ((P.rows * P.cols : Nat) : α))]
  intro i j G
  simp only [State.getMat_setMat_self _ _ _ h3, State.getMat_setMat_ne _ _ _ _ hgv,
    State.getMat_setMat_ne _ _ _ _ hgt]

theorem new_eq (s : State α) (m n : Nat) :
    Node.new s m n =
      ({ mats := s.mats ++ [Matrix.new m n, Matrix.new m n]
         nodes := s.nodes ++ [{ rows := m, cols := n, values := s.freshValues,
                                grads := s.freshGrads, backward_op := none,
                                dependencies := [] }]
         all_nodes := s.all_nodes }, s.freshNode) := by
  simp [Node.new, State.allocMat, State.allocNode, State.freshValues, State.freshGrads,
    State.freshNode]

theorem binary_cross_entropy_eq (log : α → α) (s : State α) (p q : Nat) (P T : Node α)
    (hp : s.nodes[p]? = some P) (hq : s.nodes[q]? = some T) (hr : P.rows = T.rows)
    (hc : P.cols = T.cols) :
    binary_cross_entropy log s p q =
      .ok (s.recorded ((Matrix.new 1 1).set 0 0
        (bceTotalLoss log (s.recorded (Matrix.new 1 1) [p] none) P T /
          ((P.rows * P.cols : Nat) : α))) [p] (some (.bce p q)), s.freshNode) := by
  have hcond : ¬ (P.rows ≠ T.rows ∨ P.cols ≠ T.cols) := by simp [hr, hc]
  have h3 : (push_node
      ({ mats := s.mats ++ [Matrix.new 1 1, Matrix.new 1 1]
         nodes := s.nodes ++ [{ rows := 1, cols := 1, values := s.freshValues,
                                grads := s.freshGrads, backward_op := none,
                                dependencies := [] }]
         all_nodes := s.all_nodes } : State α) s.freshNode).modifyNode s.freshNode
        (fun r => { r with dependencies := r.dependencies ++ [p] }) =
      s.recorded (Matrix.new 1 1) [p] none := by
    simp [State.modifyNode, push_node, State.recorded, State.freshNode,
      modify_append_last, Matrix.new]
  simp only [binary_cross_entropy, hp, hq, if_neg hcond, new_eq, h3]
  have h4 : ((s.recorded (Matrix.new 1 1 : Matrix α) [p] none).getNode s.freshNode).values =
      s.freshValues := by
    simp [State.getNode, State.recorded, State.freshNode, List.getD_eq_getElem?_getD]
  rw [h4, State.recorded_getMat_values]
  simp [State.modifyNode, State.recorded, State.freshNode, State.freshValues,
    State.setMat, modify_append_last, Matrix.set, Matrix.new]

/-- Claim C11. For two nodes `A` and `B`, `A * B` raises `invalid_argument` exactly
when `A.cols ≠ B.rows`. When it raises, the call produces no node and the state
after the call is the state before it: the arena, every matrix (the values and
gradients of `A` and `B` among them) and every node are unchanged. When it does
not raise it returns a new node, which is the one entry added to the arena. -/
theorem mul_raises_iff (s : State α) (a b : Nat) (A B : Node α)
    (ha : s.nodes[a]? = some A) (hb : s.nodes[b]? = some B) :
    (Node.mul s a b = .error .invalid_argument ↔ A.cols ≠ B.rows) ∧
    (A.cols ≠ B.rows →
      stateAfter s (Node.mul s a b) = s ∧
      (stateAfter s (Node.mul s a b)).all_nodes = s.all_nodes ∧
      (stateAfter s (Node.mul s a b)).getMat A.values = s.getMat A.values ∧
      (stateAfter s (Node.mul s a b)).getMat A.grads = s.getMat A.grads ∧
      (stateAfter s (Node.mul s a b)).getMat B.values = s.getMat B.values ∧
      (stateAfter s (Node.mul s a b)).getMat B.grads = s.getMat B.grads) ∧
    (A.cols = B.rows →
      ∃ s1, Node.mul s a b = .ok (s1, s.freshNode) ∧
        s1.all_nodes = s.all_nodes ++ [s.freshNode]) := by
  have herr : A.cols ≠ B.rows → Node.mul s a b = .error .invalid_argument := by
    intro h
    simp only [Node.mul, ha, hb, h, ne_eq, not_false_eq_true, if_true]
  refine ⟨⟨?_, herr⟩, ?_, ?_⟩
  · intro h hdim
    rw [Node.mul_eq s a b A B ha hb hdim] at h
    cases h
  · intro h
    rw [herr h]
    exact ⟨rfl, rfl, rfl, rfl, rfl, rfl⟩
  · intro hdim
    exact ⟨_, Node.mul_eq s a b A B ha hb hdim, rfl⟩

/-- Claim C7. For a node `A` of shape `r × c`, `A.apply(f, f')` succeeds and returns a
fresh node depending on `[A]` whose value has the entries `f (A[i,j])`; and its
backward closure, run in any state `t` in which `A`, its gradient and the gradient
`dC` of the result are `r × c`, sets `A.grad[i,j]` to
`A.grad[i,j] + dC[i,j] * f' (A[i,j])`: the derivative is taken at the entry of the
input `A`. -/
theorem apply_value_and_backward (s : State α) (a : Nat) (A : Node α) (f fd : α → α)
    (r c : Nat) (ha : s.nodes[a]? = some A) (hA : A.rows = r ∧ A.cols = c)
    (hVA : (s.getMat A.values).Shaped r c) (hga : s.validMat A.grads)
    (hne : A.grads ≠ A.values) (t : State α)
    (hv1 : t.validMat A.values) (hv2 : t.validMat A.grads) (hv3 : t.validMat s.freshGrads)
    (htA : (t.getMat A.values).Shaped r c) (hta : (t.getMat A.grads).Shaped r c)
    (htc : (t.getMat s.freshGrads).Shaped r c) :
    ∃ s1 C op t',
      Node.apply s a f (some fd) = .ok (s1, s.freshNode) ∧
      s1.nodes[s.freshNode]? = some C ∧
      C.rows = r ∧ C.cols = c ∧ C.dependencies = [a] ∧ C.grads = s.freshGrads ∧
      (s1.getMat C.values).Shaped r c ∧
      (∀ i j, i < r → j < c →
        (s1.getMat C.values).get i j = f ((s.getMat A.values).get i j)) ∧
      C.backward_op = some op ∧ op.run t = some t' ∧
      (t'.getMat A.grads).Shaped r c ∧
      (∀ i j, i < r → j < c → (t'.getMat A.grads).get i j =
        (t.getMat A.grads).get i j +
          (t.getMat s.freshGrads).get i j * fd ((t.getMat A.values).get i j)) := by
  have hac : A.grads ≠ s.freshGrads := by
    unfold State.validMat at hga; unfold State.freshGrads; omega
  have hrows : A.rows = (t.getMat A.grads).rows := hA.1.trans hta.1.symm
  have hcols : A.cols = (t.getMat A.grads).cols := hA.2.trans hta.2.1.symm
  have hwf : (t.getMat A.grads).WF := by
    unfold Matrix.WF; rw [hta.2.2, hta.1, hta.2.1]
  refine ⟨_, _, _, _, Node.apply_eq_some s a A f fd ha,
    State.recorded_nodes_fresh _ _ _ _, ?_, ?_, rfl, rfl, ?_, ?_,
    rfl, run_apply t _ _ _ fd _ _ hv1 hv2 hv3 hne hac, ?_, ?_⟩
  · exact (Matrix.apply_rows _ _).trans hVA.1
  · exact (Matrix.apply_cols _ _).trans hVA.2.1
  · rw [State.recorded_getMat_values]
    have h := Matrix.apply_WF (s.getMat A.values) f
    unfold Matrix.WF at h
    rw [Matrix.apply_rows, Matrix.apply_cols, hVA.1, hVA.2.1] at h
    exact ⟨(Matrix.apply_rows _ _).trans hVA.1, (Matrix.apply_cols _ _).trans hVA.2.1, h⟩
  · intro i j hi hj
    rw [State.recorded_getMat_values]
    exact Matrix.apply_get _ f i j (hVA.1.symm ▸ hi) (hVA.2.1.symm ▸ hj)
  · rw [State.getMat_setMat_self _ _ _ hv2]
    exact ⟨(Matrix.updLoop_rows _ _ _ _ _ _).trans hta.1,
      (Matrix.updLoop_cols _ _ _ _ _ _).trans hta.2.1,
      (Matrix.updLoop_length _ _ _ _ _ _).trans hta.2.2⟩
  · intro i j hi hj
    rw [State.getMat_setMat_self _ _ _ hv2, hrows, hcols]
    exact Matrix.updLoop_get_self _ _ hwf i j (hta.1.symm ▸ hi) (hta.2.1.symm ▸ hj)

/-- Claim C5. For predictions `P` and targets `T` of equal shape `r × c`,
`binary_cross_entropy(P, T)` succeeds and returns a fresh node whose only
dependency is `P`; and its backward closure, run in any state `t` in which `P`, `T`
and the gradient of `P` are `r × c`, adds
`(-T[i,j] / (P[i,j] + ε) + (1 - T[i,j]) / (1 - P[i,j] + ε)) / N` to every entry of
`P.grad`, with `ε = 1 / 10 ^ 12` and `N = r * c`, and changes no other matrix and no
node: in particular the gradient of `T` is unchanged. -/
theorem bce_closure_adds_mean_gradient (log : α → α) (s : State α) (p q : Nat)
    (P T : Node α) (r c : Nat)
    (hp : s.nodes[p]? = some P) (hq : s.nodes[q]? = some T)
    (hP : P.rows = r ∧ P.cols = c) (hT : T.rows = r ∧ T.cols = c)
    (hgv : P.grads ≠ P.values) (hgt : P.grads ≠ T.values) (hgg : T.grads ≠ P.grads)
    (t : State α) (htp : t.nodes[p]? = some P) (htq : t.nodes[q]? = some T)
    (hv1 : t.validMat P.values) (hv2 : t.validMat T.values) (hv3 : t.validMat P.grads)
    (htP : (t.getMat P.values).Shaped r c) (htT : (t.getMat T.values).Shaped r c)
    (htg : (t.getMat P.grads).Shaped r c) :
    ∃ s1 L op t',
      binary_cross_entropy log s p q = .ok (s1, s.freshNode) ∧
      s1.nodes[s.freshNode]? = some L ∧ L.dependencies = [p] ∧
      L.backward_op = some op ∧ op.run t = some t' ∧
      (t'.getMat P.grads).Shaped r c ∧
      (∀ i j, i < r → j < c → (t'.getMat P.grads).get i j =
        (t.getMat P.grads).get i j +
          ((-(t.getMat T.values).get i j) / ((t.getMat P.values).get i j + 1 / 10 ^ 12) +
            (1 - (t.getMat T.values).get i j) /
              (1 - (t.getMat P.values).get i j + 1 / 10 ^ 12)) / ((r * c : Nat) : α)) ∧
      t'.getMat T.grads = t.getMat T.grads ∧
      (∀ g, g ≠ P.grads → t'.getMat g = t.getMat g) ∧ t'.nodes = t.nodes := by
  have hrows : P.rows = (t.getMat P.grads).rows := hP.1.trans htg.1.symm
  have hcols : P.cols = (t.getMat P.grads).cols := hP.2.trans htg.2.1.symm
  have hwf : (t.getMat P.grads).WF := by
    unfold Matrix.WF; rw [htg.2.2, htg.1, htg.2.1]
  refine ⟨_, _, _, _, binary_cross_entropy_eq log s p q P T hp hq (hP.1.trans hT.1.symm)
    (hP.2.trans hT.2.symm), State.recorded_nodes_fresh _ _ _ _, rfl, rfl,
    run_bce t p q P T htp htq hv1 hv2 hv3 hgv hgt, ?_, ?_, ?_, ?_, rfl⟩
  · rw [State.getMat_setMat_self _ _ _ hv3]
    exact ⟨(Matrix.updLoop_rows _ _ _ _ _ _).trans htg.1,
      (Matrix.updLoop_cols _ _ _ _ _ _).trans htg.2.1,
      (Matrix.updLoop_length _ _ _ _ _ _).trans htg.2.2⟩
  · intro i j hi hj
    rw [State.getMat_setMat_self _ _ _ hv3]
    have h := Matrix.updLoop_get_self (fun i j x => x +
      ((-(t.getMat T.values).get i j) / ((t.getMat P.values).get i j + eps) +
        (1 - (t.getMat T.values).get i j) / (1 - (t.getMat P.values).get i j + eps)) /
        ((P.rows * P.cols : Nat) : α)) _ hwf i j (htg.1.symm ▸ hi) (htg.2.1.symm ▸ hj)
    rw [← hrows, ← hcols] at h
    rw [h, hP.1, hP.2]
    rfl
  · exact State.getMat_setMat_ne _ _ _ _ (Ne.symm hgg)
  · intro g hg
    exact State.getMat_setMat_ne _ _ _ _ (Ne.symm hg)

end Closures

/-! ## The traversal of `Node::backward` -/

section Traversal

variable {α : Type} [Ring α] [Div α]

theorem forLoop_invariant {σ : Type} (P : σ → Prop) (n : Nat) (body : Nat → σ → σ)
    (h : ∀ i x, P x → P (body i x)) (x : σ) (hx : P x) : P (forLoop n body x) := by
  induction n with
  | zero => exact hx
  | succ n ih => rw [forLoop_succ]; exact h n _ ih

theorem State.Sim.refl (s : State α) : s.Sim s := ⟨rfl, rfl⟩

theorem State.Sim.trans {s t u : State α} (h1 : s.Sim t) (h2 : t.Sim u) : s.Sim u :=
  ⟨h2.1.trans h1.1, h2.2.trans h1.2⟩

theorem State.Sim.setMat (s t : State α) (p : Nat) (m : Matrix α) (h : s.Sim t) :
    s.Sim (t.setMat p m) :=
  ⟨h.1, by rw [State.setMat]; simp only [List.length_set]; exact h.2⟩

/-- A closure changes no node and keeps the number of matrices. -/
theorem run_sim (op : BackwardOp α) (s t : State α) (h : op.run s = some t) : s.Sim t := by
  cases op with
  | mul tv tg ov og rg =>
    simp only [BackwardOp.run] at h
    split at h
    · cases h
      exact State.Sim.setMat _ _ _ _ (State.Sim.setMat _ _ _ _ (State.Sim.refl s))
    · cases h
  | add tg og rg =>
    simp only [BackwardOp.run] at h
    split at h
    · cases h
      exact State.Sim.setMat _ _ _ _ (State.Sim.setMat _ _ _ _ (State.Sim.refl s))
    · cases h
  | sub tg og rg =>
    simp only [BackwardOp.run] at h
    split at h
    · cases h
      exact State.Sim.setMat _ _ _ _ (State.Sim.setMat _ _ _ _ (State.Sim.refl s))
    · cases h
  | apply tv tg rg fd r c =>
    simp only [BackwardOp.run] at h
    split at h
    · cases h
      apply forLoop_invariant (fun x => s.Sim x) _ _ _ _ (State.Sim.refl s)
      intro i x hx
      apply forLoop_invariant (fun x => s.Sim x) _ _ _ _ hx
      intro j y hy
      exact State.Sim.setMat _ _ _ _ hy
    · cases h
  | transpose tg rg =>
    simp only [BackwardOp.run] at h
    split at h
    · cases h
      exact State.Sim.setMat _ _ _ _ (State.Sim.refl s)
    · cases h
  | bce p q =>
    simp only [BackwardOp.run] at h
    split at h
    · split at h
      · cases h
        apply forLoop_invariant (fun x => s.Sim x) _ _ _ _ (State.Sim.refl s)
        intro i x hx
        apply forLoop_invariant (fun x => s.Sim x) _ _ _ _ hx
        intro j y hy
        exact State.Sim.setMat _ _ _ _ hy
      · cases h
    · cases h

/-- Whether a closure runs depends on the nodes and on the number of matrices. -/
theorem run_isSome_of_sim (op : BackwardOp α) (s t : State α) (h : s.Sim t)
    (hs : (op.run s).isSome = true) : (op.run t).isSome = true := by
  cases op with
  | mul tv tg ov og rg =>
    simp only [BackwardOp.run, State.validMat, h.2] at hs ⊢
    split at hs
    · next hc => rw [if_pos hc]; rfl
    · cases hs
  | add tg og rg =>
    simp only [BackwardOp.run, State.validMat, h.2] at hs ⊢
    split at hs
    · next hc => rw [if_pos hc]; rfl
    · cases hs
  | sub tg og rg =>
    simp only [BackwardOp.run, State.validMat, h.2] at hs ⊢
    split at hs
    · next hc => rw [if_pos hc]; rfl
    · cases hs
  | apply tv tg rg fd r c =>
    simp only [BackwardOp.run, State.validMat, h.2] at hs ⊢
    split at hs
    · next hc => rw [if_pos hc]; rfl
    · cases hs
  | transpose tg rg =>
    simp only [BackwardOp.run, State.validMat, h.2] at hs ⊢
    split at hs
    · next hc => rw [if_pos hc]; rfl
    · cases hs
  | bce p q =>
    simp only [BackwardOp.run, State.validMat, h.1, h.2] at hs ⊢
    split at hs
    · split at hs
      · next hc => rw [if_pos hc]; rfl
      · cases hs
    · cases hs

theorem State.getNode_eq (s : State α) (r : Nat) (N : Node α) (h : s.nodes[r]? = some N) :
    s.getNode r = N := by
  simp [State.getNode, List.getD_eq_getElem?_getD, h]

theorem State.GraphWF.of_sim {s t : State α} (h : s.Sim t) (hs : s.GraphWF) : t.GraphWF := by
  intro n hn
  have hn' : n < s.nodes.length := h.1 ▸ hn
  have hg : t.getNode n = s.getNode n := by simp [State.getNode, h.1]
  rw [hg]
  refine ⟨(hs n hn').1, ?_⟩
  have h2 := (hs n hn').2
  cases hop : (s.getNode n).backward_op with
  | none => rfl
  | some op =>
    rw [hop] at h2
    exact run_isSome_of_sim op s t h h2

theorem State.trace_of_sim {s t : State α} (h : s.Sim t) (fuel r : Nat) :
    t.trace fuel r = s.trace fuel r := by
  induction fuel generalizing r with
  | zero => rfl
  | succ fuel ih =>
    simp only [State.trace, h.1]
    cases s.nodes[r]? with
    | none => rfl
    | some N =>
      simp only
      congr 1
      apply List.flatMap_congr
      intro d _
      exact ih d

theorem State.GraphWF.deps_lt {s : State α} (hs : s.GraphWF) {r : Nat} {N : Node α}
    (h : s.nodes[r]? = some N) : ∀ d ∈ N.dependencies, d < r := by
  have hr : r < s.nodes.length := by
    rcases List.getElem?_eq_some_iff.1 h with ⟨hlt, _⟩
    exact hlt
  have := (hs r hr).1
  rwa [State.getNode_eq s r N h] at this

theorem State.GraphWF.run_isSome {s : State α} (hs : s.GraphWF) {r : Nat} {N : Node α}
    (h : s.nodes[r]? = some N) {op : BackwardOp α} (hop : N.backward_op = some op) :
    (op.run s).isSome = true := by
  have hr : r < s.nodes.length := by
    rcases List.getElem?_eq_some_iff.1 h with ⟨hlt, _⟩
    exact hlt
  have := (hs r hr).2
  rw [State.getNode_eq s r N h, hop] at this
  exact this

/-- The calls of `backward` on a list of dependencies, given what one call does. -/
theorem foldlM_backward (fuel : Nat)
    (ih : ∀ (r : Nat) (s : State α) (log : List Nat), s.GraphWF → r < s.nodes.length →
      r < fuel → ∃ t, Node.backward fuel r (s, log) = some (t, log ++ s.trace fuel r) ∧
        s.Sim t)
    (ds : List Nat) (s : State α) (log : List Nat) (hs : s.GraphWF)
    (hds : ∀ d ∈ ds, d < s.nodes.length ∧ d < fuel) :
    ∃ t, ds.foldlM (fun acc dep => Node.backward fuel dep acc) (s, log) =
        some (t, log ++ ds.flatMap (s.trace fuel)) ∧ s.Sim t := by
  induction ds generalizing s log with
  | nil => exact ⟨s, by simp, State.Sim.refl s⟩
  | cons d ds ihds =>
    obtain ⟨t1, h1, hsim1⟩ := ih d s log hs (hds d (List.mem_cons_self _ _)).1
      (hds d (List.mem_cons_self _ _)).2
    obtain ⟨t2, h2, hsim2⟩ := ihds t1 (log ++ s.trace fuel d) (hs.of_sim hsim1)
      (fun e he => ⟨hsim1.1 ▸ (hds e (List.mem_cons_of_mem _ he)).1,
        (hds e (List.mem_cons_of_mem _ he)).2⟩)
    refine ⟨t2, ?_, hsim1.trans hsim2⟩
    rw [List.foldlM_cons, h1]
    simp only [Option.bind_eq_bind, Option.some_bind]
    have htr : t1.trace fuel = s.trace fuel := funext (State.trace_of_sim hsim1 fuel)
    rw [h2, htr, List.flatMap_cons, List.append_assoc]

/-- With fuel above the pointer of the root, `backward` returns, and the closures
it has invoked are, in order, those of the dependency-order traversal. -/
theorem backward_eq_trace (fuel r : Nat) (s : State α) (log : List Nat) (hs : s.GraphWF)
    (hr : r < s.nodes.length) (hfuel : r < fuel) :
    ∃ t, Node.backward fuel r (s, log) = some (t, log ++ s.trace fuel r) ∧ s.Sim t := by
  induction fuel generalizing r s log with
  | zero => omega
  | succ fuel ih =>
    obtain ⟨N, hN⟩ : ∃ N, s.nodes[r]? = some N :=
      ⟨s.nodes[r], List.getElem?_eq_getElem hr⟩
    have hdeps := hs.deps_lt hN
    cases hop : N.backward_op with
    | none =>
      obtain ⟨t, ht, hsim⟩ := foldlM_backward fuel ih N.dependencies s log hs
        (fun d hd => ⟨by have := hdeps d hd; omega, by have := hdeps d hd; omega⟩)
      refine ⟨t, ?_, hsim⟩
      simp only [Node.backward, hN, hop, State.trace, Option.isSome_none]
      rw [ht]
      simp
    | some op =>
      obtain ⟨s1, hs1⟩ := Option.isSome_iff_exists.1 (hs.run_isSome hN hop)
      have hsim1 := run_sim op s s1 hs1
      obtain ⟨t, ht, hsim⟩ := foldlM_backward fuel ih N.dependencies s1 (log ++ [r])
        (hs.of_sim hsim1)
        (fun d hd => ⟨by have := hdeps d hd; rw [hsim1.1]; omega,
          by have := hdeps d hd; omega⟩)
      refine ⟨t, ?_, hsim1.trans hsim⟩
      simp only [Node.backward, hN, hop, hs1, State.trace, Option.isSome_some, Option.map_some']
      have htr : s1.trace fuel = s.trace fuel := funext (State.trace_of_sim hsim1 fuel)
      rw [ht, htr]
      simp only [if_true, List.append_assoc, List.singleton_append]

theorem flatMap_range_getD {β γ : Type} (g : β → List γ) (d : β) (l : List β) :
    l.flatMap g = (List.range l.length).flatMap (fun i => g (l.getD i d)) := by
  induction l with
  | nil => rfl
  | cons x xs ih =>
    rw [List.length_cons, List.range_succ_eq_map, List.flatMap_cons, List.flatMap_cons,
      List.flatMap_map, ih]
    rfl

theorem State.walkEnd_cons (s : State α) (r i : Nat) (w : List Nat) (N : Node α)
    (hN : s.nodes[r]? = some N) (hi : i < N.dependencies.length) :
    s.walkEnd r (i :: w) = s.walkEnd (N.dependencies.getD i 0) w := by
  simp only [State.walkEnd, hN, List.getElem?_eq_getElem hi, List.getD_eq_getElem _ _ hi]

/-- The traversal meets the ends of the enumerated paths, in the same order. -/
theorem State.trace_eq_walks (s : State α) (fuel r : Nat) :
    s.trace fuel r = (s.walks fuel r).filterMap (s.walkEnd r) := by
  induction fuel generalizing r with
  | zero => rfl
  | succ fuel ih =>
    simp only [State.trace, State.walks]
    cases hN : s.nodes[r]? with
    | none => rfl
    | some N =>
      simp only
      rw [List.filterMap_append, List.filterMap_flatMap,
        flatMap_range_getD (s.trace fuel) 0 N.dependencies]
      congr 1
      · cases N.backward_op <;> simp [State.walkEnd]
      · apply List.flatMap_congr
        intro i hi
        rw [List.mem_range] at hi
        rw [List.filterMap_map, ih]
        apply List.filterMap_congr
        intro w _
        exact (State.walkEnd_cons s r i w N hN hi).symm

theorem State.walks_nodup (s : State α) (fuel r : Nat) : (s.walks fuel r).Nodup := by
  induction fuel generalizing r with
  | zero => exact List.nodup_nil
  | succ fuel ih =>
    simp only [State.walks]
    cases s.nodes[r]? with
    | none => exact List.nodup_nil
    | some N =>
      simp only
      apply List.Nodup.append
      · split
        · exact List.nodup_singleton _
        · exact List.nodup_nil
      · rw [List.nodup_flatMap]
        constructor
        · intro i _
          exact (ih _).map (fun a b hab => List.tail_eq_of_cons_eq hab)
        · apply (List.pairwise_lt_range _).imp
          intro i j hij
          simp only [Function.onFun]
          rw [List.disjoint_left]
          intro w hw hw2
          obtain ⟨w1, _, rfl⟩ := List.mem_map.1 hw
          obtain ⟨w2, _, h2⟩ := List.mem_map.1 hw2
          have := List.head_eq_of_cons_eq h2
          omega
      · rw [List.disjoint_left]
        intro w hw hw2
        obtain ⟨i, _, hi⟩ := List.mem_flatMap.1 hw2
        obtain ⟨w1, _, rfl⟩ := List.mem_map.1 hi
        split at hw
        · simp at hw
        · simp at hw

/-- Every enumerated path is a dependency path from `r` to a node with a closure. -/
theorem State.walkEnd_of_mem_walks (s : State α) (fuel r : Nat) (w : List Nat)
    (hw : w ∈ s.walks fuel r) :
    ∃ n N, s.walkEnd r w = some n ∧ s.nodes[n]? = some N ∧ N.backward_op.isSome = true := by
  induction fuel generalizing r w with
  | zero => simp [State.walks] at hw
  | succ fuel ih =>
    simp only [State.walks] at hw
    cases hN : s.nodes[r]? with
    | none => rw [hN] at hw; simp at hw
    | some N =>
      rw [hN] at hw
      simp only at hw
      rcases List.mem_append.1 hw with h1 | h2
      · split at h1
        · next hop =>
          rw [List.mem_singleton] at h1
          subst h1
          exact ⟨r, N, rfl, hN, hop⟩
        · simp at h1
      · obtain ⟨i, hi, hmem⟩ := List.mem_flatMap.1 h2
        rw [List.mem_range] at hi
        obtain ⟨w1, hw1, rfl⟩ := List.mem_map.1 hmem
        rw [State.walkEnd_cons s r i w1 N hN hi]
        exact ih _ w1 hw1

/-- With enough fuel every dependency path from `r` to a node with a closure is
enumerated. -/
theorem State.mem_walks_of_walkEnd (s : State α) (hs : s.GraphWF) (w : List Nat)
    (fuel r n : Nat) (N : Node α) (hfuel : r < fuel) (hw : s.walkEnd r w = some n)
    (hN : s.nodes[n]? = some N) (hop : N.backward_op.isSome = true) :
    w ∈ s.walks fuel r := by
  induction w generalizing fuel r with
  | nil =>
    obtain ⟨fuel, rfl⟩ : ∃ f, fuel = f + 1 := ⟨fuel - 1, by omega⟩
    simp only [State.walkEnd, Option.some.injEq] at hw
    subst hw
    simp [State.walks, hN, hop]
  | cons i w ih =>
    obtain ⟨fuel, rfl⟩ : ∃ f, fuel = f + 1 := ⟨fuel - 1, by omega⟩
    simp only [State.walkEnd] at hw
    cases hR : s.nodes[r]? with
    | none => rw [hR] at hw; cases hw
    | some R =>
      rw [hR] at hw
      simp only at hw
      cases hd : R.dependencies[i]? with
      | none => rw [hd] at hw; cases hw
      | some d =>
        rw [hd] at hw
        simp only at hw
        have hi : i < R.dependencies.length := by
          rcases List.getElem?_eq_some_iff.1 hd with ⟨hlt, _⟩
          exact hlt
        have hdmem : d ∈ R.dependencies := List.mem_iff_getElem?.2 ⟨i, hd⟩
        have hdr : d < r := hs.deps_lt hR d hdmem
        have hgetD : R.dependencies.getD i 0 = d := by
          rw [List.getD_eq_getElem?_getD, hd]; rfl
        simp only [State.walks, hR]
        apply List.mem_append_right
        rw [List.mem_flatMap]
        refine ⟨i, List.mem_range.2 hi, ?_⟩
        rw [hgetD]
        exact List.mem_map_of_mem _ (ih fuel d (by omega) hw)

theorem count_filterMap_eq {β : Type} (f : β → Option Nat) (n : Nat) (l : List β) :
    (l.filterMap f).count n = (l.filter (fun w => f w = some n)).length := by
  induction l with
  | nil => rfl
  | cons x xs ih =>
    cases hx : f x with
    | none => simp [List.filterMap_cons, hx, List.filter_cons, ih]
    | some m =>
      by_cases hmn : m = n
      · simp [List.filterMap_cons, hx, List.filter_cons, ih, hmn]
      · simp [List.filterMap_cons, hx, List.filter_cons, ih, hmn, List.count_cons]

/-- Claim C1, as the code behaves. On a graph as the operators build it, with fuel
above the pointer of the root, `root.backward()` returns, and it invokes the
backward closures once per dependency path: the log of invocations is the list
of the ends of `ws`, where `ws` lists without repetition exactly the dependency
paths from the root to a node that has a closure. Hence the closure of `n` is
invoked as many times as there are dependency paths from the root to `n`. -/
theorem backward_invokes_once_per_path (s : State α) (r fuel : Nat) (hs : s.GraphWF)
    (hr : r < s.nodes.length) (hfuel : r < fuel) :
    ∃ (t : State α) (log : List Nat) (ws : List (List Nat)),
      Node.backward fuel r (s, []) = some (t, log) ∧
      ws.Nodup ∧
      (∀ w, w ∈ ws ↔ ∃ n N, s.walkEnd r w = some n ∧ s.nodes[n]? = some N ∧
        N.backward_op.isSome = true) ∧
      log = ws.filterMap (s.walkEnd r) ∧
      (∀ n, log.count n = (ws.filter (fun w => s.walkEnd r w = some n)).length) := by
  obtain ⟨t, ht, _⟩ := backward_eq_trace fuel r s [] hs hr hfuel
  refine ⟨t, s.trace fuel r, s.walks fuel r, by simpa using ht, s.walks_nodup fuel r, ?_,
    s.trace_eq_walks fuel r, ?_⟩
  · intro w
    constructor
    · exact s.walkEnd_of_mem_walks fuel r w
    · rintro ⟨n, N, hw, hN, hop⟩
      exact s.mem_walks_of_walkEnd hs w fuel r n N hfuel hw hN hop
  · intro n
    rw [s.trace_eq_walks fuel r]
    exact count_filterMap_eq _ n _

end Traversal

/-- Claim C9. In exact arithmetic (a field), let `A` (`m × k`) and `B` (`k × n`) be
nodes with distinct, zero gradients and let the gradient of `C = A * B` hold any
`m × n` matrix `G`. After the backward closure of `C`, for every `h ≠ 0` the
finite differences of `L(A, B) = Σ_ij G[i,j] * (A · B)[i,j]`, where
`(A · B)[i,j] = Σ_l A[i,l] * B[l,j]` (`productLoss`, which does not go through
`Matrix::operator*`), are exactly the gradients:
`(L(A + h E_ij, B) - L(A, B)) / h = A.grad[i,j]` and
`(L(A, B + h E_ij) - L(A, B)) / h = B.grad[i,j]`. -/
theorem mul_backward_finite_difference {β : Type} [Field β] (s : State β) (a b : Nat)
    (A B : Node β) (m k n : Nat)
    (ha : s.nodes[a]? = some A) (hb : s.nodes[b]? = some B)
    (hA : A.rows = m ∧ A.cols = k) (hB : B.rows = k ∧ B.cols = n)
    (hga : s.validMat A.grads) (hgb : s.validMat B.grads) (hne : A.values ≠ A.grads)
    (hab : A.grads ≠ B.grads) (t : State β)
    (hv1 : t.validMat A.values) (hv2 : t.validMat A.grads) (hv3 : t.validMat B.values)
    (hv4 : t.validMat B.grads) (hv5 : t.validMat s.freshGrads)
    (htA : (t.getMat A.values).Shaped m k) (htB : (t.getMat B.values).Shaped k n)
    (hzA : t.getMat A.grads = Matrix.new m k) (hzB : t.getMat B.grads = Matrix.new k n)
    (htc : (t.getMat s.freshGrads).Shaped m n) :
    ∃ s1 C op t',
      Node.mul s a b = .ok (s1, s.freshNode) ∧ s1.nodes[s.freshNode]? = some C ∧
      C.grads = s.freshGrads ∧ C.backward_op = some op ∧ op.run t = some t' ∧
      ∀ h : β, h ≠ 0 →
        (∀ i j, i < m → j < k →
          (productLoss m k n (t.getMat s.freshGrads).get
              (unitBump (t.getMat A.values).get i j h) (t.getMat B.values).get -
            productLoss m k n (t.getMat s.freshGrads).get
              (t.getMat A.values).get (t.getMat B.values).get) / h =
            (t'.getMat A.grads).get i j) ∧
        (∀ i j, i < k → j < n →
          (productLoss m k n (t.getMat s.freshGrads).get
              (t.getMat A.values).get (unitBump (t.getMat B.values).get i j h) -
            productLoss m k n (t.getMat s.freshGrads).get
              (t.getMat A.values).get (t.getMat B.values).get) / h =
            (t'.getMat B.grads).get i j) := by
  have hac : A.grads ≠ s.freshGrads := by
    unfold State.validMat at hga; unfold State.freshGrads; omega
  refine ⟨_, _, _, _, Node.mul_eq s a b A B ha hb (hA.2.trans hB.1.symm),
    State.recorded_nodes_fresh _ _ _ _, rfl, rfl, run_mul t _ _ _ _ _ hv1 hv2 hv3 hv4 hv5, ?_⟩
  intro h hh
  constructor
  · intro i j hi hj
    rw [Matrix.productLoss_bump_left _ _ _ m k n htc htA htB i j hi hj h,
      Matrix.productLoss_eq_weightedSum _ _ _ m k n htc htA htB,
      State.getMat_setMat_ne _ _ _ _ (Ne.symm hab), State.getMat_setMat_self _ _ _ hv2,
      add_mul_transpose_get _ _ _ m k n (by rw [hzA]; exact ⟨rfl, rfl⟩) ⟨htc.1, htc.2.1⟩
        ⟨htB.1, htB.2.1⟩ i j hi hj,
      Matrix.weightedSum_mul_set_left _ _ _ m k n htc htA htB i j hi hj h, hzA,
      Matrix.get_new, zero_add]
    field_simp
  · intro i j hi hj
    rw [Matrix.productLoss_bump_right _ _ _ m k n htc htA htB i j hi hj h,
      Matrix.productLoss_eq_weightedSum _ _ _ m k n htc htA htB,
      State.getMat_setMat_self _ _ _ ((State.validMat_setMat _ _ _ _).2 hv4),
      State.getMat_setMat_ne _ _ _ _ hab, State.getMat_setMat_ne _ _ _ _ hac,
      State.getMat_setMat_ne _ _ _ _ (Ne.symm hne),
      add_transpose_mul_get _ _ _ m k n (by rw [hzB]; exact ⟨rfl, rfl⟩) ⟨htA.1, htA.2.1⟩
        ⟨htc.1, htc.2.1⟩ i j hi hj,
      Matrix.weightedSum_mul_set_right _ _ _ m k n htc htA htB i j hi hj h, hzB,
      Matrix.get_new, zero_add]
    field_simp

/-! ## Instances on concrete graphs -/

section Concrete

theorem add_value_and_backward_witness :
    ∃ s1, Node.add (twoLeaves ⟨1, 2, [1, 2]⟩ ⟨1, 2, [3, 4]⟩) 0 1 = .ok (s1, 2) := by
  obtain ⟨s1, _, _, _, h, _⟩ :=
    add_value_and_backward (twoLeaves ⟨1, 2, [1, 2]⟩ ⟨1, 2, [3, 4]⟩) 0 1
      (leafA 1 2) (leafB 1 2) 1 2 rfl rfl (by decide) (by decide) (by decide) (by decide)
      (by decide) (by decide)
      ((twoLeaves ⟨1, 2, [1, 2]⟩ ⟨1, 2, [3, 4]⟩).recorded ⟨1, 2, [4, 6]⟩ [0, 1] none)
      (by decide) (by decide) (by decide) (by decide) (by decide) (by decide)
  exact ⟨s1, h⟩

theorem mul_value_and_backward_witness :
    ∃ s1, Node.mul (twoLeaves ⟨1, 2, [1, 2]⟩ ⟨2, 1, [3, 4]⟩) 0 1 = .ok (s1, 2) := by
  obtain ⟨s1, _, _, _, h, _⟩ :=
    mul_value_and_backward (twoLeaves ⟨1, 2, [1, 2]⟩ ⟨2, 1, [3, 4]⟩) 0 1
      (leafA 1 2) (leafB 2 1) 1 2 1 rfl rfl (by decide) (by decide) (by decide) (by decide)
      (by decide) (by decide) (by decide)
      ((twoLeaves ⟨1, 2, [1, 2]⟩ ⟨2, 1, [3, 4]⟩).recorded ⟨1, 1, [11]⟩ [0, 1] none)
      (by decide) (by decide) (by decide) (by decide) (by decide)
      (by decide) (by decide) (by decide) (by decide) (by decide)
  exact ⟨s1, h⟩

theorem apply_value_and_backward_witness :
    ∃ s1, Node.apply (oneLeaf ⟨1, 2, [1, 2]⟩) 0 (fun x => x * x) (some (fun x => 2 * x)) =
      .ok (s1, 1) := by
  obtain ⟨s1, _, _, _, h, _⟩ :=
    apply_value_and_backward (oneLeaf ⟨1, 2, [1, 2]⟩) 0 (leafA 1 2) (fun x => x * x)
      (fun x => 2 * x) 1 2 rfl (by decide) (by decide) (by decide) (by decide)
      ((oneLeaf ⟨1, 2, [1, 2]⟩).recorded ⟨1, 2, [1, 4]⟩ [0] none)
      (by decide) (by decide) (by decide) (by decide) (by decide) (by decide)
  exact ⟨s1, h⟩

theorem bce_closure_adds_mean_gradient_witness :
    ∃ s1, binary_cross_entropy (fun x => x) (twoLeaves ⟨1, 2, [1, 0]⟩ ⟨1, 2, [1, 0]⟩) 0 1 =
      .ok (s1, 2) := by
  obtain ⟨s1, _, _, _, h, _⟩ :=
    bce_closure_adds_mean_gradient (fun x => x) (twoLeaves ⟨1, 2, [1, 0]⟩ ⟨1, 2, [1, 0]⟩) 0 1
      (leafA 1 2) (leafB 1 2) 1 2 rfl rfl (by decide) (by decide) (by decide) (by decide)
      (by decide) (twoLeaves ⟨1, 2, [1, 0]⟩ ⟨1, 2, [1, 0]⟩) rfl rfl
      (by decide) (by decide) (by decide) (by decide) (by decide) (by decide)
  exact ⟨s1, h⟩

theorem mul_backward_finite_difference_witness :
    ∃ s1, Node.mul ((Node.ofMatrix (Node.ofMatrix State.empty
        (⟨1, 2, [1, 2]⟩ : Matrix ℚ)).1 ⟨2, 1, [3, 4]⟩).1) 0 1 = .ok (s1, 2) := by
  obtain ⟨s1, _, _, _, h, _⟩ :=
    mul_backward_finite_difference
      ((Node.ofMatrix (Node.ofMatrix State.empty (⟨1, 2, [1, 2]⟩ : Matrix ℚ)).1
        ⟨2, 1, [3, 4]⟩).1) 0 1
      { rows := 1, cols := 2, values := 0, grads := 1, backward_op := none,
        dependencies := [] }
      { rows := 2, cols := 1, values := 2, grads := 3, backward_op := none,
        dependencies := [] } 1 2 1 rfl rfl (by decide) (by decide) (by decide) (by decide)
      (by decide) (by decide)
      (((Node.ofMatrix (Node.ofMatrix State.empty (⟨1, 2, [1, 2]⟩ : Matrix ℚ)).1
        ⟨2, 1, [3, 4]⟩).1).recorded ⟨1, 1, [11]⟩ [0, 1] none)
      (by decide) (by decide) (by decide) (by decide) (by decide)
      (by decide) (by decide) rfl rfl (by decide)
  exact ⟨s1, h⟩

/-- Claim C1, as claimed, fails. In `c = b + b` with `b = a.apply(f, f')`, one call
`c.backward()` invokes the closure of `b` (pointer `1`) twice: the log is
`[c, b, b]`. With `a = [3]`, `f' x = 2x` and the gradient of `c` seeded with `[1]`,
the gradient of `a` ends as `[24]`. -/
theorem backward_invokes_shared_closure_twice :
    ∃ (s : State ℤ) (c : Nat) (t : State ℤ) (log : List Nat),
      sharedGraph = .ok (s, c) ∧
      Node.backward 3 c (s.setMat 5 ⟨1, 1, [1]⟩, []) = some (t, log) ∧
      log = [2, 1, 1] ∧ log.count 1 = 2 ∧ t.getMat 1 = ⟨1, 1, [24]⟩ :=
  ⟨_, _, _, _, rfl, rfl, rfl, rfl, by decide⟩

theorem backward_invokes_once_per_path_witness :
    ∃ (t : State ℤ) (log : List Nat), Node.backward 3 2 (sharedState, []) = some (t, log) := by
  obtain ⟨t, log, _, h, _⟩ :=
    backward_invokes_once_per_path sharedState 2 3 (by decide) (by decide) (by decide)
  exact ⟨t, log, h⟩

/-- Claim C2, as claimed, fails. In `z = x + y` with `y = x.apply(f, f')`, the node
`x` (pointer `1`) is a dependency of `y` (pointer `2`) and of `z` (pointer `3`),
and one call `z.backward()` invokes the closures in the order `[z, x, y, x]`: the
closure of `x` runs before the closure of its consumer `y`. -/
theorem backward_runs_before_a_consumer :
    ∃ (s : State ℤ) (z : Nat) (t : State ℤ) (log : List Nat) (Y : Node ℤ),
      diamondGraph = .ok (s, z) ∧
      Node.backward 4 z (s, []) = some (t, log) ∧
      log = [3, 1, 2, 1] ∧ s.nodes[2]? = some Y ∧ 1 ∈ Y.dependencies ∧
      log.indexOf 1 < log.indexOf 2 :=
  ⟨_, _, _, _, _, rfl, rfl, rfl, rfl, by decide, by decide⟩

theorem mul_raises_iff_witness :
    Node.mul (twoLeaves ⟨1, 2, [1, 2]⟩ ⟨1, 2, [3, 4]⟩) 0 1 = .error .invalid_argument :=
  (mul_raises_iff (twoLeaves ⟨1, 2, [1, 2]⟩ ⟨1, 2, [3, 4]⟩) 0 1 (leafA 1 2) (leafB 1 2)
    rfl rfl).1.2 (by decide)

/-- Claim C4, code as written. `A` is the `1 × 2` leaf with gradient `[10, 20]`
and `C = A.transpose()` has the gradient `dC = [5, 7]ᵗ`. The closure of `C`
assigns to `A.grad` its own transpose: the result is the `2 × 1` matrix
`[10, 20]ᵗ`, not the `1 × 2` matrix `[15, 27]` that `dA += (dC)ᵗ` gives; `dC` is
not read. -/
theorem transpose_backward_replaces :
    ∃ s1 C op t',
      Node.transpose (oneLeaf ⟨1, 2, [1, 2]⟩) 0 = .ok (s1, 1) ∧
      s1.nodes[1]? = some C ∧ C.backward_op = some op ∧
      op.run ((s1.setMat 1 ⟨1, 2, [10, 20]⟩).setMat 3 ⟨2, 1, [5, 7]⟩) = some t' ∧
      t'.getMat 1 = ⟨2, 1, [10, 20]⟩ ∧
      t'.getMat 1 ≠ Matrix.add ⟨1, 2, [10, 20]⟩ (Matrix.transpose ⟨2, 1, [5, 7]⟩) :=
  ⟨_, _, _, _, rfl, rfl, rfl, rfl, by decide, by decide⟩

/-- Claim C10, code as written. After the constructors and `A.transpose()` the
gradient of the `1 × 2` leaf `A` has the shape of its value; after the backward
closure of the transposed node has run, the gradient is `2 × 1` while the value
is still `1 × 2`. -/
theorem transpose_backward_breaks_grad_shape :
    ∃ s1 C op t',
      Node.transpose (oneLeaf ⟨1, 2, [1, 2]⟩) 0 = .ok (s1, 1) ∧
      s1.nodes[1]? = some C ∧ C.backward_op = some op ∧
      ((s1.getMat 1).rows = (s1.getMat 0).rows ∧ (s1.getMat 1).cols = (s1.getMat 0).cols) ∧
      op.run s1 = some t' ∧
      (t'.getMat 0).rows = 1 ∧ (t'.getMat 0).cols = 2 ∧
      (t'.getMat 1).rows = 2 ∧ (t'.getMat 1).cols = 1 :=
  ⟨_, _, _, _, rfl, rfl, rfl, by decide, rfl, by decide, by decide, by decide, by decide⟩

end Concrete

end P1

namespace P2

/-- Claim C6, code as written. One process holds the `1 × 2` predictions
`[1/2, 1/2]` with a zero gradient and the targets `[1, 0]`, so `N = 2`. The
closure of the distributed `binary_cross_entropy` adds
`-T / (P + ε) + (1 - T) / (1 - P + ε)` to each entry of the predictions' gradient,
without the division by `N`: entry `(0, 0)` becomes `-1 / (1/2 + ε)`, twice the
value `(-1 / (1/2 + ε)) / 2` of the mean. -/
theorem distributed_bce_closure_not_normalised :
    ((BackwardOp.bce 0 1).run ⟨0, 1⟩ (bceState (1 / 2) (1 / 2) 1 0)).map
        (fun t => t.mats[1]?) =
      some (some (.distributed ⟨1, 2, 2, 0, 1, 0,
        ⟨1, 2, [-1 / (1 / 2 + 1 / 10 ^ 12), 1 / (1 - 1 / 2 + 1 / 10 ^ 12)]⟩⟩)) ∧
    (-1 / (1 / 2 + 1 / 10 ^ 12) : ℚ) ≠ (-1 / (1 / 2 + 1 / 10 ^ 12)) / 2 := by
  constructor
  · simp [BackwardOp.run, bceState, AbstractMatrix.asDistributed,
      DistributedMatrix.applyBinary, DistributedMatrix.ofLocal,
      DistributedMatrix.get, bce_grad_func, Matrix.get, Matrix.set, Matrix.new,
      forLoop, List.range, List.range.loop]
  · norm_num

/-! ## The column partition of the distributed matrix -/

theorem card_filter_top (P r : Nat) (hr : r ≤ P) :
    ((Finset.range P).filter (fun k => P - r ≤ k)).card = r := by
  have h : (Finset.range P).filter (fun k => P - r ≤ k) = Finset.Ico (P - r) P := by
    ext x
    simp only [Finset.mem_filter, Finset.mem_range, Finset.mem_Ico]
    omega
  rw [h, Nat.card_Ico]
  omega

theorem localCols_of_rank {α : Type} [Zero α] (M : Matrix α) (P k : Nat) (hP : 1 ≤ P) :
    (DistributedMatrix.ofMatrix ⟨k, P⟩ M P).localCols =
      ((M.cols / P : Nat) : Int) + (if P - M.cols % P ≤ k then 1 else 0) := by
  have hlt : M.cols % P < P := Nat.mod_lt _ hP
  have hmod : (M.cols : Int).tmod P = ((M.cols % P : Nat) : Int) := (Int.ofNat_tmod _ _).symm
  have hdiv : (M.cols : Int).tdiv P = ((M.cols / P : Nat) : Int) := (Int.ofNat_tdiv _ _).symm
  simp only [DistributedMatrix.ofMatrix, Matrix.numCols, hmod, hdiv]
  by_cases h : (k : Int) ≥ (P : Int) - ((M.cols % P : Nat) : Int)
  · rw [if_pos h, if_pos (by omega)]
  · rw [if_neg h, if_neg (by omega), add_zero]

/-- Claim C13. For `P ≥ 1` processes and a matrix with `C` columns, the constructor
gives rank `k < P` exactly `⌊C/P⌋ + 1` local columns when `k ≥ P - C mod P` and
`⌊C/P⌋` otherwise; the local column counts of the `P` ranks sum to `C`, and the
ranks that hold `⌊C/P⌋ + 1` columns are `C mod P` in number. -/
theorem ofMatrix_localCols {α : Type} [Zero α] (M : Matrix α) (P : Nat) (hP : 1 ≤ P) :
    (∀ k : Nat, k < P →
      (DistributedMatrix.ofMatrix ⟨k, P⟩ M P).localCols =
        if P - M.cols % P ≤ k then ((M.cols / P + 1 : Nat) : Int)
        else ((M.cols / P : Nat) : Int)) ∧
    (∑ k ∈ Finset.range P, (DistributedMatrix.ofMatrix ⟨(k : Nat), P⟩ M P).localCols) =
      M.cols ∧
    ((Finset.range P).filter (fun k : Nat =>
      (DistributedMatrix.ofMatrix ⟨k, P⟩ M P).localCols =
        ((M.cols / P : Nat) : Int) + 1)).card = M.cols % P := by
  have hlt : M.cols % P < P := Nat.mod_lt _ hP
  have hloc := fun k : Nat => localCols_of_rank M P k hP
  refine ⟨?_, ?_, ?_⟩
  · intro k _
    rw [hloc]
    by_cases h : P - M.cols % P ≤ k
    · rw [if_pos h, if_pos h]; push_cast; rfl
    · rw [if_neg h, if_neg h, add_zero]
  · rw [Finset.sum_congr rfl (fun k _ => hloc k), Finset.sum_add_distrib, Finset.sum_boole,
      card_filter_top P _ (by omega), Finset.sum_const, Finset.card_range]
    have := Nat.div_add_mod M.cols P
    simp only [nsmul_eq_mul]
    exact_mod_cast this
  · have hfil : (Finset.range P).filter (fun k : Nat =>
        (DistributedMatrix.ofMatrix ⟨k, P⟩ M P).localCols = ((M.cols / P : Nat) : Int) + 1) =
        (Finset.range P).filter (fun k => P - M.cols % P ≤ k) := by
      apply Finset.filter_congr
      intro k _
      rw [hloc]
      by_cases h : P - M.cols % P ≤ k
      · simp [h]
      · simp [h]
    rw [hfil, card_filter_top P _ (by omega)]

theorem ofMatrix_localCols_witness :
    (∑ k ∈ Finset.range 3,
      (DistributedMatrix.ofMatrix ⟨(k : Nat), 3⟩ testSumMatrix ((3 : Nat) : Int)).localCols) =
      testSumMatrix.cols :=
  (ofMatrix_localCols testSumMatrix 3 (by decide)).2.1

/-! ## The distributed matrix at the failing inputs -/

/-- Claim C14, code as written. For `C = 5` columns over `P = 3` processes the
constructor gives rank `0` the range `[0, 1)`, rank `1` the range `[2, 4)` and rank
`2` the range `[4, 6)`: the range of rank `1` does not start where that of rank
`0` ends, column `1` is in no range, and the last range ends at `6`, not at `5`. -/
theorem ofMatrix_ranges_not_contiguous :
    (DistributedMatrix.ofMatrix ⟨0, 3⟩ testSumMatrix 3).startCol = 0 ∧
    (DistributedMatrix.ofMatrix ⟨0, 3⟩ testSumMatrix 3).localCols = 1 ∧
    (DistributedMatrix.ofMatrix ⟨1, 3⟩ testSumMatrix 3).startCol = 2 ∧
    (DistributedMatrix.ofMatrix ⟨1, 3⟩ testSumMatrix 3).localCols = 2 ∧
    (DistributedMatrix.ofMatrix ⟨2, 3⟩ testSumMatrix 3).startCol = 4 ∧
    (DistributedMatrix.ofMatrix ⟨2, 3⟩ testSumMatrix 3).localCols = 2 ∧
    (∀ k : Fin 3, (DistributedMatrix.ofMatrix ⟨k.val, 3⟩ testSumMatrix 3).localColIndex 1
      = -1) := by
  decide

/-- Claim C15, code as written. For `C = 5`, `P = 3` (so `⌊C/P⌋ = 1`), the local
column `j = 1` of rank `1` has the global index `3`, and `ownerProcess(3)`
evaluated on rank `1` is `2`, not `1`. -/
theorem ownerProcess_disagrees_with_constructor :
    (DistributedMatrix.ofMatrix ⟨1, 3⟩ testSumMatrix 3).localCols = 2 ∧
    (DistributedMatrix.ofMatrix ⟨1, 3⟩ testSumMatrix 3).globalColIndex 1 = 3 ∧
    (DistributedMatrix.ofMatrix ⟨1, 3⟩ testSumMatrix 3).ownerProcess
      ((DistributedMatrix.ofMatrix ⟨1, 3⟩ testSumMatrix 3).globalColIndex 1) = some 2 := by
  decide

/-- Claim C16, code as written. Rank `0` of `P = 2` processes holds the columns
`[0, 2)` of the `2 × 4` matrix `M[i][j] = 10 i + j`. The global column `2` is not
in its range (`localColIndex(2) = -1`), yet `get(0, 2)` returns the value `10`
(the local entry `(1, 0)`) and `set(0, 2, 99)` overwrites that local entry. -/
theorem get_set_do_not_check_ownership :
    (DistributedMatrix.ofMatrix ⟨0, 2⟩ twoByFour 2).startCol = 0 ∧
    (DistributedMatrix.ofMatrix ⟨0, 2⟩ twoByFour 2).localCols = 2 ∧
    (DistributedMatrix.ofMatrix ⟨0, 2⟩ twoByFour 2).localColIndex 2 = -1 ∧
    (DistributedMatrix.ofMatrix ⟨0, 2⟩ twoByFour 2).get 0 2 = 10 ∧
    (DistributedMatrix.ofMatrix ⟨0, 2⟩ twoByFour 2).localData = ⟨2, 2, [0, 1, 10, 11]⟩ ∧
    ((DistributedMatrix.ofMatrix ⟨0, 2⟩ twoByFour 2).set 0 2 99).localData =
      ⟨2, 2, [0, 1, 99, 11]⟩ := by
  decide

/-- Claim C17, code as written. Rank `1` of `P = 2` processes holds the columns
`[2, 4)` of the `2 × 4` matrix `M[i][j] = 10 i + j`. The global column `2` is its
local column `0`, and `M[0][2] = 2`; `get(0, 2)` reads the local entry `(0, 2)`,
that is the storage cell of the local entry `(1, 0)`, and returns `12`. -/
theorem get_reads_local_index :
    (DistributedMatrix.ofMatrix ⟨1, 2⟩ twoByFour 2).startCol = 2 ∧
    (DistributedMatrix.ofMatrix ⟨1, 2⟩ twoByFour 2).localCols = 2 ∧
    (DistributedMatrix.ofMatrix ⟨1, 2⟩ twoByFour 2).localColIndex 2 = 0 ∧
    twoByFour.get 0 2 = 2 ∧
    (DistributedMatrix.ofMatrix ⟨1, 2⟩ twoByFour 2).get 0 2 = 12 := by
  decide

/-- Claim C18, code as written. For `M = [[1, 2], [3, 4]]` over `P = 2` processes
(one column each), `gather()` returns on rank `0` the matrix `[[1, 3], [2, 4]]`,
the two local column blocks one after the other in row-major storage, and on
rank `1` the zero matrix. Neither is `M`. -/
theorem gather_is_not_the_matrix :
    (distribute (⟨2, 2, [1, 2, 3, 4]⟩ : Matrix ℤ) 2).map
        (fun d => DistributedMatrix.gather (distribute (⟨2, 2, [1, 2, 3, 4]⟩ : Matrix ℤ) 2) d) =
      [⟨2, 2, [1, 3, 2, 4]⟩, ⟨2, 2, [0, 0, 0, 0]⟩] := by
  decide

/-- Claim C20, code as written. For rank `0` of `P = 2` processes holding the
columns `[0, 2)` of the `2 × 4` matrix `M[i][j] = 10 i + j` (global column count
`4`) and `L = [1, 1]`, `multiply(L, D)` has `globalRows = 1`, `localCols = 2`,
`startCol = 0` and the local data `L · localSlice(D) = [10, 12]`, but its global
column count is `2`, the value of `D.numCols()`. -/
theorem multiply_globalCols_is_localCols :
    (DistributedMatrix.ofMatrix ⟨0, 2⟩ twoByFour 2).globalCols = 4 ∧
    (multiply ⟨0, 2⟩ ⟨1, 2, [1, 1]⟩ (DistributedMatrix.ofMatrix ⟨0, 2⟩ twoByFour 2)) =
      ⟨1, 2, 2, 0, 2, 0, ⟨1, 2, [10, 12]⟩⟩ := by
  decide

section Sums

variable {α : Type} [AddCommMonoid α]

theorem forLoop_add_sum (n : Nat) (f : Nat → α) (s0 : α) :
    forLoop n (fun k s => s + f k) s0 = s0 + ∑ k ∈ Finset.range n, f k := by
  induction n with
  | zero => simp [forLoop_zero]
  | succ n ih => rw [forLoop_succ, ih, Finset.sum_range_succ, add_assoc]

theorem forLoop_nested_sum (n m : Nat) (f : Nat → Nat → α) (s0 : α) :
    forLoop n (fun i s => forLoop m (fun j s => s + f i j) s) s0 =
      s0 + ∑ i ∈ Finset.range n, ∑ j ∈ Finset.range m, f i j := by
  have h : (fun i s => forLoop m (fun j s => s + f i j) s) =
      fun i s => s + ∑ j ∈ Finset.range m, f i j := by
    funext i s
    exact forLoop_add_sum m (f i) s
  rw [h]
  exact forLoop_add_sum n _ s0

end Sums

end P2

/-! ## Algebra of the dense matrix -/

namespace Matrix

/-- Two matrices of the same shape whose storages have the size of the shape are
equal when they agree in every entry. -/
theorem eq_of_get {α : Type} [Zero α] {A B : Matrix α} (hA : A.WF) (hB : B.WF)
    (hr : A.rows = B.rows) (hc : A.cols = B.cols)
    (h : ∀ i j, i < A.rows → j < A.cols → A.get i j = B.get i j) : A = B := by
  obtain ⟨r, c, d⟩ := A
  obtain ⟨r', c', d'⟩ := B
  simp only [WF] at hA hB
  simp only at hr hc
  subst hr hc
  congr 1
  apply List.ext_getElem (by rw [hA, hB])
  intro n h1 h2
  have hn : n < r * c := hA ▸ h1
  have hc0 : 0 < c := by
    rcases Nat.eq_zero_or_pos c with h0 | h0
    · subst h0; simp at hn
    · exact h0
  have hi : n / c < r := by
    rw [Nat.div_lt_iff_lt_mul hc0]; exact hn
  have hj : n % c < c := Nat.mod_lt _ hc0
  have key := h (n / c) (n % c) hi hj
  simp only [get, Nat.div_add_mod'] at key
  rw [List.getD_eq_getElem?_getD, List.getD_eq_getElem?_getD,
    List.getElem?_eq_getElem h1, List.getElem?_eq_getElem h2] at key
  simpa using key

/-- Claim C25. For dense matrices `A` and `B` of equal shape over a ring (exact
arithmetic), `(A + B) - B`, with `-` computed as `this + other * (-1)`, has the
shape of `A` and agrees with `A` in every entry; when the storage of `A` has the
size of its shape, `(A + B) - B` is `A`. -/
theorem add_sub_eq_self {α : Type} [Ring α] (A B : Matrix α)
    (hr : A.rows = B.rows) (hc : A.cols = B.cols) :
    ((A.add B).sub B).rows = A.rows ∧ ((A.add B).sub B).cols = A.cols ∧
    (∀ i j, i < A.rows → j < A.cols → ((A.add B).sub B).get i j = A.get i j) ∧
    (A.WF → (A.add B).sub B = A) := by
  have hrows : ((A.add B).sub B).rows = A.rows := by
    unfold sub; rw [add_rows, add_rows]
  have hcols : ((A.add B).sub B).cols = A.cols := by
    unfold sub; rw [add_cols, add_cols]
  have hget : ∀ i j, i < A.rows → j < A.cols →
      ((A.add B).sub B).get i j = A.get i j := by
    intro i j hi hj
    unfold sub
    rw [add_get _ _ i j (by rw [add_rows]; exact hi) (by rw [add_cols]; exact hj),
      add_get A B i j hi hj, mulScalar_get B (-1) i j (hr ▸ hi) (hc ▸ hj),
      mul_neg_one, add_neg_cancel_right]
  refine ⟨hrows, hcols, hget, ?_⟩
  intro hA
  apply eq_of_get _ hA hrows hcols
  · intro i j hi hj
    exact hget i j (hrows ▸ hi) (hcols ▸ hj)
  · unfold sub; exact add_WF _ _

theorem add_sub_eq_self_witness :
    ((Matrix.add ⟨2, 2, [1, 2, 3, 4]⟩ ⟨2, 2, [5, 6, 7, 8]⟩).sub ⟨2, 2, [5, 6, 7, 8]⟩
      : Matrix ℤ) = ⟨2, 2, [1, 2, 3, 4]⟩ :=
  (add_sub_eq_self ⟨2, 2, [1, 2, 3, 4]⟩ ⟨2, 2, [5, 6, 7, 8]⟩ rfl rfl).2.2.2 (by decide)

/-- Claim C26. For dense matrices `A` and `B` with `A.cols = B.rows` over a
commutative semiring (exact arithmetic), `(A * B).transpose()` and
`B.transpose() * A.transpose()` are both `B.cols × A.rows`, agree in every entry,
and are the same matrix. -/
theorem transpose_mul_eq {α : Type} [CommSemiring α] (A B : Matrix α)
    (hAB : A.cols = B.rows) :
    ((A.mul B).transpose.rows = B.cols ∧ (A.mul B).transpose.cols = A.rows) ∧
    ((B.transpose.mul A.transpose).rows = B.cols ∧
      (B.transpose.mul A.transpose).cols = A.rows) ∧
    (∀ j i, j < B.cols → i < A.rows →
      (A.mul B).transpose.get j i = (B.transpose.mul A.transpose).get j i) ∧
    (A.mul B).transpose = B.transpose.mul A.transpose := by
  have h1 : (A.mul B).transpose.rows = B.cols := by rw [transpose_rows, mul_cols]
  have h2 : (A.mul B).transpose.cols = A.rows := by rw [transpose_cols, mul_rows]
  have h3 : (B.transpose.mul A.transpose).rows = B.cols := by
    rw [mul_rows, transpose_rows]
  have h4 : (B.transpose.mul A.transpose).cols = A.rows := by
    rw [mul_cols, transpose_cols]
  have hget : ∀ j i, j < B.cols → i < A.rows →
      (A.mul B).transpose.get j i = (B.transpose.mul A.transpose).get j i := by
    intro j i hj hi
    rw [transpose_get (A.mul B) i j (by rw [mul_rows]; exact hi) (by rw [mul_cols]; exact hj),
      mul_get A B hAB i j hi hj,
      mul_get B.transpose A.transpose (by rw [transpose_cols, transpose_rows, hAB]) j i
        (by rw [transpose_rows]; exact hj) (by rw [transpose_cols]; exact hi),
      transpose_cols, hAB]
    apply Finset.sum_congr rfl
    intro k hk
    rw [Finset.mem_range] at hk
    rw [transpose_get B k j hk hj, transpose_get A i k hi (hAB ▸ hk), mul_comm]
  refine ⟨⟨h1, h2⟩, ⟨h3, h4⟩, hget, ?_⟩
  apply eq_of_get (transpose_WF _) (mul_WF _ _) (h1.trans h3.symm) (h2.trans h4.symm)
  intro j i hj hi
  exact hget j i (h1 ▸ hj) (h2 ▸ hi)

theorem transpose_mul_eq_witness :
    ((Matrix.mul ⟨2, 3, [1, 2, 3, 4, 5, 6]⟩ ⟨3, 1, [7, 8, 9]⟩).transpose : Matrix ℤ) =
      (Matrix.transpose ⟨3, 1, [7, 8, 9]⟩).mul (Matrix.transpose ⟨2, 3, [1, 2, 3, 4, 5, 6]⟩) :=
  (transpose_mul_eq ⟨2, 3, [1, 2, 3, 4, 5, 6]⟩ ⟨3, 1, [7, 8, 9]⟩ rfl).2.2.2

/-- Entries of `sub_mul`, the shapes agreeing. -/
theorem sub_mul_get {α : Type} [CommRing α] (a c : Matrix α) (x : α)
    (hr : a.rows = c.rows) (hc : a.cols = c.cols) (i j : Nat) (hi : i < a.rows)
    (hj : j < a.cols) : (a.sub_mul x c).get i j = a.get i j - x * c.get i j := by
  unfold sub_mul
  rw [add_get a _ i j hi hj, mulScalar_get c _ i j (hr ▸ hi) (hc ▸ hj)]
  ring

end Matrix

namespace P1

section Operators

variable {α : Type} [CommRing α]

/-- Claim C27. For two distinct matrices `a` and `c` of the heap with equal shapes and
every scalar `x`, the call `a.sub_mul(x, c)` leaves the shape of `a` as it is,
replaces every entry `a[i,j]` by `a[i,j] - x * c[i,j]` (exact arithmetic), and
leaves the matrix `c` unchanged. -/
theorem sub_mul_in_place (s : State α) (a c : Nat) (x : α) (ha : s.validMat a)
    (hac : a ≠ c) (hr : (s.getMat a).rows = (s.getMat c).rows)
    (hc : (s.getMat a).cols = (s.getMat c).cols) :
    ((s.sub_mul a x c).getMat a).rows = (s.getMat a).rows ∧
    ((s.sub_mul a x c).getMat a).cols = (s.getMat a).cols ∧
    (∀ i j, i < (s.getMat a).rows → j < (s.getMat a).cols →
      ((s.sub_mul a x c).getMat a).get i j =
        (s.getMat a).get i j - x * (s.getMat c).get i j) ∧
    (s.sub_mul a x c).getMat c = s.getMat c := by
  unfold State.sub_mul
  rw [State.getMat_setMat_self s a _ ha, State.getMat_setMat_ne s a c _ hac]
  refine ⟨?_, ?_, ?_, rfl⟩
  · unfold Matrix.sub_mul; rw [Matrix.add_rows]
  · unfold Matrix.sub_mul; rw [Matrix.add_cols]
  · intro i j hi hj
    exact Matrix.sub_mul_get _ _ x hr hc i j hi hj

theorem sub_mul_in_place_witness :
    ((State.sub_mul ⟨[⟨2, 2, [-1, 2, 3, 5]⟩, ⟨2, 2, [5, 6, 7, 8]⟩], [], []⟩ 0 1 1
        : State ℤ).getMat 0).get 0 0 = -6 ∧
    (State.sub_mul ⟨[⟨2, 2, [-1, 2, 3, 5]⟩, ⟨2, 2, [5, 6, 7, 8]⟩], [], []⟩ 0 1 1
        : State ℤ).getMat 0 = ⟨2, 2, [-6, -4, -4, -3]⟩ ∧
    (State.sub_mul ⟨[⟨2, 2, [-1, 2, 3, 5]⟩, ⟨2, 2, [5, 6, 7, 8]⟩], [], []⟩ 0 1 1
        : State ℤ).getMat 1 = ⟨2, 2, [5, 6, 7, 8]⟩ :=
  ⟨((sub_mul_in_place (⟨[⟨2, 2, [-1, 2, 3, 5]⟩, ⟨2, 2, [5, 6, 7, 8]⟩], [], []⟩ : State ℤ)
      0 1 1 (by decide) (by decide) rfl rfl).2.2.1 0 0 (by decide) (by decide)).trans
        (by decide),
    by decide,
    (sub_mul_in_place (⟨[⟨2, 2, [-1, 2, 3, 5]⟩, ⟨2, 2, [5, 6, 7, 8]⟩], [], []⟩ : State ℤ)
      0 1 1 (by decide) (by decide) rfl rfl).2.2.2⟩

/-- Claim C28. For two nodes `A` and `B`, `A + B` raises `invalid_argument` exactly
when `A.rows ≠ B.rows` or `A.cols ≠ B.cols`. When it raises, the state after the call
is the state before it: no node has been added to the arena. When it does not raise,
it returns a new node, the one entry added to the arena, whose value is the
entrywise sum over the whole shape of the value of `A`: no operand is broadcast or
truncated. -/
theorem add_raises_iff (s : State α) (a b : Nat) (A B : Node α)
    (ha : s.nodes[a]? = some A) (hb : s.nodes[b]? = some B) :
    (Node.add s a b = .error .invalid_argument ↔ (A.rows ≠ B.rows ∨ A.cols ≠ B.cols)) ∧
    ((A.rows ≠ B.rows ∨ A.cols ≠ B.cols) →
      stateAfter s (Node.add s a b) = s ∧
      (stateAfter s (Node.add s a b)).all_nodes = s.all_nodes) ∧
    ((A.rows = B.rows ∧ A.cols = B.cols) →
      ∃ s1, Node.add s a b = .ok (s1, s.freshNode) ∧
        s1.all_nodes = s.all_nodes ++ [s.freshNode] ∧
        (s1.getMat s.freshValues).rows = (s.getMat A.values).rows ∧
        (s1.getMat s.freshValues).cols = (s.getMat A.values).cols ∧
        ∀ i j, i < (s.getMat A.values).rows → j < (s.getMat A.values).cols →
          (s1.getMat s.freshValues).get i j =
            (s.getMat A.values).get i j + (s.getMat B.values).get i j) := by
  have herr : (A.rows ≠ B.rows ∨ A.cols ≠ B.cols) →
      Node.add s a b = .error .invalid_argument := by
    intro h
    simp only [Node.add, ha, hb, h, if_true]
  refine ⟨⟨?_, herr⟩, ?_, ?_⟩
  · intro h
    by_contra hdim
    rw [not_or, not_not, not_not] at hdim
    rw [Node.add_eq s a b A B ha hb hdim.1 hdim.2] at h
    cases h
  · intro h
    rw [herr h]
    exact ⟨rfl, rfl⟩
  · intro hdim
    refine ⟨_, Node.add_eq s a b A B ha hb hdim.1 hdim.2, rfl, ?_, ?_, ?_⟩
    · rw [State.recorded_getMat_values, Matrix.add_rows]
    · rw [State.recorded_getMat_values, Matrix.add_cols]
    · intro i j hi hj
      rw [State.recorded_getMat_values, Matrix.add_get _ _ i j hi hj]

theorem add_raises_iff_witness :
    Node.add (twoLeaves ⟨1, 2, [1, 2]⟩ ⟨2, 1, [3, 4]⟩) 0 1 = .error .invalid_argument :=
  (add_raises_iff (twoLeaves ⟨1, 2, [1, 2]⟩ ⟨2, 1, [3, 4]⟩) 0 1 (leafA 1 2) (leafB 2 1)
    rfl rfl).1.2 (by decide)

end Operators

end P1

/-! ## The kernel cache and the guards of the OpenCL backend -/

namespace P3

/-- A call of `compileKernels` that does not raise leaves the cache initialized. -/
theorem compileKernels_initialized (cl : Driver) (context : Nat) (devices : List Nat)
    (self : KernelCache) (builds : List (Nat × KernelId)) (r : Except Error Unit)
    (c : KernelCache) (b : List (Nat × KernelId))
    (h : KernelCache.compileKernels cl context devices self builds = (r, c, b))
    (hr : r = .ok ()) : c.initialized = true := by
  subst hr
  unfold KernelCache.compileKernels at h
  split at h
  · rename_i hi
    simp only [Prod.mk.injEq, true_and] at h
    rw [← h.1]; exact hi
  · repeat' split at h
    all_goals simp only [Prod.mk.injEq, reduceCtorEq, false_and, true_and] at h
    rw [← h.1]

namespace MatrixCL

variable {α : Type}

/-- With an initialized cache, `initializeKernels` does nothing. -/
theorem initializeKernels_of_initialized (cl : Driver) (context : Nat)
    (devices : List Nat) (w : World α) (k : KernelCache) (hk : w.kernels_ = some k)
    (hi : k.initialized = true) : initializeKernels cl context devices w = (.ok (), w) := by
  simp [initializeKernels, hk, hi]

/-- After a call of `initializeKernels` that does not raise, the cache exists and
is initialized. -/
theorem initialized_of_initializeKernels (cl : Driver) (context : Nat)
    (devices : List Nat) (w w1 : World α)
    (h : initializeKernels cl context devices w = (.ok (), w1)) :
    ∃ k, w1.kernels_ = some k ∧ k.initialized = true := by
  unfold initializeKernels at h
  split at h
  · rename_i hcond
    generalize hc : KernelCache.compileKernels cl context devices KernelCache.new w.builds
      = res at h
    obtain ⟨r, c, b⟩ := res
    simp only [Prod.mk.injEq] at h
    refine ⟨c, ?_, compileKernels_initialized cl context devices _ _ r c b hc h.1⟩
    rw [← h.2]
  · rename_i hcond
    simp only [Prod.mk.injEq, true_and] at h
    subst h
    cases hk : w.kernels_ with
    | none => simp [hk] at hcond
    | some k =>
      refine ⟨k, rfl, ?_⟩
      simpa [hk] using hcond

/-- Claim C29. If a call of `MatrixCL::initializeKernels` returns without raising
(every kernel is compiled, by this call or by an earlier one), the cache is
initialized, and every further call, with any context, any device list and
whatever the OpenCL implementation would answer, returns without raising and
leaves the whole state as it is: the kernel cache is unchanged and no program is
built. The same holds after any number of further calls. -/
theorem initializeKernels_idempotent (cl : Driver) (context : Nat) (devices : List Nat)
    (w w1 : World α) (h : initializeKernels cl context devices w = (.ok (), w1)) :
    (∃ k, w1.kernels_ = some k ∧ k.initialized = true) ∧
    (∀ (cl2 : Driver) (context2 : Nat) (devices2 : List Nat),
      initializeKernels cl2 context2 devices2 w1 = (.ok (), w1) ∧
      (initializeKernels cl2 context2 devices2 w1).2.kernels_ = w1.kernels_ ∧
      (initializeKernels cl2 context2 devices2 w1).2.builds = w1.builds) ∧
    (∀ calls : List (Driver × Nat × List Nat),
      calls.foldl (fun w c => (initializeKernels c.1 c.2.1 c.2.2 w).2) w1 = w1) := by
  obtain ⟨k, hk, hi⟩ := initialized_of_initializeKernels cl context devices w w1 h
  have hstep : ∀ (cl2 : Driver) (context2 : Nat) (devices2 : List Nat),
      initializeKernels cl2 context2 devices2 w1 = (.ok (), w1) :=
    fun cl2 context2 devices2 =>
      initializeKernels_of_initialized cl2 context2 devices2 w1 k hk hi
  refine ⟨⟨k, hk, hi⟩, ?_, ?_⟩
  · intro cl2 context2 devices2
    rw [hstep]
    exact ⟨rfl, rfl, rfl⟩
  · intro calls
    induction calls with
    | nil => rfl
    | cons c cs ih => rw [List.foldl_cons, hstep]; exact ih

end MatrixCL

theorem initializeKernels_idempotent_witness :
    ((MatrixCL.initializeKernels Driver.accepting 0 [0] (World.initial : World ℚ)).2.builds
      = [(0, .fill), (0, .add), (0, .sub_mul), (0, .transpose), (0, .matrix_mul),
          (0, .sigmoid), (0, .sigmoid_backward), (0, .bce_elementwise),
          (0, .bce_backward)]) ∧
    ((MatrixCL.initializeKernels Driver.accepting 7 [1]
        (MatrixCL.initializeKernels Driver.accepting 0 [0] (World.initial : World ℚ)).2).2.builds
      = (MatrixCL.initializeKernels Driver.accepting 0 [0] (World.initial : World ℚ)).2.builds) :=
  ⟨rfl,
    ((MatrixCL.initializeKernels_idempotent Driver.accepting 0 [0]
      (World.initial : World ℚ) _ rfl).2.1 Driver.accepting 7 [1]).2.2⟩

section Guards

variable {α : Type} [Ring α] [Div α] [Max α]

/-- Claim C30. `binary_cross_entropy_backward(predictions, targets)` raises
`std::invalid_argument` when the accumulator, the predictions and the targets do
not all have the same rows and the same cols, and `std::runtime_error` when they
have but do not all share the same context and the same command queue. In both
cases the state after the call is the state before it: no kernel has been enqueued
and the buffer of the accumulator, as every buffer, is unchanged. -/
theorem bce_backward_raises_on_mismatch (cl : Driver) (self predictions targets : MatrixCL)
    (w : World α) :
    (¬ (self.rows_ = predictions.rows_ ∧ self.cols_ = predictions.cols_ ∧
        self.rows_ = targets.rows_ ∧ self.cols_ = targets.cols_) →
      self.binary_cross_entropy_backward cl predictions targets w =
        (.error .invalid_argument, w)) ∧
    ((self.rows_ = predictions.rows_ ∧ self.cols_ = predictions.cols_ ∧
        self.rows_ = targets.rows_ ∧ self.cols_ = targets.cols_) →
      ¬ (self.context_ = predictions.context_ ∧ self.queue_ = predictions.queue_ ∧
        self.context_ = targets.context_ ∧ self.queue_ = targets.queue_) →
      self.binary_cross_entropy_backward cl predictions targets w =
        (.error .runtime_error, w)) ∧
    ((¬ (self.rows_ = predictions.rows_ ∧ self.cols_ = predictions.cols_ ∧
          self.rows_ = targets.rows_ ∧ self.cols_ = targets.cols_) ∨
        ¬ (self.context_ = predictions.context_ ∧ self.queue_ = predictions.queue_ ∧
          self.context_ = targets.context_ ∧ self.queue_ = targets.queue_)) →
      ∃ e, (self.binary_cross_entropy_backward cl predictions targets w).1 = .error e ∧
        (self.binary_cross_entropy_backward cl predictions targets w).2.enqueued =
          w.enqueued ∧
        (self.binary_cross_entropy_backward cl predictions targets w).2.buffers.getD
            self.buffer_ [] = w.buffers.getD self.buffer_ [] ∧
        (self.binary_cross_entropy_backward cl predictions targets w).2.buffers =
          w.buffers) := by
  have hshape : ¬ (self.rows_ = predictions.rows_ ∧ self.cols_ = predictions.cols_ ∧
        self.rows_ = targets.rows_ ∧ self.cols_ = targets.cols_) →
      self.binary_cross_entropy_backward cl predictions targets w =
        (.error .invalid_argument, w) := by
    intro hs
    have hs2 : self.rows_ ≠ predictions.numRows ∨ self.cols_ ≠ predictions.numCols ∨
        self.rows_ ≠ targets.numRows ∨ self.cols_ ≠ targets.numCols := by
      simp only [MatrixCL.numRows, MatrixCL.numCols]
      by_contra hcon
      simp only [not_or, not_not] at hcon
      exact hs ⟨hcon.1, hcon.2.1, hcon.2.2.1, hcon.2.2.2⟩
    unfold MatrixCL.binary_cross_entropy_backward
    rw [if_pos hs2]
  have hctx : (self.rows_ = predictions.rows_ ∧ self.cols_ = predictions.cols_ ∧
        self.rows_ = targets.rows_ ∧ self.cols_ = targets.cols_) →
      ¬ (self.context_ = predictions.context_ ∧ self.queue_ = predictions.queue_ ∧
        self.context_ = targets.context_ ∧ self.queue_ = targets.queue_) →
      self.binary_cross_entropy_backward cl predictions targets w =
        (.error .runtime_error, w) := by
    intro hs hc
    have hs2 : ¬ (self.rows_ ≠ predictions.numRows ∨ self.cols_ ≠ predictions.numCols ∨
        self.rows_ ≠ targets.numRows ∨ self.cols_ ≠ targets.numCols) := by
      simp only [MatrixCL.numRows, MatrixCL.numCols, not_or, not_not]
      exact hs
    have hc2 : self.context_ ≠ predictions.getContext ∨ self.queue_ ≠ predictions.getQueue ∨
        self.context_ ≠ targets.getContext ∨ self.queue_ ≠ targets.getQueue := by
      simp only [MatrixCL.getContext, MatrixCL.getQueue]
      by_contra hcon
      simp only [not_or, not_not] at hcon
      exact hc ⟨hcon.1, hcon.2.1, hcon.2.2.1, hcon.2.2.2⟩
    unfold MatrixCL.binary_cross_entropy_backward
    rw [if_neg hs2, if_pos hc2]
  refine ⟨hshape, hctx, ?_⟩
  intro h
  by_cases hs : self.rows_ = predictions.rows_ ∧ self.cols_ = predictions.cols_ ∧
        self.rows_ = targets.rows_ ∧ self.cols_ = targets.cols_
  · have hc : ¬ (self.context_ = predictions.context_ ∧ self.queue_ = predictions.queue_ ∧
        self.context_ = targets.context_ ∧ self.queue_ = targets.queue_) := by
      rcases h with h | h
      · exact absurd hs h
      · exact h
    rw [hctx hs hc]
    exact ⟨_, rfl, rfl, rfl, rfl⟩
  · rw [hshape hs]
    exact ⟨_, rfl, rfl, rfl, rfl⟩

end Guards

theorem bce_backward_raises_on_mismatch_witness :
    MatrixCL.binary_cross_entropy_backward Driver.accepting ⟨1, 4, 0, 0, 0⟩ ⟨1, 3, 0, 0, 1⟩
        ⟨1, 4, 0, 0, 2⟩
        (⟨none, [], [[0, 0, 0, 0], [1 / 2, 1 / 2, 1 / 2], [1, 0, 1, 0]], []⟩ : World ℚ) =
      (.error .invalid_argument,
        ⟨none, [], [[0, 0, 0, 0], [1 / 2, 1 / 2, 1 / 2], [1, 0, 1, 0]], []⟩) ∧
    MatrixCL.binary_cross_entropy_backward Driver.accepting ⟨1, 4, 0, 0, 0⟩ ⟨1, 4, 0, 5, 1⟩
        ⟨1, 4, 0, 0, 2⟩
        (⟨none, [], [[0, 0, 0, 0], [1 / 2, 1 / 2, 1 / 2, 1 / 2], [1, 0, 1, 0]], []⟩ : World ℚ) =
      (.error .runtime_error,
        ⟨none, [], [[0, 0, 0, 0], [1 / 2, 1 / 2, 1 / 2, 1 / 2], [1, 0, 1, 0]], []⟩) :=
  ⟨(bce_backward_raises_on_mismatch Driver.accepting ⟨1, 4, 0, 0, 0⟩ ⟨1, 3, 0, 0, 1⟩
      ⟨1, 4, 0, 0, 2⟩ _).1 (by decide),
    (bce_backward_raises_on_mismatch Driver.accepting ⟨1, 4, 0, 0, 0⟩ ⟨1, 4, 0, 5, 1⟩
      ⟨1, 4, 0, 0, 2⟩ _).2.1 (by decide) (by decide)⟩

end P3

/-! ## The distributed matrix against its tests -/

namespace P2

/-- Claim C21, code as written. For `P = 2` processes `testColumnDistribution` builds
the `3 × 5` matrix (`C = 2P + 1`). The local data has `3` rows on both ranks; rank
`0` holds `2` columns where the test asserts `⌊5/2⌋ + 1 = 3`, and rank `1` holds
`3` columns where the test asserts `⌊5/2⌋ = 2`: the constructor gives the extra
column to the last rank, the claim and the test to the first. -/
theorem ofMatrix_extra_column_on_last_rank :
    (DistributedMatrix.ofMatrix ⟨0, 2⟩ (testColumnsMatrix 2) 2).getLocalData.numRows = 3 ∧
    (DistributedMatrix.ofMatrix ⟨1, 2⟩ (testColumnsMatrix 2) 2).getLocalData.numRows = 3 ∧
    (DistributedMatrix.ofMatrix ⟨0, 2⟩ (testColumnsMatrix 2) 2).getLocalData.numCols = 2 ∧
    expectedLocalCols (testColumnsMatrix 2).numCols 2 0 = 3 ∧
    (DistributedMatrix.ofMatrix ⟨1, 2⟩ (testColumnsMatrix 2) 2).getLocalData.numCols = 3 ∧
    expectedLocalCols (testColumnsMatrix 2).numCols 2 1 = 2 := by
  decide

/-- Claim C22, code as written. For the `3 × 4` matrix of `testConstructorAndBasics`
over `P = 2` processes, `numRows()` is `3` on both ranks and `numCols()` is `2`,
the local column count, on both ranks, where the test asserts the global column
count `4`. -/
theorem numCols_returns_local_count :
    testBasicsMatrix.numRows = 3 ∧ testBasicsMatrix.numCols = 4 ∧
    (DistributedMatrix.ofMatrix ⟨0, 2⟩ testBasicsMatrix 2).numRows = 3 ∧
    (DistributedMatrix.ofMatrix ⟨1, 2⟩ testBasicsMatrix 2).numRows = 3 ∧
    (DistributedMatrix.ofMatrix ⟨0, 2⟩ testBasicsMatrix 2).numCols = 2 ∧
    (DistributedMatrix.ofMatrix ⟨1, 2⟩ testBasicsMatrix 2).numCols = 2 ∧
    (DistributedMatrix.ofMatrix ⟨0, 2⟩ testBasicsMatrix 2).globalCols = 4 := by
  decide

/-- Claim C23. For every distributed matrix, `localColIndex(globalColIndex(j)) = j`
for every local column index `0 ≤ j < localCols`; and for every global index `g`,
`localColIndex(g)` is `-1` exactly when `g < startCol` or `g ≥ startCol + localCols`,
and `g - startCol` otherwise. -/
theorem localColIndex_globalColIndex {α : Type} (d : DistributedMatrix α) :
    (∀ j : Int, 0 ≤ j → j < d.localCols → d.localColIndex (d.globalColIndex j) = j) ∧
    (∀ g : Int,
      (d.localColIndex g = -1 ↔ (g < d.startCol ∨ g ≥ d.startCol + d.localCols)) ∧
      (¬ (g < d.startCol ∨ g ≥ d.startCol + d.localCols) →
        d.localColIndex g = g - d.startCol)) := by
  refine ⟨?_, ?_⟩
  · intro j h0 h1
    unfold DistributedMatrix.localColIndex DistributedMatrix.globalColIndex
    rw [if_neg (by omega)]
    omega
  · intro g
    unfold DistributedMatrix.localColIndex
    refine ⟨⟨?_, ?_⟩, ?_⟩
    · intro h
      by_contra hcon
      rw [if_neg hcon] at h
      omega
    · intro h
      rw [if_pos h]
    · intro h
      rw [if_neg h]

theorem localColIndex_globalColIndex_witness :
    (DistributedMatrix.ofMatrix ⟨1, 2⟩ twoByFour 2).localColIndex
        ((DistributedMatrix.ofMatrix ⟨1, 2⟩ twoByFour 2).globalColIndex 1) = 1 ∧
    (DistributedMatrix.ofMatrix ⟨1, 2⟩ twoByFour 2).globalColIndex 1 = 3 ∧
    (DistributedMatrix.ofMatrix ⟨1, 2⟩ twoByFour 2).localColIndex 1 = -1 :=
  ⟨(localColIndex_globalColIndex (DistributedMatrix.ofMatrix ⟨1, 2⟩ twoByFour 2)).1 1
      (by decide) (by decide),
    by decide,
    ((localColIndex_globalColIndex (DistributedMatrix.ofMatrix ⟨1, 2⟩ twoByFour 2)).2 1).1.2
      (by decide)⟩

/-- Claim C24, code as written. `multiplyTransposed` yields no matrix, whatever its
operands: its body allocates a buffer and ends. For the `3 × 5` and `4 × 5`
matrices of `testMultiplyTransposed`, on one process, the call yields nothing
where the test asserts the `3 × 4` product `matrix1Full * matrix2Full.transpose()`. -/
theorem multiplyTransposed_yields_nothing :
    (∀ A B : DistributedMatrix ℤ, A.multiplyTransposed B = none) ∧
    (DistributedMatrix.ofMatrix ⟨0, 1⟩ matrix1Full 1).multiplyTransposed
        (DistributedMatrix.ofMatrix ⟨0, 1⟩ matrix2Full 1) = none ∧
    matrix1Full.mul matrix2Full.transpose =
      ⟨3, 4, [70, 145, 220, 295, 170, 370, 570, 770, 270, 595, 920, 1245]⟩ :=
  ⟨fun _ _ => rfl, rfl, by decide⟩

/-- Claim C35, code as written. The `2 × 4` matrix `M[i][j] = 10 i + j` is distributed
over `P = 2` processes and a `Node` is constructed from the object `D` of each
rank. On rank `0`, `D` has the global shape `2 × 4`, `localCols = 2` and
`startCol = 0`, and the gradient is the zero matrix of global shape `2 × 2` with
`localCols = 1`, `startCol = 0`; on rank `1`, `D` has `startCol = 2` and the
gradient has `startCol = 1`. The local slice of the gradient is `2 × 1`, that of
the value `2 × 2`. -/
theorem ofDistributed_grads_shape_differs :
    (Node.ofDistributed ⟨0, 2⟩ ⟨[], [], []⟩ (DistributedMatrix.ofMatrix ⟨0, 2⟩ twoByFour 2)).1.mats =
      [.distributed ⟨2, 4, 2, 0, 2, 0, ⟨2, 2, [0, 1, 10, 11]⟩⟩,
       .distributed ⟨2, 2, 1, 0, 2, 0, ⟨2, 1, [0, 0]⟩⟩] ∧
    (Node.ofDistributed ⟨1, 2⟩ ⟨[], [], []⟩ (DistributedMatrix.ofMatrix ⟨1, 2⟩ twoByFour 2)).1.mats =
      [.distributed ⟨2, 4, 2, 2, 2, 1, ⟨2, 2, [2, 3, 12, 13]⟩⟩,
       .distributed ⟨2, 2, 1, 1, 2, 1, ⟨2, 1, [0, 0]⟩⟩] ∧
    (Node.ofDistributed ⟨0, 2⟩ ⟨[], [], []⟩ (DistributedMatrix.ofMatrix ⟨0, 2⟩ twoByFour 2)).1.nodes.map
        (fun n => (n.rows, n.cols, n.values, n.grads)) = [(2, 2, 0, 1)] := by
  decide

/-- Claim C39, code as written. For `C = 1` column over `P = 2` processes,
`⌊C/P⌋ = 0`, and `ownerProcess(0)` divides by `globalCols / numProcesses = 0`: the
call has no value, on either rank. The column `0` is held by rank `1`. -/
theorem ownerProcess_divides_by_zero :
    (DistributedMatrix.ofMatrix ⟨0, 2⟩ (⟨1, 1, [7]⟩ : Matrix ℤ) 2).globalCols = 1 ∧
    (DistributedMatrix.ofMatrix ⟨0, 2⟩ (⟨1, 1, [7]⟩ : Matrix ℤ) 2).numProcesses = 2 ∧
    (DistributedMatrix.ofMatrix ⟨0, 2⟩ (⟨1, 1, [7]⟩ : Matrix ℤ) 2).globalCols.tdiv
      (DistributedMatrix.ofMatrix ⟨0, 2⟩ (⟨1, 1, [7]⟩ : Matrix ℤ) 2).numProcesses = 0 ∧
    (DistributedMatrix.ofMatrix ⟨0, 2⟩ (⟨1, 1, [7]⟩ : Matrix ℤ) 2).ownerProcess 0 = none ∧
    (DistributedMatrix.ofMatrix ⟨1, 2⟩ (⟨1, 1, [7]⟩ : Matrix ℤ) 2).ownerProcess 0 = none ∧
    (DistributedMatrix.ofMatrix ⟨1, 2⟩ (⟨1, 1, [7]⟩ : Matrix ℤ) 2).localColIndex 0 = 0 := by
  decide

end P2

/-! ## The subtraction node and the arena -/

namespace P1

/-- Claim C36, code as written. For the `1 × 2` leaves `A = [1, 2]` and `B = [3, 4]`,
the node `C = A - B` has the value `[-2, -2]`. With `A.grad = [0, 0]`,
`B.grad = [10, 20]` and `dC = [5, 7]`, the backward closure of `C` leaves
`A.grad = [5, 7]` and `B.grad = [15, 27]`, that is `B.grad + dC`, where the
vector-Jacobian product of `A - B` gives `B.grad - dC = [5, 13]`. -/
theorem sub_backward_adds_to_both :
    ∃ s1 C op t',
      Node.sub (twoLeaves ⟨1, 2, [1, 2]⟩ ⟨1, 2, [3, 4]⟩) 0 1 = .ok (s1, 2) ∧
      s1.nodes[2]? = some C ∧ s1.getMat C.values = ⟨1, 2, [-2, -2]⟩ ∧
      C.backward_op = some op ∧
      op.run ((s1.setMat 3 ⟨1, 2, [10, 20]⟩).setMat 5 ⟨1, 2, [5, 7]⟩) = some t' ∧
      t'.getMat 1 = ⟨1, 2, [5, 7]⟩ ∧
      t'.getMat 3 = ⟨1, 2, [15, 27]⟩ ∧
      Matrix.sub ⟨1, 2, [10, 20]⟩ ⟨1, 2, [5, 7]⟩ = (⟨1, 2, [5, 13]⟩ : Matrix ℤ) ∧
      t'.getMat 3 ≠ Matrix.sub ⟨1, 2, [10, 20]⟩ ⟨1, 2, [5, 7]⟩ :=
  ⟨_, _, _, _, rfl, rfl, by decide, rfl, rfl, by decide, by decide, by decide, by decide⟩

section Arena

variable {α : Type} [Ring α] [Div α]

/-- Claim C34. Each operator constructor (`*`, `+`, `-`, `apply` with or without a
derivative, `transpose`, `binary_cross_entropy`) that returns appends one pointer
to the arena `all_nodes`, the pointer that it returns, which is that of a new node,
and leaves the earlier entries as they are; the `Node` constructors (from a shape,
from a matrix, by copy) leave the arena as it is; and after `clear_nodes()` the
arena is empty. -/
theorem arena_grows_by_returned_node (s : State α) :
    (∀ a b s1 r, Node.mul s a b = .ok (s1, r) →
      s1.all_nodes = s.all_nodes ++ [r] ∧ r = s.freshNode) ∧
    (∀ a b s1 r, Node.add s a b = .ok (s1, r) →
      s1.all_nodes = s.all_nodes ++ [r] ∧ r = s.freshNode) ∧
    (∀ a b s1 r, Node.sub s a b = .ok (s1, r) →
      s1.all_nodes = s.all_nodes ++ [r] ∧ r = s.freshNode) ∧
    (∀ a (f : α → α) (fd : Option (α → α)) s1 r, Node.apply s a f fd = .ok (s1, r) →
      s1.all_nodes = s.all_nodes ++ [r] ∧ r = s.freshNode) ∧
    (∀ a s1 r, Node.transpose s a = .ok (s1, r) →
      s1.all_nodes = s.all_nodes ++ [r] ∧ r = s.freshNode) ∧
    (∀ (log : α → α) p q s1 r, binary_cross_entropy log s p q = .ok (s1, r) →
      s1.all_nodes = s.all_nodes ++ [r] ∧ r = s.freshNode) ∧
    (∀ m n, (Node.new s m n).1.all_nodes = s.all_nodes) ∧
    (∀ M : Matrix α, (Node.ofMatrix s M).1.all_nodes = s.all_nodes) ∧
    (∀ o s1 r, Node.copy s o = .ok (s1, r) → s1.all_nodes = s.all_nodes) ∧
    (clear_nodes s).all_nodes = [] := by
  refine ⟨?_, ?_, ?_, ?_, ?_, ?_, ?_, ?_, ?_, rfl⟩
  · intro a b s1 r h
    cases ha : s.nodes[a]? with
    | none => simp [Node.mul, ha] at h
    | some A =>
      cases hb : s.nodes[b]? with
      | none => simp [Node.mul, ha, hb] at h
      | some B =>
        by_cases hd : A.cols = B.rows
        · rw [Node.mul_eq s a b A B ha hb hd] at h
          simp only [Except.ok.injEq, Prod.mk.injEq] at h
          obtain ⟨h1, h2⟩ := h
          subst h1 h2
          exact ⟨rfl, rfl⟩
        · have herr : Node.mul s a b = .error .invalid_argument := by
            simp only [Node.mul, ha, hb]
            rw [if_pos (by simpa [not_and_or] using hd)]
          rw [herr] at h
          cases h
  · intro a b s1 r h
    cases ha : s.nodes[a]? with
    | none => simp [Node.add, ha] at h
    | some A =>
      cases hb : s.nodes[b]? with
      | none => simp [Node.add, ha, hb] at h
      | some B =>
        by_cases hd : A.rows = B.rows ∧ A.cols = B.cols
        · rw [Node.add_eq s a b A B ha hb hd.1 hd.2] at h
          simp only [Except.ok.injEq, Prod.mk.injEq] at h
          obtain ⟨h1, h2⟩ := h
          subst h1 h2
          exact ⟨rfl, rfl⟩
        · have herr : Node.add s a b = .error .invalid_argument := by
            simp only [Node.add, ha, hb]
            rw [if_pos (not_and_or.1 hd)]
          rw [herr] at h
          cases h
  · intro a b s1 r h
    cases ha : s.nodes[a]? with
    | none => simp [Node.sub, ha] at h
    | some A =>
      cases hb : s.nodes[b]? with
      | none => simp [Node.sub, ha, hb] at h
      | some B =>
        by_cases hd : A.rows = B.rows ∧ A.cols = B.cols
        · rw [Node.sub_eq s a b A B ha hb hd.1 hd.2] at h
          simp only [Except.ok.injEq, Prod.mk.injEq] at h
          obtain ⟨h1, h2⟩ := h
          subst h1 h2
          exact ⟨rfl, rfl⟩
        · have herr : Node.sub s a b = .error .invalid_argument := by
            simp only [Node.sub, ha, hb]
            rw [if_pos (not_and_or.1 hd)]
          rw [herr] at h
          cases h
  · intro a f fd s1 r h
    cases ha : s.nodes[a]? with
    | none => simp [Node.apply, ha] at h
    | some A =>
      cases fd with
      | none =>
        rw [Node.apply_eq_none s a A f ha] at h
        simp only [Except.ok.injEq, Prod.mk.injEq] at h
        obtain ⟨h1, h2⟩ := h
        subst h1 h2
        exact ⟨rfl, rfl⟩
      | some fd =>
        rw [Node.apply_eq_some s a A f fd ha] at h
        simp only [Except.ok.injEq, Prod.mk.injEq] at h
        obtain ⟨h1, h2⟩ := h
        subst h1 h2
        exact ⟨rfl, rfl⟩
  · intro a s1 r h
    cases ha : s.nodes[a]? with
    | none => simp [Node.transpose, ha] at h
    | some A =>
      rw [Node.transpose_eq s a A ha] at h
      simp only [Except.ok.injEq, Prod.mk.injEq] at h
      obtain ⟨h1, h2⟩ := h
      subst h1 h2
      exact ⟨rfl, rfl⟩
  · intro log p q s1 r h
    cases hp : s.nodes[p]? with
    | none => simp [binary_cross_entropy, hp] at h
    | some P =>
      cases hq : s.nodes[q]? with
      | none => simp [binary_cross_entropy, hp, hq] at h
      | some T =>
        by_cases hd : P.rows = T.rows ∧ P.cols = T.cols
        · rw [binary_cross_entropy_eq log s p q P T hp hq hd.1 hd.2] at h
          simp only [Except.ok.injEq, Prod.mk.injEq] at h
          obtain ⟨h1, h2⟩ := h
          subst h1 h2
          exact ⟨rfl, rfl⟩
        · have herr : binary_cross_entropy log s p q = .error .invalid_argument := by
            simp only [binary_cross_entropy, hp, hq]
            rw [if_pos (not_and_or.1 hd)]
          rw [herr] at h
          cases h
  · intro m n
    rw [new_eq]
  · intro M
    rw [Node.ofMatrix_eq]
  · intro o s1 r h
    cases ho : s.nodes[o]? with
    | none => simp [Node.copy, ho] at h
    | some O =>
      simp only [Node.copy, ho, State.allocNode, Except.ok.injEq, Prod.mk.injEq] at h
      rw [← h.1]

theorem arena_grows_by_returned_node_witness :
    ∃ s1, Node.add (twoLeaves ⟨1, 2, [1, 2]⟩ ⟨1, 2, [3, 4]⟩) 0 1 = .ok (s1, 2) ∧
      s1.all_nodes = [2] :=
  ⟨_, rfl, ((arena_grows_by_returned_node (twoLeaves ⟨1, 2, [1, 2]⟩ ⟨1, 2, [3, 4]⟩)).2.1
    0 1 _ 2 rfl).1⟩

end Arena

end P1

/-! ## The kernel of the cross-entropy gradient -/

namespace P3

theorem toSizeT_natCast (n : Nat) (h : n < 2 ^ 64) : toSizeT (n : Int) = n := by
  unfold toSizeT
  have h1 : ((n : Int) % 2 ^ 64) = (n : Int) :=
    Int.emod_eq_of_lt (by omega) (by exact_mod_cast h)
  rw [h1, Int.toNat_natCast]

section Buffers

variable {β : Type}

theorem getD_set_self (b : List (List β)) (a : Nat) (L : List β) (ha : a < b.length) :
    (b.set a L).getD a [] = L := by
  rw [List.getD_eq_getElem?_getD, List.getElem?_set_self ha]
  rfl

theorem getD_set_ne (b : List (List β)) (a q : Nat) (L : List β) (hq : a ≠ q) :
    (b.set a L).getD q [] = b.getD q [] := by
  rw [List.getD_eq_getElem?_getD, List.getD_eq_getElem?_getD, List.getElem?_set_ne hq]

theorem set_getD_self (b : List (List β)) (a : Nat) (ha : a < b.length) :
    b.set a (b.getD a []) = b := by
  apply List.ext_getElem?
  intro k
  by_cases hk : a = k
  · subst hk
    rw [List.getElem?_set_self ha, List.getD_eq_getElem _ _ ha]
    exact (List.getElem?_eq_getElem ha).symm
  · rw [List.getElem?_set_ne hk]

end Buffers

section Kernel

variable {α : Type} [LinearOrderedField α]

/-- The work items `0, ..., n - 1` of an elementwise update of a buffer of `N`
elements, for `n ≤ N`. -/
theorem forLoop_items (N : Nat) (h : Nat → α → α) (L0 : List α) (hL : L0.length = N)
    (n : Nat) (hn : n ≤ N) (guard : Nat → Prop) [DecidablePred guard]
    (hguard : ∀ i, i < N → guard i) :
    (forLoop n (fun idx L => if guard idx then L.set idx (h idx (L.getD idx 0)) else L)
        L0).length = N ∧
    ∀ k, (forLoop n (fun idx L => if guard idx then L.set idx (h idx (L.getD idx 0)) else L)
        L0).getD k 0 = if k < n then h k (L0.getD k 0) else L0.getD k 0 := by
  have hcongr : forLoop n
      (fun idx L => if guard idx then L.set idx (h idx (L.getD idx 0)) else L) L0 =
      forLoop n (fun idx L => L.set idx (h idx (L.getD idx 0))) L0 := by
    apply forLoop_congr
    intro i hi x
    rw [if_pos (hguard i (Nat.lt_of_lt_of_le hi hn))]
  rw [hcongr]
  have hfold : forLoop n (fun idx L => L.set idx (h idx (L.getD idx 0))) L0 =
      (List.range n).foldl (fun acc x => acc.set (id x) (h x (acc.getD (id x) 0))) L0 := rfl
  rw [hfold]
  refine ⟨?_, ?_⟩
  · rw [foldl_update_length, hL]
  · intro k
    by_cases hk : k < n
    · rw [if_pos hk]
      exact foldl_update_getD_of_mem id h (List.range n) L0
        (by rw [List.map_id]; exact List.nodup_range n) k (List.mem_range.2 hk)
        (by rw [hL]; exact Nat.lt_of_lt_of_le hk hn)
    · rw [if_neg hk]
      apply foldl_update_getD_of_not_mem id h (List.range n) L0 k
      intro x hx hxk
      rw [List.mem_range] at hx
      exact hk (by rw [← hxk]; exact hx)

/-- The `n` work items of `bce_backward` on the memory `b`, the accumulator being a
buffer other than the predictions and the targets. -/
theorem runKernel_bce (acc pred targ : Nat) (r c : Nat) (epsilon inv : α)
    (b : List (List α)) (hacc : acc < b.length) (hp : acc ≠ pred) (ht : acc ≠ targ)
    (n : Nat) :
    forLoop n (fun idx buffers =>
        bce_backward acc pred targ (r : Int) (c : Int) epsilon inv idx buffers) b =
      b.set acc (forLoop n (fun idx L =>
        if (idx : Int) < (r : Int) * (c : Int) then
          L.set idx ((fun idx x => x + inv *
            -((b.getD targ []).getD idx 0 / max ((b.getD pred []).getD idx 0 + epsilon) epsilon -
              (1 - (b.getD targ []).getD idx 0) /
                max (1 - (b.getD pred []).getD idx 0 + epsilon) epsilon)) idx (L.getD idx 0))
        else L) (b.getD acc [])) := by
  have h := forLoop_embed (fun L => b.set acc L) n
    (fun idx L =>
        if (idx : Int) < (r : Int) * (c : Int) then
          L.set idx ((fun idx x => x + inv *
            -((b.getD targ []).getD idx 0 / max ((b.getD pred []).getD idx 0 + epsilon) epsilon -
              (1 - (b.getD targ []).getD idx 0) /
                max (1 - (b.getD pred []).getD idx 0 + epsilon) epsilon)) idx (L.getD idx 0))
        else L)
    (fun idx buffers =>
        bce_backward acc pred targ (r : Int) (c : Int) epsilon inv idx buffers)
    ?_ (b.getD acc [])
  · rw [set_getD_self b acc hacc] at h
    exact h
  · intro idx L
    unfold bce_backward
    simp only [getD_set_self b acc L hacc, getD_set_ne b acc pred L hp,
      getD_set_ne b acc targ L ht, List.set_set]
    split <;> rfl

/-- Claim C31. Let the accumulator, the predictions and the targets be `r × c` with
`N = r * c`, `0 < N < 2 ^ 31`, on the same context and queue, in three buffers of
which the first differs from the other two and holds `N` elements, with every
prediction in `[0, 1]`; let the cache hold the kernel `bce_backward` and the
dispatch not raise. Then `binary_cross_entropy_backward` returns, enqueues that
kernel with `N` work items, and (exact arithmetic, `ε = 1 / 10 ^ 8`) entry `k < N`
of the accumulator becomes its old value plus
`(1 / N) * (-t / (p + ε) + (1 - t) / (1 - p + ε))` for the entries `p`, `t` of index
`k` of the predictions and targets; the accumulator keeps its `N` elements, the
predictions and the targets are unchanged, and a work item of index `≥ N` leaves
the memory as it is. -/
theorem bce_backward_kernel_adds_mean_gradient (cl : Driver)
    (self predictions targets : MatrixCL) (w : World α) (kernels : KernelCache)
    (context r c : Nat)
    (hk : w.kernels_ = some kernels)
    (hkb : kernels.kernel_bce_backward = some ⟨⟨context, .bce_backward⟩, .bce_backward⟩)
    (hd : cl.dispatch self.queue_ ⟨⟨context, .bce_backward⟩, .bce_backward⟩ (r * c) = none)
    (hs : self.rows_ = r ∧ self.cols_ = c)
    (hp : predictions.rows_ = r ∧ predictions.cols_ = c)
    (ht : targets.rows_ = r ∧ targets.cols_ = c)
    (hctx : self.context_ = predictions.context_ ∧ self.queue_ = predictions.queue_ ∧
      self.context_ = targets.context_ ∧ self.queue_ = targets.queue_)
    (hN : 0 < r * c) (hint : r * c < 2 ^ 31)
    (hacc : self.buffer_ < w.buffers.length)
    (hlen : (w.buffers.getD self.buffer_ []).length = r * c)
    (hne1 : self.buffer_ ≠ predictions.buffer_) (hne2 : self.buffer_ ≠ targets.buffer_)
    (hrange : ∀ k, k < r * c →
      0 ≤ (w.buffers.getD predictions.buffer_ []).getD k 0 ∧
      (w.buffers.getD predictions.buffer_ []).getD k 0 ≤ 1) :
    ∃ w1, self.binary_cross_entropy_backward cl predictions targets w = (.ok (), w1) ∧
      w1.enqueued = w.enqueued ++
        [(self.queue_, ⟨⟨context, .bce_backward⟩, .bce_backward⟩, r * c)] ∧
      (∀ k, k < r * c →
        (w1.buffers.getD self.buffer_ []).getD k 0 =
          (w.buffers.getD self.buffer_ []).getD k 0 +
            (1 / ((r * c : Nat) : α)) *
              ((-(w.buffers.getD targets.buffer_ []).getD k 0) /
                  ((w.buffers.getD predictions.buffer_ []).getD k 0 + 1 / 10 ^ 8) +
                (1 - (w.buffers.getD targets.buffer_ []).getD k 0) /
                  (1 - (w.buffers.getD predictions.buffer_ []).getD k 0 + 1 / 10 ^ 8))) ∧
      (w1.buffers.getD self.buffer_ []).length = r * c ∧
      w1.buffers.getD predictions.buffer_ [] = w.buffers.getD predictions.buffer_ [] ∧
      w1.buffers.getD targets.buffer_ [] = w.buffers.getD targets.buffer_ [] ∧
      (∀ idx, r * c ≤ idx → ∀ b : List (List α),
        bce_backward self.buffer_ predictions.buffer_ targets.buffer_ (r : Int) (c : Int)
          (1 / 10 ^ 8 : α) (1 / ((r * c : Nat) : α)) idx b = b) := by
  have hr0 : 0 < r := Nat.pos_of_ne_zero (by rintro rfl; simp at hN)
  have hc0 : 0 < c := Nat.pos_of_ne_zero (by rintro rfl; simp at hN)
  have hrle : r ≤ r * c := Nat.le_mul_of_pos_right r hc0
  have hcle : c ≤ r * c := Nat.le_mul_of_pos_left c hr0
  have hnum : (toSizeT (r : Int) * toSizeT (c : Int)) % 2 ^ 64 = r * c := by
    rw [toSizeT_natCast r (by omega), toSizeT_natCast c (by omega)]
    exact Nat.mod_eq_of_lt (by omega)
  have hshape : ¬ (self.rows_ ≠ predictions.numRows ∨ self.cols_ ≠ predictions.numCols ∨
      self.rows_ ≠ targets.numRows ∨ self.cols_ ≠ targets.numCols) := by
    simp only [MatrixCL.numRows, MatrixCL.numCols, not_or, not_not]
    exact ⟨hs.1.trans hp.1.symm, hs.2.trans hp.2.symm, hs.1.trans ht.1.symm,
      hs.2.trans ht.2.symm⟩
  have hcx : ¬ (self.context_ ≠ predictions.getContext ∨ self.queue_ ≠ predictions.getQueue ∨
      self.context_ ≠ targets.getContext ∨ self.queue_ ≠ targets.getQueue) := by
    simp only [MatrixCL.getContext, MatrixCL.getQueue, not_or, not_not]
    exact hctx
  have hguard : ∀ i, i < r * c → (i : Int) < (r : Int) * (c : Int) := by
    intro i hi
    rw [← Nat.cast_mul]
    exact_mod_cast hi
  have hrun : self.binary_cross_entropy_backward cl predictions targets w =
      (.ok (),
        { w with
          buffers := runKernel ⟨⟨context, .bce_backward⟩, .bce_backward⟩ self.buffer_
            predictions.buffer_ targets.buffer_ (r : Int) (c : Int) (1 / 10 ^ 8)
            (1 / ((r * c : Nat) : α)) (r * c) w.buffers
          enqueued := w.enqueued ++
            [(self.queue_, ⟨⟨context, .bce_backward⟩, .bce_backward⟩, r * c)] }) := by
    unfold MatrixCL.binary_cross_entropy_backward
    rw [if_neg hshape, if_neg hcx]
    simp only [hs.1, hs.2, hnum, hk, hkb, hd, Nat.ne_of_gt hN, if_false, MatrixCL.getBuffer]
  have hker : runKernel ⟨⟨context, .bce_backward⟩, .bce_backward⟩ self.buffer_
      predictions.buffer_ targets.buffer_ (r : Int) (c : Int) (1 / 10 ^ 8 : α)
      (1 / ((r * c : Nat) : α)) (r * c) w.buffers =
      w.buffers.set self.buffer_ (forLoop (r * c) (fun idx L =>
        if (idx : Int) < (r : Int) * (c : Int) then
          L.set idx ((fun idx x => x + (1 / ((r * c : Nat) : α)) *
            -((w.buffers.getD targets.buffer_ []).getD idx 0 /
                max ((w.buffers.getD predictions.buffer_ []).getD idx 0 + 1 / 10 ^ 8)
                  (1 / 10 ^ 8) -
              (1 - (w.buffers.getD targets.buffer_ []).getD idx 0) /
                max (1 - (w.buffers.getD predictions.buffer_ []).getD idx 0 + 1 / 10 ^ 8)
                  (1 / 10 ^ 8))) idx (L.getD idx 0))
        else L) (w.buffers.getD self.buffer_ [])) := by
    unfold runKernel
    rw [if_pos ⟨rfl, rfl⟩]
    exact runKernel_bce self.buffer_ predictions.buffer_ targets.buffer_ r c _ _ w.buffers
      hacc hne1 hne2 (r * c)
  obtain ⟨hlen1, hget⟩ := forLoop_items (r * c)
    (fun idx x => x + (1 / ((r * c : Nat) : α)) *
      -((w.buffers.getD targets.buffer_ []).getD idx 0 /
          max ((w.buffers.getD predictions.buffer_ []).getD idx 0 + 1 / 10 ^ 8)
            (1 / 10 ^ 8) -
        (1 - (w.buffers.getD targets.buffer_ []).getD idx 0) /
          max (1 - (w.buffers.getD predictions.buffer_ []).getD idx 0 + 1 / 10 ^ 8)
            (1 / 10 ^ 8)))
    (w.buffers.getD self.buffer_ []) hlen (r * c) (Nat.le_refl _)
    (fun idx => (idx : Int) < (r : Int) * (c : Int)) hguard
  have heps : (0 : α) ≤ 1 / 10 ^ 8 := by positivity
  refine ⟨_, hrun, rfl, ?_, ?_, ?_, ?_, ?_⟩
  · intro k hk1
    dsimp only
    rw [hker, getD_set_self _ _ _ hacc, hget k, if_pos hk1]
    have h0 := (hrange k hk1).1
    have h1 := (hrange k hk1).2
    rw [max_eq_left (by linarith), max_eq_left (by linarith)]
    ring
  · dsimp only
    rw [hker, getD_set_self _ _ _ hacc]
    exact hlen1
  · dsimp only
    rw [hker, getD_set_ne _ _ _ _ hne1]
  · dsimp only
    rw [hker, getD_set_ne _ _ _ _ hne2]
  · intro idx hidx b
    unfold bce_backward
    have hng : ¬ ((idx : Int) < (r : Int) * (c : Int)) := by
      rw [← Nat.cast_mul]
      exact_mod_cast Nat.not_lt.2 hidx
    simp only [hng, if_false]

end Kernel

theorem bce_backward_kernel_adds_mean_gradient_witness :
    ∃ w1, MatrixCL.binary_cross_entropy_backward Driver.accepting ⟨1, 4, 0, 0, 0⟩
        ⟨1, 4, 0, 0, 1⟩ ⟨1, 4, 0, 0, 2⟩ bceTestWorld = (.ok (), w1) ∧
      (w1.buffers.getD 0 []).getD 0 0 = 25000000 / 90000001 ∧
      (w1.buffers.getD 0 []).getD 1 0 = -25000000 / 80000001 := by
  have hb : bceTestWorld.buffers =
      [[0, 0, 0, 0], [1 / 10, 8 / 10, 3 / 10, 9 / 10], [0, 1, 0, 1]] := rfl
  obtain ⟨w1, h, _, hget, _⟩ := bce_backward_kernel_adds_mean_gradient Driver.accepting
    ⟨1, 4, 0, 0, 0⟩ ⟨1, 4, 0, 0, 1⟩ ⟨1, 4, 0, 0, 2⟩ bceTestWorld _ 0 1 4 rfl rfl rfl
    ⟨rfl, rfl⟩ ⟨rfl, rfl⟩ ⟨rfl, rfl⟩ ⟨rfl, rfl, rfl, rfl⟩ (by decide) (by decide)
    (by decide) rfl (by decide) (by decide)
    (by
      intro k hk
      rw [hb]
      interval_cases k <;> norm_num)
  refine ⟨w1, h, ?_, ?_⟩
  · rw [hget 0 (by decide), hb]
    norm_num
  · rw [hget 1 (by decide), hb]
    norm_num

end P3

/-! ## The logistic function -/

namespace P1

/-- Claim C32. For every real `x`, `sigmoid_derivative(x)` is `σ(x) * (1 - σ(x))` for
`σ(x) = 1 / (1 + e^(-x))`, the value of `sigmoid` at the same `x`, and it is the
derivative of the function `sigmoid` at `x`. -/
theorem sigmoid_derivative_is_derivative (x : ℝ) :
    sigmoid_derivative Real.exp x =
      (1 / (1 + Real.exp (-x))) * (1 - 1 / (1 + Real.exp (-x))) ∧
    sigmoid_derivative Real.exp x = sigmoid Real.exp x * (1 - sigmoid Real.exp x) ∧
    HasDerivAt (sigmoid Real.exp) (sigmoid_derivative Real.exp x) x := by
  refine ⟨rfl, rfl, ?_⟩
  have hpos : (1 + Real.exp (-x)) ≠ 0 := by
    have := Real.exp_pos (-x)
    linarith
  have h1 : HasDerivAt (fun y : ℝ => Real.exp (-y)) (Real.exp (-x) * (-1)) x :=
    (hasDerivAt_neg x).exp
  have h2 : HasDerivAt (fun y : ℝ => 1 + Real.exp (-y)) (Real.exp (-x) * (-1)) x :=
    h1.const_add 1
  have h3 := (hasDerivAt_const x (1 : ℝ)).div h2 hpos
  have heq : sigmoid_derivative Real.exp x =
      (0 * (1 + Real.exp (-x)) - 1 * (Real.exp (-x) * (-1))) / (1 + Real.exp (-x)) ^ 2 := by
    simp only [sigmoid_derivative, sigmoid]
    field_simp
    ring
  rw [heq]
  exact h3

end P1

/-! ## The seed of the loss node -/

namespace P3

section Seed

variable {α : Type} [Ring α] [Div α] [Max α]

/-- A work item of `bce_backward` commutes with a write to a fourth buffer. -/
theorem bce_backward_set (acc pred targ : Nat) (rows cols : Int) (epsilon inv : α)
    (idx : Nat) (b : List (List α)) (lg : Nat) (X : List α) (h1 : lg ≠ acc)
    (h2 : lg ≠ pred) (h3 : lg ≠ targ) :
    bce_backward acc pred targ rows cols epsilon inv idx (b.set lg X) =
      (bce_backward acc pred targ rows cols epsilon inv idx b).set lg X := by
  unfold bce_backward
  simp only [getD_set_ne b lg acc X h1, getD_set_ne b lg pred X h2,
    getD_set_ne b lg targ X h3]
  split
  · exact List.set_comm _ _ _ h1
  · rfl

theorem runKernel_set (kernel : Kernel) (acc pred targ : Nat) (rows cols : Int)
    (epsilon inv : α) (n : Nat) (b : List (List α)) (lg : Nat) (X : List α)
    (h1 : lg ≠ acc) (h2 : lg ≠ pred) (h3 : lg ≠ targ) :
    runKernel kernel acc pred targ rows cols epsilon inv n (b.set lg X) =
      (runKernel kernel acc pred targ rows cols epsilon inv n b).set lg X := by
  unfold runKernel
  split
  · exact forLoop_embed (fun b => b.set lg X) n _ _
      (fun idx b => bce_backward_set acc pred targ rows cols epsilon inv idx b lg X h1 h2 h3)
      b
  · rfl

/-- The call `binary_cross_entropy_backward` commutes with a write to a buffer
other than those of its three matrices. -/
theorem binary_cross_entropy_backward_set (cl : Driver)
    (self predictions targets : MatrixCL) (w : World α) (lg : Nat) (X : List α)
    (h1 : lg ≠ self.buffer_) (h2 : lg ≠ predictions.buffer_) (h3 : lg ≠ targets.buffer_) :
    self.binary_cross_entropy_backward cl predictions targets
        { w with buffers := w.buffers.set lg X } =
      ((self.binary_cross_entropy_backward cl predictions targets w).1,
        { (self.binary_cross_entropy_backward cl predictions targets w).2 with
          buffers :=
            (self.binary_cross_entropy_backward cl predictions targets w).2.buffers.set lg X }) := by
  unfold MatrixCL.binary_cross_entropy_backward
  split
  · rfl
  · split
    · rfl
    · dsimp only
      split
      · rfl
      · split
        · rfl
        · split
          · rfl
          · split
            · rfl
            · simp only [MatrixCL.getBuffer]
              rw [runKernel_set _ _ _ _ _ _ _ _ _ _ _ _ h1 h2 h3]

end Seed

end P3

namespace P2

/-- The closure of the distributed `binary_cross_entropy` gives the predictions'
gradient the same value whatever a fourth matrix of the heap holds. -/
theorem run_bce_seed {α : Type} [Ring α] [Div α] (comm : Comm) (s : State α) (p q : Nat)
    (P T : Node α) (lg : Nat) (X : AbstractMatrix α) (hp : s.nodes[p]? = some P)
    (hq : s.nodes[q]? = some T) (h1 : lg ≠ P.values) (h2 : lg ≠ T.values)
    (h3 : lg ≠ P.grads) :
    ((BackwardOp.bce p q).run comm { s with mats := s.mats.set lg X }).map
        (fun u => u.mats[P.grads]?) =
      ((BackwardOp.bce p q).run comm s).map (fun u => u.mats[P.grads]?) := by
  simp only [BackwardOp.run, hp, hq, List.getElem?_set_ne h1, List.getElem?_set_ne h2,
    List.getElem?_set_ne h3]
  generalize (s.mats[P.values]?).bind AbstractMatrix.asDistributed = a
  generalize (s.mats[T.values]?).bind AbstractMatrix.asDistributed = b
  generalize (s.mats[P.grads]?).bind AbstractMatrix.asDistributed = c
  cases a <;> cases b <;> cases c <;>
    simp only [Option.map_some', Option.map_none', List.getElem?_set, List.length_set,
      if_true]

end P2

namespace P1

section SeedOfLoss

variable {α : Type} [Ring α] [Div α]

/-- After `binary_cross_entropy`, the closure of the loss node, run with any matrix
in the gradient of the loss node, gives the predictions' gradient a value in which
that matrix does not occur. -/
theorem bce_closure_after_seed (log : α → α) (s : State α) (p q : Nat) (P T : Node α)
    (hp : s.nodes[p]? = some P) (hq : s.nodes[q]? = some T) (hr : P.rows = T.rows)
    (hc : P.cols = T.cols) (h1 : s.validMat P.values) (h2 : s.validMat T.values)
    (h3 : s.validMat P.grads) (hgv : P.grads ≠ P.values) (hgt : P.grads ≠ T.values) :
    ∃ s1, binary_cross_entropy log s p q = .ok (s1, s.freshNode) ∧
      (s1.getNode s.freshNode).backward_op = some (.bce p q) ∧
      (s1.getNode s.freshNode).grads = s.freshGrads ∧
      ∀ seed : Matrix α, ∃ t,
        (BackwardOp.bce p q).run (s1.setMat s.freshGrads seed) = some t ∧
        t.getMat P.grads =
          Matrix.updLoop P.rows P.cols (fun i _ => i) (fun _ j => j)
            (fun i j x => x +
              ((-(s.getMat T.values).get i j) / ((s.getMat P.values).get i j + eps) +
                (1 - (s.getMat T.values).get i j) / (1 - (s.getMat P.values).get i j + eps)) /
                ((P.rows * P.cols : Nat) : α))
            (s.getMat P.grads) := by
  refine ⟨_, binary_cross_entropy_eq log s p q P T hp hq hr hc, ?_, ?_, ?_⟩
  · rw [State.getNode_eq _ _ _ (State.recorded_nodes_fresh s _ _ _)]
  · rw [State.getNode_eq _ _ _ (State.recorded_nodes_fresh s _ _ _)]
  · intro seed
    have hplt : p < s.nodes.length := (List.getElem?_eq_some.1 hp).1
    have hqlt : q < s.nodes.length := (List.getElem?_eq_some.1 hq).1
    have hv : ∀ x, s.validMat x → s.freshGrads ≠ x := by
      intro x hx
      unfold State.validMat at hx
      unfold State.freshGrads
      omega
    have hval : ∀ (V : Matrix α) (x : Nat), s.validMat x →
        ((s.recorded V [p] (some (.bce p q))).setMat s.freshGrads seed).validMat x := by
      intro V x hx
      rw [State.validMat_setMat]
      unfold State.validMat at hx ⊢
      simp only [State.recorded, List.length_append, List.length_cons, List.length_nil]
      omega
    have hget : ∀ (V : Matrix α) (x : Nat), s.validMat x →
        ((s.recorded V [p] (some (.bce p q))).setMat s.freshGrads seed).getMat x =
          s.getMat x := by
      intro V x hx
      rw [State.getMat_setMat_ne _ _ _ _ (hv x hx), State.recorded_getMat_old _ _ _ _ _ hx]
    refine ⟨_, run_bce _ p q P T ?_ ?_ (hval _ _ h1) (hval _ _ h2) (hval _ _ h3) hgv hgt, ?_⟩
    · rw [State.nodes_setMat, State.recorded_nodes_old _ _ _ _ _ hplt]
      exact hp
    · rw [State.nodes_setMat, State.recorded_nodes_old _ _ _ _ _ hqlt]
      exact hq
    · rw [State.getMat_setMat_self _ _ _ (hval _ _ h3), hget _ _ h1, hget _ _ h2,
        hget _ _ h3]

end SeedOfLoss

end P1

/-- Claim C38. The backward closure of `binary_cross_entropy` gives the predictions'
gradient a value that does not depend on what the gradient of the loss node (the
seed that the caller sets before `backward()`) holds, in the three backends. Dense
(`P1`): after `binary_cross_entropy` has built the loss node, the closure run with
any two seed matrices `seed1`, `seed2` in the gradient of the loss node returns in
both cases, with the same gradient of the predictions. Distributed (`P2`) and
OpenCL (`P3`): two runs of the closure that differ only in the contents of a
matrix, or buffer, other than the predictions, the targets and the predictions'
gradient raise alike and leave the same gradient of the predictions. -/
theorem bce_backward_ignores_seed {α : Type} [Ring α] [Div α] [Max α] :
    (∀ (log : α → α) (s : P1.State α) (p q : Nat) (P T : P1.Node α),
      s.nodes[p]? = some P → s.nodes[q]? = some T → P.rows = T.rows → P.cols = T.cols →
      s.validMat P.values → s.validMat T.values → s.validMat P.grads →
      P.grads ≠ P.values → P.grads ≠ T.values →
      ∃ s1 op, P1.binary_cross_entropy log s p q = .ok (s1, s.freshNode) ∧
        (s1.getNode s.freshNode).backward_op = some op ∧
        (s1.getNode s.freshNode).grads = s.freshGrads ∧
        ∀ seed1 seed2 : Matrix α, ∃ t1 t2,
          op.run (s1.setMat s.freshGrads seed1) = some t1 ∧
          op.run (s1.setMat s.freshGrads seed2) = some t2 ∧
          t1.getMat P.grads = t2.getMat P.grads) ∧
    (∀ (comm : P2.Comm) (s : P2.State α) (p q : Nat) (P T : P2.Node α) (lg : Nat)
        (X Y : P2.AbstractMatrix α),
      s.nodes[p]? = some P → s.nodes[q]? = some T →
      lg ≠ P.values → lg ≠ T.values → lg ≠ P.grads →
      ((P2.BackwardOp.bce p q).run comm { s with mats := s.mats.set lg X }).map
          (fun u => u.mats[P.grads]?) =
        ((P2.BackwardOp.bce p q).run comm { s with mats := s.mats.set lg Y }).map
          (fun u => u.mats[P.grads]?)) ∧
    (∀ (cl : P3.Driver) (pred_grads pred_values target_values : P3.MatrixCL)
        (w : P3.World α) (lg : Nat) (X Y : List α),
      lg ≠ pred_grads.buffer_ → lg ≠ pred_values.buffer_ → lg ≠ target_values.buffer_ →
      (pred_grads.binary_cross_entropy_backward cl pred_values target_values
          { w with buffers := w.buffers.set lg X }).1 =
        (pred_grads.binary_cross_entropy_backward cl pred_values target_values
          { w with buffers := w.buffers.set lg Y }).1 ∧
      (pred_grads.binary_cross_entropy_backward cl pred_values target_values
          { w with buffers := w.buffers.set lg X }).2.buffers.getD pred_grads.buffer_ [] =
        (pred_grads.binary_cross_entropy_backward cl pred_values target_values
          { w with buffers := w.buffers.set lg Y }).2.buffers.getD pred_grads.buffer_ []) := by
  refine ⟨?_, ?_, ?_⟩
  · intro log s p q P T hp hq hr hc h1 h2 h3 hgv hgt
    obtain ⟨s1, hs1, hop, hg, hseed⟩ :=
      P1.bce_closure_after_seed log s p q P T hp hq hr hc h1 h2 h3 hgv hgt
    refine ⟨s1, _, hs1, hop, hg, ?_⟩
    intro seed1 seed2
    obtain ⟨t1, ht1, hv1⟩ := hseed seed1
    obtain ⟨t2, ht2, hv2⟩ := hseed seed2
    exact ⟨t1, t2, ht1, ht2, hv1.trans hv2.symm⟩
  · intro comm s p q P T lg X Y hp hq h1 h2 h3
    rw [P2.run_bce_seed comm s p q P T lg X hp hq h1 h2 h3,
      P2.run_bce_seed comm s p q P T lg Y hp hq h1 h2 h3]
  · intro cl pg pv tv w lg X Y h1 h2 h3
    rw [P3.binary_cross_entropy_backward_set cl pg pv tv w lg X h1 h2 h3,
      P3.binary_cross_entropy_backward_set cl pg pv tv w lg Y h1 h2 h3]
    exact ⟨rfl, by
      dsimp only
      rw [P3.getD_set_ne _ _ _ _ h1, P3.getD_set_ne _ _ _ _ h1]⟩

theorem bce_backward_ignores_seed_witness :
    ∃ s1 t1 t2,
      P1.binary_cross_entropy (fun _ => 0) (P1.twoLeaves ⟨1, 2, [1, 0]⟩ ⟨1, 2, [1, 1]⟩) 0 1 =
        .ok (s1, 2) ∧
      (P1.BackwardOp.bce 0 1).run (s1.setMat 5 ⟨1, 1, [1]⟩) = some t1 ∧
      (P1.BackwardOp.bce 0 1).run (s1.setMat 5 ⟨1, 1, [7]⟩) = some t2 ∧
      t1.getMat 1 = t2.getMat 1 := by
  obtain ⟨s1, op, hs1, hop, _, hseed⟩ :=
    (@bce_backward_ignores_seed ℤ _ _ _).1 (fun _ => 0)
      (P1.twoLeaves ⟨1, 2, [1, 0]⟩ ⟨1, 2, [1, 1]⟩) 0 1 (P1.leafA 1 2) (P1.leafB 1 2)
      rfl rfl rfl rfl (by decide) (by decide) (by decide) (by decide) (by decide)
  obtain ⟨t1, t2, h1, h2, h12⟩ := hseed ⟨1, 1, [1]⟩ ⟨1, 1, [7]⟩
  have hs : s1 = (match P1.binary_cross_entropy (fun _ => 0)
      (P1.twoLeaves ⟨1, 2, [1, 0]⟩ ⟨1, 2, [1, 1]⟩) 0 1 with
    | .ok (s, _) => s
    | .error _ => P1.State.empty) := by rw [hs1]
  have hopv : op = P1.BackwardOp.bce 0 1 := by
    have h : (s1.getNode (P1.State.freshNode (P1.twoLeaves ⟨1, 2, [1, 0]⟩ ⟨1, 2, [1, 1]⟩))).backward_op
        = some (P1.BackwardOp.bce 0 1) := by
      rw [hs]; rfl
    rw [h] at hop
    exact (Option.some.inj hop).symm
  subst hopv
  exact ⟨s1, t1, t2, hs1, h1, h2, h12⟩

namespace P1

section LossValue

variable {α : Type} [Ring α] [Div α]

/-- The scalar stored by the forward pass is the mean of the entrywise terms. -/
theorem lossValue_eq (log : α → α) (s : State α) (p q : Nat) (P T : Node α)
    (hp : s.nodes[p]? = some P) (hq : s.nodes[q]? = some T) (hr : P.rows = T.rows)
    (hc : P.cols = T.cols) (h1 : s.validMat P.values) (h2 : s.validMat T.values) :
    lossValue log s p q =
      (∑ i ∈ Finset.range P.rows, ∑ j ∈ Finset.range P.cols,
        ((-(s.getMat T.values).get i j) * log ((s.getMat P.values).get i j + eps) -
          (1 - (s.getMat T.values).get i j) * log (1 - (s.getMat P.values).get i j + eps))) /
        ((P.rows * P.cols : Nat) : α) := by
  unfold lossValue
  rw [binary_cross_entropy_eq log s p q P T hp hq hr hc]
  simp only
  rw [State.getNode_eq _ _ _ (State.recorded_nodes_fresh s _ _ _)]
  simp only
  rw [State.recorded_getMat_values]
  have hget : ∀ x : α, ((Matrix.new 1 1 : Matrix α).set 0 0 x).get 0 0 = x := by
    intro x
    simp [Matrix.get, Matrix.set, Matrix.new]
  rw [hget]
  congr 1
  unfold bceTotalLoss
  rw [State.recorded_getMat_old _ _ _ _ _ h1, State.recorded_getMat_old _ _ _ _ _ h2]
  rw [P2.forLoop_nested_sum, zero_add]

end LossValue

section Derivative

/-- Derivative of one term of the loss in the prediction. -/
theorem hasDerivAt_bce_term (t x : ℝ) (h1 : x + eps ≠ 0) (h2 : 1 - x + eps ≠ 0) :
    HasDerivAt (fun y : ℝ => (-t) * Real.log (y + eps) - (1 - t) * Real.log (1 - y + eps))
      ((-t) / (x + eps) + (1 - t) / (1 - x + eps)) x := by
  have d1 : HasDerivAt (fun y : ℝ => y + eps) 1 x := (hasDerivAt_id x).add_const eps
  have d2 : HasDerivAt (fun y : ℝ => 1 - y + eps) (-1) x :=
    ((hasDerivAt_id x).const_sub 1).add_const eps
  have d3 := ((d1.log h1).const_mul (-t)).sub ((d2.log h2).const_mul (1 - t))
  have heq : (-t) / (x + eps) + (1 - t) / (1 - x + eps) =
      (-t) * (1 / (x + eps)) - (1 - t) * (-1 / (1 - x + eps)) := by
    ring
  rw [heq]
  exact d3

/-- Claim C40. Let the predictions `P` and the targets `T` be `r × c` nodes over the
reals whose values and gradient of `P` are distinct matrices, with `p + ε > 0` and
`1 - p + ε > 0` for every prediction `p` (`ε = 1 / 10 ^ 12`), and let `(i, j)` be an
entry. Then `binary_cross_entropy` returns a loss node; its backward closure, run in
the state after the forward pass, adds to `P.grad[i,j]` the amount
`a = (-t / (p + ε) + (1 - t) / (1 - p + ε)) / N` for `p = P[i,j]`, `t = T[i,j]`,
`N = r * c`; and `a` is the derivative at `p` of the scalar that the forward pass
stores in the loss node, as a function of the entry `P[i,j]`, which is the mean
over the `N` entries of `-t * log (p + ε) - (1 - t) * log (1 - p + ε)`. -/
theorem bce_backward_is_derivative_of_loss (s : State ℝ) (p q : Nat) (P T : Node ℝ)
    (r c : Nat) (hp : s.nodes[p]? = some P) (hq : s.nodes[q]? = some T)
    (hP : P.rows = r ∧ P.cols = c) (hT : T.rows = r ∧ T.cols = c)
    (h1 : s.validMat P.values) (h2 : s.validMat T.values) (h3 : s.validMat P.grads)
    (hgv : P.grads ≠ P.values) (hgt : P.grads ≠ T.values) (hvt : P.values ≠ T.values)
    (hPV : (s.getMat P.values).Shaped r c) (hPG : (s.getMat P.grads).Shaped r c)
    (hpos : ∀ i j, i < r → j < c →
      0 < (s.getMat P.values).get i j + eps ∧ 0 < 1 - (s.getMat P.values).get i j + eps)
    (i0 j0 : Nat) (hi0 : i0 < r) (hj0 : j0 < c) :
    ∃ s1 op t a,
      binary_cross_entropy Real.log s p q = .ok (s1, s.freshNode) ∧
      (s1.getNode s.freshNode).backward_op = some op ∧
      op.run s1 = some t ∧
      (t.getMat P.grads).get i0 j0 = (s1.getMat P.grads).get i0 j0 + a ∧
      a = ((-(s.getMat T.values).get i0 j0) / ((s.getMat P.values).get i0 j0 + eps) +
            (1 - (s.getMat T.values).get i0 j0) /
              (1 - (s.getMat P.values).get i0 j0 + eps)) / ((r * c : Nat) : ℝ) ∧
      (∀ x : ℝ, lossValue Real.log (s.setMat P.values ((s.getMat P.values).set i0 j0 x)) p q =
        (∑ i ∈ Finset.range r, ∑ j ∈ Finset.range c,
          ((-(s.getMat T.values).get i j) *
              Real.log (((s.getMat P.values).set i0 j0 x).get i j + eps) -
            (1 - (s.getMat T.values).get i j) *
              Real.log (1 - ((s.getMat P.values).set i0 j0 x).get i j + eps))) /
          ((r * c : Nat) : ℝ)) ∧
      HasDerivAt
        (fun x : ℝ =>
          lossValue Real.log (s.setMat P.values ((s.getMat P.values).set i0 j0 x)) p q)
        a ((s.getMat P.values).get i0 j0) := by
  have hwfV : (s.getMat P.values).WF := by
    unfold Matrix.WF; rw [hPV.2.2, hPV.1, hPV.2.1]
  have hwfG : (s.getMat P.grads).WF := by
    unfold Matrix.WF; rw [hPG.2.2, hPG.1, hPG.2.1]
  -- the closure, run after the forward pass
  obtain ⟨s1, hs1, hop, hg, hseed⟩ := bce_closure_after_seed Real.log s p q P T hp hq
    (hP.1.trans hT.1.symm) (hP.2.trans hT.2.symm) h1 h2 h3 hgv hgt
  have hs1eq : s1 = s.recorded ((Matrix.new 1 1).set 0 0
        (bceTotalLoss Real.log (s.recorded (Matrix.new 1 1) [p] none) P T /
          ((P.rows * P.cols : Nat) : ℝ))) [p] (some (.bce p q)) := by
    have h := binary_cross_entropy_eq Real.log s p q P T hp hq (hP.1.trans hT.1.symm)
      (hP.2.trans hT.2.symm)
    rw [hs1] at h
    simp only [Except.ok.injEq, Prod.mk.injEq, and_true] at h
    exact h
  have hvalid : s1.validMat s.freshGrads := by
    rw [hs1eq]
    simp [State.validMat, State.recorded, State.freshGrads]
  obtain ⟨t, ht, htg⟩ := hseed (s1.getMat s.freshGrads)
  rw [State.setMat_getMat _ _ hvalid] at ht
  have hs1g : s1.getMat P.grads = s.getMat P.grads := by
    rw [hs1eq]; exact State.recorded_getMat_old _ _ _ _ _ h3
  -- the loss as a function of the entry
  have hloss : ∀ x : ℝ,
      lossValue Real.log (s.setMat P.values ((s.getMat P.values).set i0 j0 x)) p q =
        (∑ i ∈ Finset.range r, ∑ j ∈ Finset.range c,
          ((-(s.getMat T.values).get i j) *
              Real.log (((s.getMat P.values).set i0 j0 x).get i j + eps) -
            (1 - (s.getMat T.values).get i j) *
              Real.log (1 - ((s.getMat P.values).set i0 j0 x).get i j + eps))) /
          ((r * c : Nat) : ℝ) := by
    intro x
    rw [lossValue_eq Real.log (s.setMat P.values ((s.getMat P.values).set i0 j0 x)) p q P T
      hp hq (hP.1.trans hT.1.symm) (hP.2.trans hT.2.symm)
      ((State.validMat_setMat _ _ _ _).2 h1) ((State.validMat_setMat _ _ _ _).2 h2),
      State.getMat_setMat_self _ _ _ h1, State.getMat_setMat_ne _ _ _ _ hvt, hP.1, hP.2]
  refine ⟨s1, _, t, _, hs1, hop, ht, ?_, rfl, hloss, ?_⟩
  · rw [htg, hs1g]
    have h := Matrix.updLoop_get_self (fun i j x => x +
      ((-(s.getMat T.values).get i j) / ((s.getMat P.values).get i j + eps) +
        (1 - (s.getMat T.values).get i j) / (1 - (s.getMat P.values).get i j + eps)) /
        ((r * c : Nat) : ℝ)) _ hwfG i0 j0 (hPG.1.symm ▸ hi0) (hPG.2.1.symm ▸ hj0)
    rw [hPG.1, hPG.2.1] at h
    rw [hP.1, hP.2, h]
  · have hfun : (fun x : ℝ =>
        lossValue Real.log (s.setMat P.values ((s.getMat P.values).set i0 j0 x)) p q) =
        fun x : ℝ => (∑ i ∈ Finset.range r, ∑ j ∈ Finset.range c,
          ((-(s.getMat T.values).get i j) *
              Real.log (((s.getMat P.values).set i0 j0 x).get i j + eps) -
            (1 - (s.getMat T.values).get i j) *
              Real.log (1 - ((s.getMat P.values).set i0 j0 x).get i j + eps))) /
          ((r * c : Nat) : ℝ) := funext hloss
    rw [hfun]
    apply HasDerivAt.div_const
    have hterm : ∀ i ∈ Finset.range r, ∀ j ∈ Finset.range c,
        HasDerivAt (fun x : ℝ => (-(s.getMat T.values).get i j) *
              Real.log (((s.getMat P.values).set i0 j0 x).get i j + eps) -
            (1 - (s.getMat T.values).get i j) *
              Real.log (1 - ((s.getMat P.values).set i0 j0 x).get i j + eps))
          (if i = i0 then (if j = j0 then
            ((-(s.getMat T.values).get i0 j0) / ((s.getMat P.values).get i0 j0 + eps) +
              (1 - (s.getMat T.values).get i0 j0) /
                (1 - (s.getMat P.values).get i0 j0 + eps)) else 0) else 0)
          ((s.getMat P.values).get i0 j0) := by
      intro i hi j hj
      rw [Finset.mem_range] at hi hj
      have hgs : ∀ x : ℝ, ((s.getMat P.values).set i0 j0 x).get i j =
          if i = i0 ∧ j = j0 then x else (s.getMat P.values).get i j :=
        fun x => Matrix.get_set _ hwfV i0 j0 i j x (hPV.1.symm ▸ hi0) (hPV.2.1.symm ▸ hj0)
          (hPV.2.1.symm ▸ hj)
      simp only [hgs]
      by_cases hij : i = i0 ∧ j = j0
      · obtain ⟨rfl, rfl⟩ := hij
        simp only [and_self, if_true]
        exact hasDerivAt_bce_term _ _ (ne_of_gt (hpos i j hi0 hj0).1)
          (ne_of_gt (hpos i j hi0 hj0).2)
      · simp only [hij, if_false]
        have hz : (if i = i0 then (if j = j0 then
            ((-(s.getMat T.values).get i0 j0) / ((s.getMat P.values).get i0 j0 + eps) +
              (1 - (s.getMat T.values).get i0 j0) /
                (1 - (s.getMat P.values).get i0 j0 + eps)) else 0) else 0) = (0 : ℝ) := by
          by_cases hi' : i = i0
          · have hj' : j ≠ j0 := fun h => hij ⟨hi', h⟩
            simp [hi', hj']
          · simp [hi']
        rw [hz]
        exact hasDerivAt_const _ _
    have hsum := HasDerivAt.sum (fun i hi => HasDerivAt.sum (hterm i hi))
    have hval : (∑ i ∈ Finset.range r, ∑ j ∈ Finset.range c,
        (if i = i0 then (if j = j0 then
            ((-(s.getMat T.values).get i0 j0) / ((s.getMat P.values).get i0 j0 + eps) +
              (1 - (s.getMat T.values).get i0 j0) /
                (1 - (s.getMat P.values).get i0 j0 + eps)) else 0) else 0)) =
        ((-(s.getMat T.values).get i0 j0) / ((s.getMat P.values).get i0 j0 + eps) +
              (1 - (s.getMat T.values).get i0 j0) /
                (1 - (s.getMat P.values).get i0 j0 + eps)) := by
      rw [Finset.sum_eq_single i0]
      · simp only [eq_self_iff_true, if_true]
        rw [Finset.sum_eq_single j0]
        · simp only [eq_self_iff_true, if_true]
        · intro j _ hj; simp only [hj, if_false]
        · intro h; exact absurd (Finset.mem_range.2 hj0) h
      · intro i _ hi; simp only [hi, if_false]; exact Finset.sum_const_zero
      · intro h; exact absurd (Finset.mem_range.2 hi0) h
    rw [hval] at hsum
    exact hsum

end Derivative

theorem bce_backward_is_derivative_of_loss_witness :
    ∃ (s1 : State ℝ) (a : ℝ),
      binary_cross_entropy Real.log
        (Node.ofMatrix (Node.ofMatrix State.empty (⟨1, 1, [1 / 2]⟩ : Matrix ℝ)).1
          ⟨1, 1, [1]⟩).1 0 1 = .ok (s1, 2) ∧
      HasDerivAt (fun x : ℝ => lossValue Real.log
        ((Node.ofMatrix (Node.ofMatrix State.empty (⟨1, 1, [1 / 2]⟩ : Matrix ℝ)).1
          ⟨1, 1, [1]⟩).1.setMat 0 ((⟨1, 1, [1 / 2]⟩ : Matrix ℝ).set 0 0 x)) 0 1) a (1 / 2) := by
  obtain ⟨s1, op, t, a, h, _, _, _, ha, _, hd⟩ := bce_backward_is_derivative_of_loss
    (Node.ofMatrix (Node.ofMatrix State.empty (⟨1, 1, [1 / 2]⟩ : Matrix ℝ)).1 ⟨1, 1, [1]⟩).1
    0 1
    { rows := 1, cols := 1, values := 0, grads := 1, backward_op := none, dependencies := [] }
    { rows := 1, cols := 1, values := 2, grads := 3, backward_op := none, dependencies := [] }
    1 1 rfl rfl ⟨rfl, rfl⟩ ⟨rfl, rfl⟩ (by decide) (by decide) (by decide) (by decide)
    (by decide) (by decide) (by decide) (by decide)
    (by
      intro i j hi hj
      have hi0 : i = 0 := by omega
      have hj0 : j = 0 := by omega
      subst hi0 hj0
      have hv : ((Node.ofMatrix (Node.ofMatrix State.empty (⟨1, 1, [1 / 2]⟩ : Matrix ℝ)).1
          ⟨1, 1, [1]⟩).1.getMat 0).get 0 0 = 1 / 2 := rfl
      rw [hv]
      unfold eps
      constructor <;> norm_num)
    0 0 (by decide) (by decide)
  exact ⟨s1, a, h, hd⟩

/-! ## The traversal of a tree -/

section Tree

variable {α : Type} [Ring α] [Div α]

theorem State.getNode_of_none (s : State α) (c : Nat) (h : s.nodes[c]? = none) :
    (s.getNode c).dependencies = [] := by
  simp [State.getNode, List.getD_eq_getElem?_getD, h]

theorem State.walkEnd_append (s : State α) (r : Nat) (w1 w2 : List Nat) :
    s.walkEnd r (w1 ++ w2) = (s.walkEnd r w1).bind (fun c => s.walkEnd c w2) := by
  induction w1 generalizing r with
  | nil => rfl
  | cons i w ih =>
    rw [List.cons_append]
    simp only [State.walkEnd]
    cases hN : s.nodes[r]? with
    | none => simp
    | some N =>
      cases hd : N.dependencies[i]? with
      | none => simp [hd]
      | some d => simpa [hd] using ih d

theorem State.walkEnd_single (s : State α) (c i n : Nat) :
    s.walkEnd c [i] = some n ↔ (s.getNode c).dependencies[i]? = some n := by
  simp only [State.walkEnd]
  cases h : s.nodes[c]? with
  | none => simp [State.getNode_of_none s c h]
  | some N =>
    rw [State.getNode_eq s c N h]
    cases hd : N.dependencies[i]? with
    | none => simp [hd]
    | some d => simp [hd]

/-- A dependency path leads to a node created before its origin. -/
theorem State.walkEnd_le (s : State α) (hs : s.GraphWF) (w : List Nat) (r n : Nat)
    (h : s.walkEnd r w = some n) : n ≤ r ∧ (w ≠ [] → n < r) := by
  induction w generalizing r with
  | nil =>
    simp only [State.walkEnd, Option.some.injEq] at h
    exact ⟨h ▸ Nat.le_refl _, fun hh => absurd rfl hh⟩
  | cons i w ih =>
    simp only [State.walkEnd] at h
    cases hN : s.nodes[r]? with
    | none => rw [hN] at h; cases h
    | some N =>
      rw [hN] at h
      simp only at h
      cases hd : N.dependencies[i]? with
      | none => rw [hd] at h; cases h
      | some d =>
        rw [hd] at h
        simp only at h
        have hlt : d < r := hs.deps_lt hN d (List.getElem?_mem hd)
        have := (ih d h).1
        exact ⟨by omega, fun _ => by omega⟩

/-- In a tree, a node is the end of one dependency path from the root at most. -/
theorem State.walk_unique (s : State α) (hs : s.GraphWF) (r : Nat) (ht : s.TreeFrom r)
    (w1 : List Nat) : ∀ (w2 : List Nat) (n : Nat),
      s.walkEnd r w1 = some n → s.walkEnd r w2 = some n → w1 = w2 := by
  induction w1 using List.reverseRecOn with
  | nil =>
    intro w2 n h1 h2
    simp only [State.walkEnd, Option.some.injEq] at h1
    by_contra hne
    have := (s.walkEnd_le hs w2 r n h2).2 (fun h => hne h.symm)
    omega
  | append_singleton w1 i1 ih =>
    intro w2 n h1 h2
    have hlt : n < r := (s.walkEnd_le hs _ r n h1).2 (by simp)
    rcases List.eq_nil_or_concat w2 with rfl | ⟨w2, i2, rfl⟩
    · simp only [State.walkEnd, Option.some.injEq] at h2
      omega
    · rw [List.concat_eq_append] at h2 ⊢
      rw [State.walkEnd_append] at h1 h2
      cases hc1 : s.walkEnd r w1 with
      | none => rw [hc1] at h1; cases h1
      | some c1 =>
        cases hc2 : s.walkEnd r w2 with
        | none => rw [hc2] at h2; cases h2
        | some c2 =>
          rw [hc1, Option.some_bind] at h1
          rw [hc2, Option.some_bind] at h2
          obtain ⟨hc, hi⟩ := ht c1 c2 i1 i2 n ⟨w1, hc1⟩ ⟨w2, hc2⟩
            ((s.walkEnd_single c1 i1 n).1 h1) ((s.walkEnd_single c2 i2 n).1 h2)
          subst hc hi
          rw [ih w2 c1 hc1 hc2]

theorem State.treeFrom_of_forest (s : State α) (h : s.Forest) (r : Nat) : s.TreeFrom r := by
  intro c1 c2 i1 i2 n _ _ h1 h2
  unfold State.Forest at h
  rw [List.nodup_flatMap] at h
  have hlt : ∀ c i : Nat, (s.getNode c).dependencies[i]? = some n → c < s.nodes.length := by
    intro c i hc
    by_contra hge
    have hnone : s.nodes[c]? = none := List.getElem?_eq_none (Nat.le_of_not_lt hge)
    rw [State.getNode_of_none s c hnone] at hc
    simp at hc
  have hc1 := hlt c1 i1 h1
  have hc2 := hlt c2 i2 h2
  have hcc : c1 = c2 := by
    by_contra hne
    have hdis := h.2.forall (fun a b hab => hab.symm) (List.mem_range.2 hc1)
      (List.mem_range.2 hc2) hne
    exact hdis (List.getElem?_mem h1) (List.getElem?_mem h2)
  subst hcc
  refine ⟨rfl, ?_⟩
  obtain ⟨b1, e1⟩ := List.getElem?_eq_some.1 h1
  obtain ⟨b2, e2⟩ := List.getElem?_eq_some.1 h2
  exact ((h.1 c1 (List.mem_range.2 hc1)).getElem_inj_iff).1 (e1.trans e2.symm)

theorem State.reaches_dep (s : State α) (r d c : Nat) (N : Node α)
    (hN : s.nodes[r]? = some N) (hd : d ∈ N.dependencies) (h : s.Reaches d c) :
    s.Reaches r c := by
  obtain ⟨i, hi⟩ := List.mem_iff_getElem?.1 hd
  obtain ⟨w, hw⟩ := h
  refine ⟨i :: w, ?_⟩
  simp only [State.walkEnd, hN, hi]
  exact hw

/-- Invocations met in the traversals of a list of dependencies of `r`, with the
consumer reachable from `r`. -/
theorem State.precededFrom_flatMap (s : State α) (fuel r : Nat) (N : Node α)
    (hN : s.nodes[r]? = some N)
    (ih : ∀ (d : Nat) (X pre : List Nat) (n : Nat) (post : List Nat),
      s.trace fuel d = pre ++ n :: post → s.PrecededFrom d n (X ++ pre))
    (ds : List Nat) (hds : ∀ d ∈ ds, d ∈ N.dependencies) (X pre : List Nat) (n : Nat)
    (post : List Nat) (h : ds.flatMap (s.trace fuel) = pre ++ n :: post)
    (hX : N.backward_op.isSome = true → r ∈ X) : s.PrecededFrom r n (X ++ pre) := by
  induction ds generalizing X pre with
  | nil => simp at h
  | cons d ds ihds =>
    rw [List.flatMap_cons, List.append_eq_append_iff] at h
    have hrest : ∀ a, pre = s.trace fuel d ++ a →
        ds.flatMap (s.trace fuel) = a ++ n :: post → s.PrecededFrom r n (X ++ pre) := by
      intro a hpre hfl
      have := ihds (fun e he => hds e (List.mem_cons_of_mem _ he)) (X ++ s.trace fuel d) a
        hfl (fun hop => List.mem_append_left _ (hX hop))
      rw [hpre, ← List.append_assoc]
      exact this
    rcases h with ⟨a, hpre, hfl⟩ | ⟨c, htr, hc⟩
    · exact hrest a hpre hfl
    · cases c with
      | nil =>
        rw [List.append_nil] at htr
        exact hrest [] (by rw [htr, List.append_nil]) (by simpa using hc.symm)
      | cons m c =>
        rw [List.cons_append, List.cons.injEq] at hc
        rw [← hc.1] at htr
        rcases ih d X pre n c htr with hnd | ⟨e, E, hreach, hE, hmem, hpre⟩
        · right
          refine ⟨r, N, ⟨[], rfl⟩, hN, hnd ▸ hds d (List.mem_cons_self _ _), ?_⟩
          intro hop
          exact List.mem_append_left _ (hX hop)
        · exact Or.inr ⟨e, E,
            s.reaches_dep r d e N hN (hds d (List.mem_cons_self _ _)) hreach, hE, hmem, hpre⟩

/-- Every invocation met by the traversal from `r` is that of `r` or comes after
the invocation of a consumer reachable from `r`. -/
theorem State.precededFrom_trace (s : State α) (fuel r : Nat) (X pre : List Nat) (n : Nat)
    (post : List Nat) (h : s.trace fuel r = pre ++ n :: post) :
    s.PrecededFrom r n (X ++ pre) := by
  induction fuel generalizing r X pre n post with
  | zero => simp [State.trace] at h
  | succ fuel ih =>
    simp only [State.trace] at h
    cases hN : s.nodes[r]? with
    | none => rw [hN] at h; simp at h
    | some N =>
      rw [hN] at h
      simp only at h
      cases hop : N.backward_op.isSome with
      | false =>
        rw [hop] at h
        simp only [Bool.false_eq_true, if_false, List.nil_append] at h
        exact s.precededFrom_flatMap fuel r N hN ih N.dependencies (fun d hd => hd) X pre n
          post h (fun hh => by rw [hop] at hh; cases hh)
      | true =>
        rw [hop] at h
        simp only [if_true, List.singleton_append] at h
        cases pre with
        | nil =>
          rw [List.nil_append, List.cons.injEq] at h
          exact Or.inl h.1.symm
        | cons m pre =>
          rw [List.cons_append, List.cons.injEq] at h
          have := s.precededFrom_flatMap fuel r N hN ih N.dependencies (fun d hd => hd)
            (X ++ [r]) pre n post h.2 (fun _ => List.mem_append_right _ (List.mem_singleton_self r))
          rw [← h.1]
          rw [List.append_assoc] at this
          exact this

theorem length_le_one_of_nodup_of_eq {β : Type} (l : List β) (hnd : l.Nodup)
    (heq : ∀ a ∈ l, ∀ b ∈ l, a = b) : l.length ≤ 1 := by
  match l, hnd, heq with
  | [], _, _ => simp
  | [_], _, _ => simp
  | a :: b :: t, hnd, heq =>
    have hab : a = b := heq a (List.mem_cons_self _ _) b
      (List.mem_cons_of_mem _ (List.mem_cons_self _ _))
    rw [List.nodup_cons] at hnd
    exact absurd (hab ▸ List.mem_cons_self _ _) hnd.1

/-- Claim C37. On a graph as the operators build it whose part reachable from the
root is a tree (no node is a dependency of two reachable nodes, nor twice of one),
with fuel above the pointer of the root, `root.backward()` returns; the closure of
every reachable node that has one is invoked exactly once and no other closure is
invoked; and every invocation other than that of the root comes after the
invocation of the closure of the single reachable consumer of the node, when that
consumer has a closure. -/
theorem backward_on_tree (s : State α) (r fuel : Nat) (hs : s.GraphWF)
    (hr : r < s.nodes.length) (hfuel : r < fuel) (ht : s.TreeFrom r) :
    ∃ (t : State α) (log : List Nat),
      Node.backward fuel r (s, []) = some (t, log) ∧
      (∀ n N, s.Reaches r n → s.nodes[n]? = some N → N.backward_op.isSome = true →
        log.count n = 1) ∧
      (∀ n, n ∈ log → ∃ N, s.Reaches r n ∧ s.nodes[n]? = some N ∧
        N.backward_op.isSome = true) ∧
      log.Nodup ∧
      (∀ (pre : List Nat) (n : Nat) (post : List Nat), log = pre ++ n :: post →
        n = r ∨ ∃ c C, s.Reaches r c ∧ s.nodes[c]? = some C ∧ n ∈ C.dependencies ∧
          (∀ c', s.Reaches r c' → n ∈ (s.getNode c').dependencies → c' = c) ∧
          (C.backward_op.isSome = true → c ∈ pre)) := by
  obtain ⟨t, hback, _⟩ := backward_eq_trace fuel r s [] hs hr hfuel
  have hcount : ∀ n, (s.trace fuel r).count n =
      ((s.walks fuel r).filter (fun w => s.walkEnd r w = some n)).length := by
    intro n
    rw [s.trace_eq_walks fuel r]
    exact count_filterMap_eq _ n _
  have hle : ∀ n, (s.trace fuel r).count n ≤ 1 := by
    intro n
    rw [hcount]
    apply length_le_one_of_nodup_of_eq
    · exact (s.walks_nodup fuel r).filter _
    · intro a ha b hb
      rw [List.mem_filter] at ha hb
      exact s.walk_unique hs r ht a b n (by simpa using ha.2) (by simpa using hb.2)
  refine ⟨t, s.trace fuel r, by simpa using hback, ?_, ?_, ?_, ?_⟩
  · intro n N ⟨w, hw⟩ hN hop
    apply Nat.le_antisymm (hle n)
    rw [hcount]
    apply List.length_pos_of_mem (a := w)
    rw [List.mem_filter]
    exact ⟨s.mem_walks_of_walkEnd hs w fuel r n N hfuel hw hN hop, by simpa using hw⟩
  · intro n hn
    rw [s.trace_eq_walks fuel r, List.mem_filterMap] at hn
    obtain ⟨w, hw, hwn⟩ := hn
    obtain ⟨m, M, hm, hM, hop⟩ := s.walkEnd_of_mem_walks fuel r w hw
    rw [hwn, Option.some.injEq] at hm
    subst hm
    exact ⟨M, ⟨w, hwn⟩, hM, hop⟩
  · exact List.nodup_iff_count_le_one.2 hle
  · intro pre n post hlog
    rcases s.precededFrom_trace fuel r [] pre n post hlog with h | ⟨c, C, hreach, hC, hmem, hpre⟩
    · exact Or.inl h
    · refine Or.inr ⟨c, C, hreach, hC, hmem, ?_, by simpa using hpre⟩
      intro c' hreach' hmem'
      obtain ⟨i, hi⟩ := List.mem_iff_getElem?.1 hmem
      obtain ⟨i', hi'⟩ := List.mem_iff_getElem?.1 hmem'
      rw [← State.getNode_eq s c C hC] at hi
      exact (ht c' c i' i n hreach' hreach hi' hi).1

/-- A call chain from a dependency `d` of `r` extends to a call chain from `r`. -/
theorem State.calledAlong_cons (s : State α) (r d i n : Nat) (N : Node α) (P w : List Nat)
    (hN : s.nodes[r]? = some N) (hi : N.dependencies[i]? = some d)
    (h : s.CalledAlong d n P w) (hr : N.backward_op.isSome = true → r ∈ P) :
    s.CalledAlong r n P (i :: w) := by
  refine ⟨?_, ?_⟩
  · simp only [State.walkEnd, hN, hi]
    exact h.1
  · intro w1 w2 c C hw hw2 hc hC hop
    cases w1 with
    | nil =>
      simp only [State.walkEnd, Option.some.injEq] at hc
      subst hc
      rw [hN, Option.some.injEq] at hC
      subst hC
      exact hr hop
    | cons j w1 =>
      rw [List.cons_append, List.cons.injEq] at hw
      obtain ⟨hj, hw⟩ := hw
      subst hj
      simp only [State.walkEnd, hN, hi] at hc
      exact h.2 w1 w2 c C hw hw2 hc hC hop

/-- Invocations met in the traversals of a list of dependencies of `r`, with their
call chains from `r`. -/
theorem State.calledAlong_flatMap (s : State α) (fuel r : Nat) (N : Node α)
    (hN : s.nodes[r]? = some N)
    (ih : ∀ (d : Nat) (X pre : List Nat) (n : Nat) (post : List Nat),
      s.trace fuel d = pre ++ n :: post → ∃ w, s.CalledAlong d n (X ++ pre) w)
    (ds : List Nat) (hds : ∀ d ∈ ds, d ∈ N.dependencies) (X pre : List Nat) (n : Nat)
    (post : List Nat) (h : ds.flatMap (s.trace fuel) = pre ++ n :: post)
    (hX : N.backward_op.isSome = true → r ∈ X) :
    ∃ w, w ≠ [] ∧ s.CalledAlong r n (X ++ pre) w := by
  induction ds generalizing X pre with
  | nil => simp at h
  | cons d ds ihds =>
    rw [List.flatMap_cons, List.append_eq_append_iff] at h
    have hrest : ∀ a, pre = s.trace fuel d ++ a →
        ds.flatMap (s.trace fuel) = a ++ n :: post →
        ∃ w, w ≠ [] ∧ s.CalledAlong r n (X ++ pre) w := by
      intro a hpre hfl
      have := ihds (fun e he => hds e (List.mem_cons_of_mem _ he)) (X ++ s.trace fuel d) a
        hfl (fun hop => List.mem_append_left _ (hX hop))
      rw [hpre, ← List.append_assoc]
      exact this
    rcases h with ⟨a, hpre, hfl⟩ | ⟨c, htr, hc⟩
    · exact hrest a hpre hfl
    · cases c with
      | nil =>
        rw [List.append_nil] at htr
        exact hrest [] (by rw [htr, List.append_nil]) (by simpa using hc.symm)
      | cons m c =>
        rw [List.cons_append, List.cons.injEq] at hc
        rw [← hc.1] at htr
        obtain ⟨w, hw⟩ := ih d X pre n c htr
        obtain ⟨i, hi⟩ := List.mem_iff_getElem?.1 (hds d (List.mem_cons_self _ _))
        exact ⟨i :: w, List.cons_ne_nil _ _, s.calledAlong_cons r d i n N _ w hN hi hw
          (fun hop => List.mem_append_left _ (hX hop))⟩

/-- Every invocation met by the traversal from `r` has a call chain from `r` whose
nodes with a closure were invoked before. -/
theorem State.calledAlong_trace (s : State α) (fuel r : Nat) (X pre : List Nat) (n : Nat)
    (post : List Nat) (h : s.trace fuel r = pre ++ n :: post) :
    ∃ w, s.CalledAlong r n (X ++ pre) w := by
  induction fuel generalizing r X pre n post with
  | zero => simp [State.trace] at h
  | succ fuel ih =>
    simp only [State.trace] at h
    cases hN : s.nodes[r]? with
    | none => rw [hN] at h; simp at h
    | some N =>
      rw [hN] at h
      simp only at h
      cases hop : N.backward_op.isSome with
      | false =>
        rw [hop] at h
        simp only [Bool.false_eq_true, if_false, List.nil_append] at h
        obtain ⟨w, _, hw⟩ := s.calledAlong_flatMap fuel r N hN ih N.dependencies
          (fun d hd => hd) X pre n post h (fun hh => by rw [hop] at hh; cases hh)
        exact ⟨w, hw⟩
      | true =>
        rw [hop] at h
        simp only [if_true, List.singleton_append] at h
        cases pre with
        | nil =>
          rw [List.nil_append, List.cons.injEq] at h
          refine ⟨[], ?_, ?_⟩
          · rw [← h.1]; rfl
          · intro w1 w2 c C hw hw2
            have := List.append_eq_nil.1 hw.symm
            exact absurd this.2 hw2
        | cons m pre =>
          rw [List.cons_append, List.cons.injEq] at h
          obtain ⟨w, _, hw⟩ := s.calledAlong_flatMap fuel r N hN ih N.dependencies
            (fun d hd => hd) (X ++ [r]) pre n post h.2
            (fun _ => List.mem_append_right _ (List.mem_singleton_self r))
          rw [← h.1]
          rw [List.append_assoc] at hw
          exact ⟨w, hw⟩


/-- In the enumeration of the paths, a path never comes before one of its prefixes. -/
theorem State.walks_pairwise (s : State α) (fuel r : Nat) :
    (s.walks fuel r).Pairwise (fun a b => ¬ b <+: a) := by
  induction fuel generalizing r with
  | zero => exact List.Pairwise.nil
  | succ fuel ih =>
    simp only [State.walks]
    cases s.nodes[r]? with
    | none => exact List.Pairwise.nil
    | some N =>
      simp only
      rw [List.pairwise_append]
      refine ⟨?_, ?_, ?_⟩
      · split
        · exact List.pairwise_singleton _ _
        · exact List.Pairwise.nil
      · rw [List.pairwise_flatMap]
        constructor
        · intro i _
          rw [List.pairwise_map]
          apply (ih _).imp
          intro a b hab hpre
          exact hab ((List.cons_prefix_cons.1 hpre).2)
        · apply (List.pairwise_lt_range _).imp
          intro i j hij x hx y hy hpre
          obtain ⟨x1, _, rfl⟩ := List.mem_map.1 hx
          obtain ⟨y1, _, rfl⟩ := List.mem_map.1 hy
          have := (List.cons_prefix_cons.1 hpre).1
          omega
      · intro a ha b hb hpre
        obtain ⟨i, _, hi⟩ := List.mem_flatMap.1 hb
        obtain ⟨b1, _, rfl⟩ := List.mem_map.1 hi
        split at ha
        · simp only [List.mem_singleton] at ha
          subst ha
          simp at hpre
        · simp at ha

/-- In the enumeration of the paths, the proper prefixes of a path that are
enumerated come before it. -/
theorem State.walks_prefix_before (s : State α) (fuel r : Nat) (pre post : List (List Nat))
    (w w1 w2 : List Nat) (h : s.walks fuel r = pre ++ w :: post) (hw : w = w1 ++ w2)
    (hw2 : w2 ≠ []) (hw1 : w1 ∈ s.walks fuel r) : w1 ∈ pre := by
  have hp := s.walks_pairwise fuel r
  rw [h] at hp hw1
  rw [List.pairwise_append, List.pairwise_cons] at hp
  rcases List.mem_append.1 hw1 with h1 | h1
  · exact h1
  · rcases List.mem_cons.1 h1 with h1 | h1
    · exfalso
      rw [h1] at hw
      have := congrArg List.length hw
      rw [List.length_append] at this
      have := List.length_pos.2 hw2
      omega
    · exact absurd ⟨w2, hw.symm⟩ (hp.2.1.1 w1 h1)


/-- Claim C2, as the code behaves. On a graph as the operators build it, with fuel
above the pointer of the root, `root.backward()` returns, and its invocations are
those of the chains of calls of `backward()`: the log is the list of the ends of
`ws`, which lists the dependency paths from the root to a node that has a closure,
and a path of `ws` comes after those of its proper prefixes that `ws` lists. So
each invocation comes after the invocation, by the same chain of calls, of the
closure of the consumer whose `backward()` makes the call, when that consumer has
one, and of the callers above it. In terms of the log alone: if the log is
`pre ++ n :: post`, there is a dependency path `w` from the root to `n` such that
every node the path passes before `n` that has a closure is in `pre`; either the
path is empty and `n` is the root, or its last edge leaves a consumer `c` of `n`,
reachable from the root, whose closure, if it has one, is in `pre`. -/
theorem backward_after_one_consumer (s : State α) (r fuel : Nat) (hs : s.GraphWF)
    (hr : r < s.nodes.length) (hfuel : r < fuel) :
    ∃ (t : State α) (log : List Nat) (ws : List (List Nat)),
      Node.backward fuel r (s, []) = some (t, log) ∧
      (∀ w, w ∈ ws ↔ ∃ n N, s.walkEnd r w = some n ∧ s.nodes[n]? = some N ∧
        N.backward_op.isSome = true) ∧
      log = ws.filterMap (s.walkEnd r) ∧
      (∀ (pre : List (List Nat)) (w : List Nat) (post : List (List Nat)),
        ws = pre ++ w :: post → ∀ w1 w2 : List Nat, w = w1 ++ w2 → w2 ≠ [] →
          w1 ∈ ws → w1 ∈ pre) ∧
      ∀ (pre : List Nat) (n : Nat) (post : List Nat), log = pre ++ n :: post →
        ∃ w : List Nat, s.walkEnd r w = some n ∧
          (∀ (w1 w2 : List Nat) (c : Nat) (C : Node α), w = w1 ++ w2 → w2 ≠ [] →
            s.walkEnd r w1 = some c → s.nodes[c]? = some C →
            C.backward_op.isSome = true → c ∈ pre) ∧
          ((w = [] ∧ n = r) ∨
            ∃ (w1 : List Nat) (i c : Nat) (C : Node α), w = w1 ++ [i] ∧
              s.walkEnd r w1 = some c ∧ s.nodes[c]? = some C ∧
              C.dependencies[i]? = some n ∧ (C.backward_op.isSome = true → c ∈ pre)) := by
  obtain ⟨t, ht, _⟩ := backward_eq_trace fuel r s [] hs hr hfuel
  refine ⟨t, s.trace fuel r, s.walks fuel r, by simpa using ht, ?_,
    s.trace_eq_walks fuel r, ?_, ?_⟩
  · intro w
    constructor
    · exact s.walkEnd_of_mem_walks fuel r w
    · rintro ⟨n, N, hw, hN, hop⟩
      exact s.mem_walks_of_walkEnd hs w fuel r n N hfuel hw hN hop
  · intro pre w post h w1 w2 hw hw2 hw1
    exact s.walks_prefix_before fuel r pre post w w1 w2 h hw hw2 hw1
  intro pre n post h
  obtain ⟨w, hw, hchain⟩ := s.calledAlong_trace fuel r [] pre n post h
  rw [List.nil_append] at hchain
  refine ⟨w, hw, hchain, ?_⟩
  rcases List.eq_nil_or_concat w with hnil | ⟨w1, i, hwi⟩
  · left
    subst hnil
    simp only [State.walkEnd, Option.some.injEq] at hw
    exact ⟨rfl, hw.symm⟩
  · right
    rw [List.concat_eq_append] at hwi
    subst hwi
    rw [State.walkEnd_append] at hw
    cases hc : s.walkEnd r w1 with
    | none => rw [hc] at hw; simp at hw
    | some c =>
      rw [hc, Option.some_bind] at hw
      cases hC : s.nodes[c]? with
      | none => simp [State.walkEnd, hC] at hw
      | some C =>
        refine ⟨w1, i, c, C, rfl, hc, hC, ?_, ?_⟩
        · simp only [State.walkEnd, hC] at hw
          cases hd : C.dependencies[i]? with
          | none => simp [hd] at hw
          | some d =>
            simp only [hd, Option.some.injEq] at hw
            rw [hw]
        · intro hop
          exact hchain w1 [i] c C rfl (List.cons_ne_nil _ _) hc hC hop

end Tree

set_option maxRecDepth 100000 in
theorem backward_on_tree_witness :
    ∃ (t : State ℤ) (log : List Nat),
      Node.backward 13 12 (zeroNetState, []) = some (t, log) ∧ log.Nodup := by
  obtain ⟨t, log, h, _, _, hnd, _⟩ := backward_on_tree zeroNetState 12 13 (by decide)
    (by decide) (by decide) (State.treeFrom_of_forest zeroNetState (by decide) 12)
  exact ⟨t, log, h, hnd⟩

theorem backward_after_one_consumer_witness :
    ∃ (t : State ℤ) (log : List Nat) (ws : List (List Nat)),
      Node.backward 4 3 (diamondState, []) = some (t, log) ∧
      log = ws.filterMap (diamondState.walkEnd 3) := by
  obtain ⟨t, log, ws, h, _, hlog, _⟩ :=
    backward_after_one_consumer diamondState 3 4 (by decide) (by decide) (by decide)
  exact ⟨t, log, ws, h, hlog⟩

/-! ## Invariants of the backward pass -/

section Frame

variable {α : Type} [Ring α] [Div α]

/-- A closure leaves every matrix that it does not assign as it is. -/
theorem run_getMat_of_not_written (op : BackwardOp α) (u u' : State α)
    (h : op.run u = some u') (g : Nat) (hg : g ∉ u.written op) :
    u'.getMat g = u.getMat g := by
  cases op with
  | mul tv tg ov og rg =>
    simp only [State.written, List.mem_cons, List.mem_singleton, List.not_mem_nil,
      or_false, not_or] at hg
    simp only [BackwardOp.run] at h
    split at h
    · simp only [Option.some.injEq] at h
      rw [← h, State.getMat_setMat_ne _ _ _ _ (Ne.symm hg.2),
        State.getMat_setMat_ne _ _ _ _ (Ne.symm hg.1)]
    · cases h
  | add tg og rg =>
    simp only [State.written, List.mem_cons, List.mem_singleton, List.not_mem_nil,
      or_false, not_or] at hg
    simp only [BackwardOp.run] at h
    split at h
    · simp only [Option.some.injEq] at h
      rw [← h, State.getMat_setMat_ne _ _ _ _ (Ne.symm hg.2),
        State.getMat_setMat_ne _ _ _ _ (Ne.symm hg.1)]
    · cases h
  | sub tg og rg =>
    simp only [State.written, List.mem_cons, List.mem_singleton, List.not_mem_nil,
      or_false, not_or] at hg
    simp only [BackwardOp.run] at h
    split at h
    · simp only [Option.some.injEq] at h
      rw [← h, State.getMat_setMat_ne _ _ _ _ (Ne.symm hg.2),
        State.getMat_setMat_ne _ _ _ _ (Ne.symm hg.1)]
    · cases h
  | apply tv tg rg fd rows cols =>
    simp only [State.written, List.mem_singleton] at hg
    simp only [BackwardOp.run] at h
    split at h
    · simp only [Option.some.injEq] at h
      rw [← h]
      apply forLoop_invariant (fun x : State α => x.getMat g = u.getMat g)
      · intro i x hx
        apply forLoop_invariant (fun x : State α => x.getMat g = u.getMat g)
        · intro j y hy
          show (y.setMat tg _).getMat g = u.getMat g
          rw [State.getMat_setMat_ne _ _ _ _ (Ne.symm hg)]
          exact hy
        · exact hx
      · rfl
    · cases h
  | transpose tg rg =>
    simp only [State.written, List.mem_singleton] at hg
    simp only [BackwardOp.run] at h
    split at h
    · simp only [Option.some.injEq] at h
      rw [← h, State.getMat_setMat_ne _ _ _ _ (Ne.symm hg)]
    · cases h
  | bce p q =>
    simp only [State.written, List.mem_singleton] at hg
    simp only [BackwardOp.run] at h
    cases hp : u.nodes[p]? with
    | none => rw [hp] at h; cases h
    | some P =>
      cases hq : u.nodes[q]? with
      | none => rw [hp, hq] at h; cases h
      | some T =>
        rw [hp, hq] at h
        simp only at h
        rw [State.getNode_eq u p P hp] at hg
        split at h
        · simp only [Option.some.injEq] at h
          rw [← h]
          apply forLoop_invariant (fun x : State α => x.getMat g = u.getMat g)
          · intro i x hx
            apply forLoop_invariant (fun x : State α => x.getMat g = u.getMat g)
            · intro j y hy
              show (y.setMat P.grads _).getMat g = u.getMat g
              rw [State.getMat_setMat_ne _ _ _ _ (Ne.symm hg)]
              exact hy
            · exact hx
          · rfl
        · cases h

/-- A property of the state that every closure of the graph preserves holds after
`backward`, whatever the root. -/
theorem backward_invariant (Q : State α → Prop) (s0 : State α)
    (hQ : ∀ (n : Nat) (N : Node α) (op : BackwardOp α) (u u' : State α),
      s0.nodes[n]? = some N → N.backward_op = some op →
      u.nodes = s0.nodes → Q u → op.run u = some u' → Q u') (fuel : Nat) :
    ∀ (r : Nat) (u : State α) (log : List Nat) (t : State α) (log' : List Nat),
      u.nodes = s0.nodes → Q u → Node.backward fuel r (u, log) = some (t, log') →
      Q t ∧ t.nodes = s0.nodes := by
  induction fuel with
  | zero =>
    intro r u log t log' _ _ h
    simp [Node.backward] at h
  | succ fuel ih =>
    intro r u log t log' hu hq h
    have hfold : ∀ (ds : List Nat) (u : State α) (log : List Nat),
        u.nodes = s0.nodes → Q u →
        ds.foldlM (fun acc dep => Node.backward fuel dep acc) (u, log) = some (t, log') →
        Q t ∧ t.nodes = s0.nodes := by
      intro ds
      induction ds with
      | nil =>
        intro u log hu hq h
        simp only [List.foldlM_nil, Option.pure_def, Option.some.injEq, Prod.mk.injEq] at h
        rw [← h.1]
        exact ⟨hq, hu⟩
      | cons d ds ihds =>
        intro u log hu hq h
        rw [List.foldlM_cons] at h
        cases h1 : Node.backward fuel d (u, log) with
        | none => rw [h1] at h; simp at h
        | some acc =>
          obtain ⟨u1, log1⟩ := acc
          rw [h1] at h
          simp only [Option.bind_eq_bind, Option.some_bind] at h
          obtain ⟨hq1, hu1⟩ := ih d u log u1 log1 hu hq h1
          exact ihds u1 log1 hu1 hq1 h
    simp only [Node.backward] at h
    cases hN : u.nodes[r]? with
    | none => rw [hN] at h; simp at h
    | some N =>
      rw [hN] at h
      simp only at h
      cases hop : N.backward_op with
      | none =>
        rw [hop] at h
        simp only at h
        exact hfold N.dependencies u log hu hq h
      | some op =>
        rw [hop] at h
        simp only at h
        cases hrun : op.run u with
        | none => rw [hrun] at h; simp at h
        | some u1 =>
          rw [hrun] at h
          simp only [Option.map_some'] at h
          have hq1 : Q u1 := hQ r N op u u1 (hu ▸ hN) hop hu hq hrun
          have hu1 : u1.nodes = s0.nodes := (run_sim op u u1 hrun).1.trans hu
          exact hfold N.dependencies u1 (log ++ [r]) hu1 hq1 h

end Frame

end P1

namespace Matrix

section Zero

variable {α : Type} [NonUnitalNonAssocSemiring α]

theorem transpose_new (r c : Nat) : (Matrix.new r c : Matrix α).transpose = Matrix.new c r := by
  refine eq_of_get (transpose_WF _) (new_WF c r) (transpose_rows _) (transpose_cols _) ?_
  intro i j hi hj
  rw [transpose_rows] at hi
  rw [transpose_cols] at hj
  rw [transpose_get (Matrix.new r c) j i hj hi, get_new, get_new]

/-- The product by a matrix of zeros is the zero matrix. -/
theorem mul_new (A : Matrix α) (r c : Nat) : A.mul (Matrix.new r c) = Matrix.new A.rows c := by
  refine eq_of_get (mul_WF A _) (new_WF A.rows c) (mul_rows A _) (mul_cols A _) ?_
  intro i j hi hj
  rw [mul_rows] at hi
  rw [mul_cols] at hj
  have h1 : (A.mul (Matrix.new r c)).get i j = forLoop A.cols (fun k sum =>
      sum + A.data.getD (i * A.cols + k) 0 * (Matrix.new r c : Matrix α).transpose.get j k) 0 :=
    tabulate_get A.rows c (fun i j => forLoop A.cols (fun k sum =>
      sum + A.data.getD (i * A.cols + k) 0 * (Matrix.new r c : Matrix α).transpose.get j k) 0)
      i j hi hj
  rw [h1, forLoop_sum, get_new]
  apply Finset.sum_eq_zero
  intro k _
  rw [transpose_new, get_new, mul_zero]

/-- The product of a matrix of zeros by a matrix is the zero matrix. -/
theorem new_mul (r c : Nat) (B : Matrix α) :
    (Matrix.new r c : Matrix α).mul B = Matrix.new r B.cols := by
  refine eq_of_get (mul_WF _ B) (new_WF r B.cols) (mul_rows _ B) (mul_cols _ B) ?_
  intro i j hi hj
  rw [mul_rows] at hi
  rw [mul_cols] at hj
  have h1 : ((Matrix.new r c : Matrix α).mul B).get i j = forLoop c (fun k sum =>
      sum + (Matrix.new r c : Matrix α).data.getD (i * c + k) 0 * B.transpose.get j k) 0 :=
    tabulate_get r B.cols (fun i j => forLoop c (fun k sum =>
      sum + (Matrix.new r c : Matrix α).data.getD (i * c + k) 0 * B.transpose.get j k) 0)
      i j hi hj
  rw [h1, forLoop_sum, get_new]
  apply Finset.sum_eq_zero
  intro k _
  have h0 : (Matrix.new r c : Matrix α).data.getD (i * c + k) 0 = 0 :=
    get_new r c i k
  rw [h0, zero_mul]
/-- Adding a matrix of zeros to a matrix of zeros. -/
theorem new_add_new (r c r2 c2 : Nat) :
    (Matrix.new r c : Matrix α).add (Matrix.new r2 c2) = Matrix.new r c := by
  refine eq_of_get (add_WF _ _) (new_WF r c) (add_rows _ _) (add_cols _ _) ?_
  intro i j hi hj
  rw [add_rows] at hi
  rw [add_cols] at hj
  rw [add_get _ _ i j hi hj, get_new, get_new, add_zero]

end Zero

end Matrix

/-! ## The network with zero weights -/

namespace P1
section ZeroNet
variable {α : Type} [Field α]

/-- The constructor of `MLP(2, 2, 1, 0)` whose `initialize` draws `0` everywhere. -/
theorem zeroNet_new :
    MLP.new (State.empty : State α) 2 2 1 0 (fun _ _ => 0) (fun _ _ => 0) =
      (⟨[Matrix.new 2 2, Matrix.new 2 2, Matrix.new 2 1, Matrix.new 2 1,
         Matrix.new 1 2, Matrix.new 1 2, Matrix.new 1 1, Matrix.new 1 1],
        [⟨2, 2, 0, 1, none, []⟩, ⟨2, 1, 2, 3, none, []⟩, ⟨1, 2, 4, 5, none, []⟩,
         ⟨1, 1, 6, 7, none, []⟩], []⟩, ⟨0, 1, 2, 3, 0⟩) := by
  simp [MLP.new, new_eq, MLP.initialize,
    State.empty, State.freshValues, State.freshGrads, State.freshNode, State.getNode,
    State.getMat, State.setMat, forLoop, List.range, List.range.loop, Matrix.set, Matrix.new]

/-- The node of the input `(0, 0)`. -/
theorem zeroNet_input :
    Node.ofMatrix (⟨[Matrix.new 2 2, Matrix.new 2 2, Matrix.new 2 1, Matrix.new 2 1,
         Matrix.new 1 2, Matrix.new 1 2, Matrix.new 1 1, Matrix.new 1 1],
        [⟨2, 2, 0, 1, none, []⟩, ⟨2, 1, 2, 3, none, []⟩, ⟨1, 2, 4, 5, none, []⟩,
         ⟨1, 1, 6, 7, none, []⟩], []⟩ : State α) ⟨2, 1, [0, 0]⟩ =
      (⟨[Matrix.new 2 2, Matrix.new 2 2, Matrix.new 2 1, Matrix.new 2 1,
         Matrix.new 1 2, Matrix.new 1 2, Matrix.new 1 1, Matrix.new 1 1,
         Matrix.new 2 1, Matrix.new 2 1],
        [⟨2, 2, 0, 1, none, []⟩, ⟨2, 1, 2, 3, none, []⟩, ⟨1, 2, 4, 5, none, []⟩,
         ⟨1, 1, 6, 7, none, []⟩, ⟨2, 1, 8, 9, none, []⟩], []⟩, 4) := by
  simp [Node.ofMatrix_eq, State.freshValues, State.freshGrads, State.freshNode, Matrix.new]

/-- The node of the target `t`: the leaves are `zeroNetLeaves t`. -/
theorem zeroNet_target (t : α) :
    Node.ofMatrix (⟨[Matrix.new 2 2, Matrix.new 2 2, Matrix.new 2 1, Matrix.new 2 1,
         Matrix.new 1 2, Matrix.new 1 2, Matrix.new 1 1, Matrix.new 1 1,
         Matrix.new 2 1, Matrix.new 2 1],
        [⟨2, 2, 0, 1, none, []⟩, ⟨2, 1, 2, 3, none, []⟩, ⟨1, 2, 4, 5, none, []⟩,
         ⟨1, 1, 6, 7, none, []⟩, ⟨2, 1, 8, 9, none, []⟩], []⟩ : State α) ⟨1, 1, [t]⟩ =
      (zeroNetLeaves t, 5) := by
  simp [Node.ofMatrix_eq, State.freshValues, State.freshGrads, State.freshNode, Matrix.new,
    zeroNetLeaves]

/-- After the leaves, `zeroNetLoss` is `forward` followed by `binary_cross_entropy`. -/
theorem zeroNetLoss_leaves (exp log : α → α) (t : α) :
    zeroNetLoss exp log t =
      match MLP.forward exp ⟨0, 1, 2, 3, 0⟩ (zeroNetLeaves t) 4 with
      | .error e => .error e
      | .ok (s, output) => binary_cross_entropy log s output 5 := by
  unfold zeroNetLoss
  rw [zeroNet_new]
  simp only []
  rw [zeroNet_input]
  simp only []
  rw [zeroNet_target]


/-- One call of `backward` on a node that has a closure: the closure runs, then the
dependencies are visited in order. -/
theorem backward_closure (fuel r : Nat) (s : State α) (log : List Nat) (N : Node α)
    (op : BackwardOp α) (s1 : State α) (hN : s.nodes[r]? = some N)
    (hop : N.backward_op = some op) (hrun : op.run s = some s1) :
    Node.backward (fuel + 1) r (s, log) =
      N.dependencies.foldlM (fun acc dep => Node.backward fuel dep acc) (s1, log ++ [r]) := by
  simp only [Node.backward, hN, hop, hrun, Option.map_some']

/-- One call of `backward` on a leaf. -/
theorem backward_leaf (fuel r : Nat) (s : State α) (log : List Nat) (N : Node α)
    (hN : s.nodes[r]? = some N) (hop : N.backward_op = none) (hd : N.dependencies = []) :
    Node.backward (fuel + 1) r (s, log) = some (s, log) := by
  simp only [Node.backward, hN, hop, hd, List.foldlM_nil]
  rfl

/-- The values of the forward pass of `zeroNetLoss`: the pre-activations are zero and
the activations are `sigmoid 0`. -/
theorem zeroNetLoss_values (exp log : α → α) (t : α) :
    ∃ V12, zeroNetLoss exp log t = .ok (zeroNetShape exp t (Matrix.new 2 1) (Matrix.new 2 1)
      ⟨2, 1, [sigmoid exp 0, sigmoid exp 0]⟩ (Matrix.new 1 1) (Matrix.new 1 1)
      ⟨1, 1, [sigmoid exp 0]⟩ V12, 12) := by
  rw [zeroNetLoss_leaves]
  unfold MLP.forward
  rw [Node.mul_eq (zeroNetLeaves t) 0 4 ⟨2, 2, 0, 1, none, []⟩ ⟨2, 1, 8, 9, none, []⟩ rfl rfl rfl]
  simp only []
  generalize hV6 : ((zeroNetLeaves t).getMat 0).mul ((zeroNetLeaves t).getMat 8) = V6
  have hr6 : V6.rows = 2 := by rw [← hV6, Matrix.mul_rows]; rfl
  have hc6 : V6.cols = 1 := by rw [← hV6, Matrix.mul_cols]; rfl
  have e6 : V6 = Matrix.new 2 1 := by
    rw [← hV6]
    exact Matrix.mul_new _ 2 1
  clear hV6
  simp only [zeroNetLeaves]
  simp only [State.recorded, State.freshValues, State.freshGrads,
    State.freshNode, hr6, hc6, List.length_cons, List.length_nil, List.cons_append,
    List.nil_append, Nat.reduceAdd]
  rw [Node.add_eq]
  case ha => exact rfl
  case hb => exact rfl
  case hr => exact rfl
  case hc => exact rfl
  simp only []
  generalize hV7 : (Matrix.add _ _ : Matrix α) = V7
  have hr7 : V7.rows = 2 := by rw [← hV7, Matrix.add_rows]; exact hr6
  have hc7 : V7.cols = 1 := by rw [← hV7, Matrix.add_cols]; exact hc6
  have e7 : V7 = Matrix.new 2 1 := by
    rw [← hV7]
    show V6.add (Matrix.new 2 1) = _
    rw [e6, Matrix.new_add_new]
  clear hV7
  simp only [State.recorded, State.freshValues, State.freshGrads,
    State.freshNode, hr7, hc7, List.length_cons, List.length_nil, List.cons_append,
    List.nil_append, Nat.reduceAdd]
  rw [Node.apply_eq_some]
  case ha => exact rfl
  simp only []
  generalize hV8 : (Matrix.apply _ _ : Matrix α) = V8
  have hr8 : V8.rows = 2 := by rw [← hV8, Matrix.apply_rows]; exact hr7
  have hc8 : V8.cols = 1 := by rw [← hV8, Matrix.apply_cols]; exact hc7
  have e8 : V8 = ⟨2, 1, [sigmoid exp 0, sigmoid exp 0]⟩ := by
    rw [← hV8]
    show V7.apply (sigmoid exp) = _
    rw [e7]
    rfl
  clear hV8
  simp only [State.recorded, State.freshValues, State.freshGrads,
    State.freshNode, hr8, hc8, List.length_cons, List.length_nil, List.cons_append,
    List.nil_append, Nat.reduceAdd]
  rw [Node.mul_eq]
  case ha => exact rfl
  case hb => exact rfl
  case hdim => exact rfl
  simp only []
  generalize hV9 : (Matrix.mul _ _ : Matrix α) = V9
  have hr9 : V9.rows = 1 := by rw [← hV9, Matrix.mul_rows]; rfl
  have hc9 : V9.cols = 1 := by rw [← hV9, Matrix.mul_cols]; exact hc8
  have e9 : V9 = Matrix.new 1 1 := by
    rw [← hV9]
    show (Matrix.new 1 2).mul V8 = _
    rw [Matrix.new_mul, hc8]
  clear hV9
  simp only [State.recorded, State.freshValues, State.freshGrads,
    State.freshNode, hr9, hc9, List.length_cons, List.length_nil, List.cons_append,
    List.nil_append, Nat.reduceAdd]
  rw [Node.add_eq]
  case ha => exact rfl
  case hb => exact rfl
  case hr => exact rfl
  case hc => exact rfl
  simp only []
  generalize hV10 : (Matrix.add _ _ : Matrix α) = V10
  have hr10 : V10.rows = 1 := by rw [← hV10, Matrix.add_rows]; exact hr9
  have hc10 : V10.cols = 1 := by rw [← hV10, Matrix.add_cols]; exact hc9
  have e10 : V10 = Matrix.new 1 1 := by
    rw [← hV10]
    show V9.add (Matrix.new 1 1) = _
    rw [e9, Matrix.new_add_new]
  clear hV10
  simp only [State.recorded, State.freshValues, State.freshGrads,
    State.freshNode, hr10, hc10, List.length_cons, List.length_nil, List.cons_append,
    List.nil_append, Nat.reduceAdd]
  rw [Node.apply_eq_some]
  case ha => exact rfl
  simp only []
  generalize hV11 : (Matrix.apply _ _ : Matrix α) = V11
  have hr11 : V11.rows = 1 := by rw [← hV11, Matrix.apply_rows]; exact hr10
  have hc11 : V11.cols = 1 := by rw [← hV11, Matrix.apply_cols]; exact hc10
  have e11 : V11 = ⟨1, 1, [sigmoid exp 0]⟩ := by
    rw [← hV11]
    show V10.apply (sigmoid exp) = _
    rw [e10]
    rfl
  clear hV11
  simp only [State.recorded, State.freshValues, State.freshGrads,
    State.freshNode, hr11, hc11, List.length_cons, List.length_nil, List.cons_append,
    List.nil_append, Nat.reduceAdd]
  rw [binary_cross_entropy_eq]
  case hp => exact rfl
  case hq => exact rfl
  case hr => exact rfl
  case hc => exact rfl
  simp only []
  generalize hV12 : (Matrix.set _ _ _ _ : Matrix α) = V12
  have hr12 : V12.rows = 1 := by rw [← hV12, Matrix.set_rows]; rfl
  have hc12 : V12.cols = 1 := by rw [← hV12, Matrix.set_cols]; rfl
  clear hV12
  simp only [State.recorded, State.freshValues, State.freshGrads,
    State.freshNode, hr12, hc12, List.length_cons, List.length_nil, List.cons_append,
    List.nil_append, Nat.reduceAdd]
  subst e6 e7 e8 e9 e10 e11
  exact ⟨V12, rfl⟩


set_option maxHeartbeats 4000000 in
/-- The backward pass from the loss node of `zeroNetLoss`, closure by closure, the
gradient of the loss holding any matrix `G`: the gradients it leaves. -/
theorem zeroNet_backward (exp : α → α) (t : α) (V12 G : Matrix α) :
    ∃ u, Node.backward 13 12
      (((zeroNetShape exp t (Matrix.new 2 1) (Matrix.new 2 1)
        ⟨2, 1, [sigmoid exp 0, sigmoid exp 0]⟩ (Matrix.new 1 1) (Matrix.new 1 1)
        ⟨1, 1, [sigmoid exp 0]⟩ V12).setMat 25 G), []) = some (u, [12, 11, 10, 9, 8, 7, 6]) ∧
      u.nodes = ((zeroNetShape exp t (Matrix.new 2 1) (Matrix.new 2 1)
        ⟨2, 1, [sigmoid exp 0, sigmoid exp 0]⟩ (Matrix.new 1 1) (Matrix.new 1 1)
        ⟨1, 1, [sigmoid exp 0]⟩ V12).setMat 25 G).nodes ∧
      u.getMat 23 = ⟨1, 1, [-t / (sigmoid exp 0 + eps) + (1 - t) / (1 - sigmoid exp 0 + eps)]⟩ ∧
      u.getMat 21 = ⟨1, 1, [(-t / (sigmoid exp 0 + eps) + (1 - t) / (1 - sigmoid exp 0 + eps)) *
        sigmoid_derivative exp 0]⟩ ∧
      u.getMat 19 = u.getMat 21 ∧ u.getMat 7 = u.getMat 21 ∧
      u.getMat 5 = ⟨1, 2, [(-t / (sigmoid exp 0 + eps) + (1 - t) / (1 - sigmoid exp 0 + eps)) *
          sigmoid_derivative exp 0 * sigmoid exp 0,
        (-t / (sigmoid exp 0 + eps) + (1 - t) / (1 - sigmoid exp 0 + eps)) *
          sigmoid_derivative exp 0 * sigmoid exp 0]⟩ ∧
      u.getMat 17 = ⟨2, 1, [0, 0]⟩ ∧ u.getMat 15 = ⟨2, 1, [0, 0]⟩ ∧
      u.getMat 13 = ⟨2, 1, [0, 0]⟩ ∧ u.getMat 3 = ⟨2, 1, [0, 0]⟩ ∧
      u.getMat 9 = ⟨2, 1, [0, 0]⟩ ∧ u.getMat 11 = ⟨1, 1, [0]⟩ ∧
      u.getMat 1 = ⟨2, 2, [0, 0, 0, 0]⟩ := by
  simp only [zeroNetShape, zeroNetLeaves, State.setMat, List.cons_append, List.nil_append,
    List.set_cons_succ, List.set_cons_zero]
  rw [backward_closure]
  case hN => exact rfl
  case hop => exact rfl
  case hrun =>
    exact run_bce _ 11 5 _ _ rfl rfl (by simp [State.validMat]) (by simp [State.validMat])
      (by simp [State.validMat]) (by simp) (by simp)
  simp only [State.setMat, State.getMat, Matrix.updLoop, forLoop, List.range, List.range.loop,
    List.foldl_cons, List.foldl_nil, Matrix.set, Matrix.get, Matrix.new, Matrix.add, Matrix.mul,
    Matrix.transpose, Matrix.numRows, Matrix.numCols, List.getD_cons_succ,
    List.getD_cons_zero, List.set_cons_succ, List.set_cons_zero, List.replicate, Nat.reduceMul,
    List.getElem_cons_succ, List.getElem_cons_zero, Nat.reduceAdd, zero_add, add_zero, mul_zero,
    zero_mul, Nat.cast_one, div_one, List.foldlM_cons, List.foldlM_nil, List.nil_append,
    List.cons_append, Option.bind_eq_bind, Option.some_bind, Option.pure_def, Option.bind_some]
  rw [backward_closure]
  case hN => exact rfl
  case hop => exact rfl
  case hrun =>
    exact run_apply _ _ _ _ _ _ _ (by simp [State.validMat]) (by simp [State.validMat])
      (by simp [State.validMat]) (by decide) (by decide)
  simp only [State.setMat, State.getMat, Matrix.updLoop, forLoop, List.range, List.range.loop,
    List.foldl_cons, List.foldl_nil, Matrix.set, Matrix.get, Matrix.new, Matrix.add, Matrix.mul,
    Matrix.transpose, Matrix.numRows, Matrix.numCols, List.getD_cons_succ,
    List.getD_cons_zero, List.set_cons_succ, List.set_cons_zero, List.replicate, Nat.reduceMul,
    List.getElem_cons_succ, List.getElem_cons_zero, Nat.reduceAdd, zero_add, add_zero, mul_zero,
    zero_mul, Nat.cast_one, div_one, List.foldlM_cons, List.foldlM_nil, List.nil_append,
    List.cons_append, Option.bind_eq_bind, Option.some_bind, Option.pure_def, Option.bind_some]
  rw [backward_closure]
  case hN => exact rfl
  case hop => exact rfl
  case hrun =>
    exact run_add _ _ _ _ (by simp [State.validMat]) (by simp [State.validMat]) (by simp [State.validMat])
  simp only [State.setMat, State.getMat, Matrix.updLoop, forLoop, List.range, List.range.loop,
    List.foldl_cons, List.foldl_nil, Matrix.set, Matrix.get, Matrix.new, Matrix.add, Matrix.mul,
    Matrix.transpose, Matrix.numRows, Matrix.numCols, List.getD_cons_succ,
    List.getD_cons_zero, List.set_cons_succ, List.set_cons_zero, List.replicate, Nat.reduceMul,
    List.getElem_cons_succ, List.getElem_cons_zero, Nat.reduceAdd, zero_add, add_zero, mul_zero,
    zero_mul, Nat.cast_one, div_one, List.foldlM_cons, List.foldlM_nil, List.nil_append,
    List.cons_append, Option.bind_eq_bind, Option.some_bind, Option.pure_def, Option.bind_some]
  rw [backward_closure]
  case hN => exact rfl
  case hop => exact rfl
  case hrun =>
    exact run_mul _ _ _ _ _ _ (by simp [State.validMat]) (by simp [State.validMat]) (by simp [State.validMat])
      (by simp [State.validMat]) (by simp [State.validMat])
  simp only [State.setMat, State.getMat, Matrix.updLoop, forLoop, List.range, List.range.loop,
    List.foldl_cons, List.foldl_nil, Matrix.set, Matrix.get, Matrix.new, Matrix.add, Matrix.mul,
    Matrix.transpose, Matrix.numRows, Matrix.numCols, List.getD_cons_succ,
    List.getD_cons_zero, List.set_cons_succ, List.set_cons_zero, List.replicate, Nat.reduceMul,
    List.getElem_cons_succ, List.getElem_cons_zero, Nat.reduceAdd, zero_add, add_zero, mul_zero,
    zero_mul, Nat.cast_one, div_one, List.foldlM_cons, List.foldlM_nil, List.nil_append,
    List.cons_append, Option.bind_eq_bind, Option.some_bind, Option.pure_def, Option.bind_some]
  rw [backward_leaf]
  case hN => exact rfl
  case hop => exact rfl
  case hd => exact rfl
  simp only [Option.some_bind]
  rw [backward_closure]
  case hN => exact rfl
  case hop => exact rfl
  case hrun =>
    exact run_apply _ _ _ _ _ _ _ (by simp [State.validMat]) (by simp [State.validMat])
      (by simp [State.validMat]) (by decide) (by decide)
  simp only [State.setMat, State.getMat, Matrix.updLoop, forLoop, List.range, List.range.loop,
    List.foldl_cons, List.foldl_nil, Matrix.set, Matrix.get, Matrix.new, Matrix.add, Matrix.mul,
    Matrix.transpose, Matrix.numRows, Matrix.numCols, List.getD_cons_succ,
    List.getD_cons_zero, List.set_cons_succ, List.set_cons_zero, List.replicate, Nat.reduceMul,
    List.getElem_cons_succ, List.getElem_cons_zero, Nat.reduceAdd, zero_add, add_zero, mul_zero,
    zero_mul, Nat.cast_one, div_one, List.foldlM_cons, List.foldlM_nil, List.nil_append,
    List.cons_append, Option.bind_eq_bind, Option.some_bind, Option.pure_def, Option.bind_some]
  rw [backward_closure]
  case hN => exact rfl
  case hop => exact rfl
  case hrun =>
    exact run_add _ _ _ _ (by simp [State.validMat]) (by simp [State.validMat]) (by simp [State.validMat])
  simp only [State.setMat, State.getMat, Matrix.updLoop, forLoop, List.range, List.range.loop,
    List.foldl_cons, List.foldl_nil, Matrix.set, Matrix.get, Matrix.new, Matrix.add, Matrix.mul,
    Matrix.transpose, Matrix.numRows, Matrix.numCols, List.getD_cons_succ,
    List.getD_cons_zero, List.set_cons_succ, List.set_cons_zero, List.replicate, Nat.reduceMul,
    List.getElem_cons_succ, List.getElem_cons_zero, Nat.reduceAdd, zero_add, add_zero, mul_zero,
    zero_mul, Nat.cast_one, div_one, List.foldlM_cons, List.foldlM_nil, List.nil_append,
    List.cons_append, Option.bind_eq_bind, Option.some_bind, Option.pure_def, Option.bind_some]
  rw [backward_closure]
  case hN => exact rfl
  case hop => exact rfl
  case hrun =>
    exact run_mul _ _ _ _ _ _ (by simp [State.validMat]) (by simp [State.validMat]) (by simp [State.validMat])
      (by simp [State.validMat]) (by simp [State.validMat])
  simp only [State.setMat, State.getMat, Matrix.updLoop, forLoop, List.range, List.range.loop,
    List.foldl_cons, List.foldl_nil, Matrix.set, Matrix.get, Matrix.new, Matrix.add, Matrix.mul,
    Matrix.transpose, Matrix.numRows, Matrix.numCols, List.getD_cons_succ,
    List.getD_cons_zero, List.set_cons_succ, List.set_cons_zero, List.replicate, Nat.reduceMul,
    List.getElem_cons_succ, List.getElem_cons_zero, Nat.reduceAdd, zero_add, add_zero, mul_zero,
    zero_mul, Nat.cast_one, div_one, List.foldlM_cons, List.foldlM_nil, List.nil_append,
    List.cons_append, Option.bind_eq_bind, Option.some_bind, Option.pure_def, Option.bind_some]
  rw [backward_leaf]
  case hN => exact rfl
  case hop => exact rfl
  case hd => exact rfl
  simp only [Option.some_bind]
  rw [backward_leaf]
  case hN => exact rfl
  case hop => exact rfl
  case hd => exact rfl
  simp only [Option.some_bind]
  rw [backward_leaf]
  case hN => exact rfl
  case hop => exact rfl
  case hd => exact rfl
  simp only [Option.some_bind]
  rw [backward_leaf]
  case hN => exact rfl
  case hop => exact rfl
  case hd => exact rfl
  exact ⟨_, rfl, rfl, rfl, rfl, rfl, rfl, rfl, rfl, rfl, rfl, rfl, rfl, rfl, rfl⟩

/-- Claim C33. For the network `MLP(2, 2, 1, lr)` with all weights and biases zero, the
`2 × 1` input `(0, 0)` and any target `t`, whatever `exp` and `log` are: `forward`
followed by `binary_cross_entropy` returns the loss node `12`, and `backward` from
that node (its gradient seeded with any value, `1` in `MLP::train`) returns after
running the closures of the seven operator nodes. With `p = sigmoid 0` the output,
the closures leave `g = -t / (p + eps) + (1 - t) / (1 - p + eps)` in the gradient of
the output (node `11`), `g * sigmoid_derivative 0` in the gradients of `z2`
(node `10`), of `W2 * a1` (node `9`) and of `b2` (node `3`),
`g * sigmoid_derivative 0 * p` in both entries of the gradient of `W2` (node `2`),
and zero in the gradients of `a1`, `z1`, `W1 * x`, `b1` and `x` (nodes `8`, `7`,
`6`, `1`, `4`), `W2` being zero; every entry of the gradient of `W1` (node `0`) is
zero. -/
theorem zero_weights_W1_gradient_zero (exp log : α → α) (t seed : α) :
    ∃ s u trace,
      zeroNetLoss exp log t = .ok (s, 12) ∧
      Node.backward 13 12
        (s.setMat (s.getNode 12).grads ((s.getMat (s.getNode 12).grads).set 0 0 seed), []) =
          some (u, trace) ∧
      trace = [12, 11, 10, 9, 8, 7, 6] ∧
      u.getMat (u.getNode 11).grads =
        ⟨1, 1, [-t / (sigmoid exp 0 + eps) + (1 - t) / (1 - sigmoid exp 0 + eps)]⟩ ∧
      u.getMat (u.getNode 10).grads =
        ⟨1, 1, [(-t / (sigmoid exp 0 + eps) + (1 - t) / (1 - sigmoid exp 0 + eps)) *
          sigmoid_derivative exp 0]⟩ ∧
      u.getMat (u.getNode 9).grads = u.getMat (u.getNode 10).grads ∧
      u.getMat (u.getNode 3).grads = u.getMat (u.getNode 10).grads ∧
      u.getMat (u.getNode 2).grads =
        ⟨1, 2, [(-t / (sigmoid exp 0 + eps) + (1 - t) / (1 - sigmoid exp 0 + eps)) *
            sigmoid_derivative exp 0 * sigmoid exp 0,
          (-t / (sigmoid exp 0 + eps) + (1 - t) / (1 - sigmoid exp 0 + eps)) *
            sigmoid_derivative exp 0 * sigmoid exp 0]⟩ ∧
      u.getMat (u.getNode 8).grads = ⟨2, 1, [0, 0]⟩ ∧
      u.getMat (u.getNode 7).grads = ⟨2, 1, [0, 0]⟩ ∧
      u.getMat (u.getNode 6).grads = ⟨2, 1, [0, 0]⟩ ∧
      u.getMat (u.getNode 1).grads = ⟨2, 1, [0, 0]⟩ ∧
      u.getMat (u.getNode 4).grads = ⟨2, 1, [0, 0]⟩ ∧
      u.getMat (u.getNode 5).grads = ⟨1, 1, [0]⟩ ∧
      u.getMat (u.getNode 0).grads = ⟨2, 2, [0, 0, 0, 0]⟩ := by
  obtain ⟨V12, hS⟩ := zeroNetLoss_values exp log t
  obtain ⟨u, hu, hnodes, h23, h21, h19, h7, h5, h17, h15, h13, h3, h9, h11, h1⟩ :=
    zeroNet_backward exp t V12 ⟨1, 1, [seed]⟩
  refine ⟨_, u, _, hS, hu, rfl, ?_⟩
  simp only [State.getNode, hnodes]
  exact ⟨h23, h21, h19, h7, h5, h17, h15, h13, h3, h9, h11, h1⟩

end ZeroNet
end P1
end Linma
